import Mathlib

/-!
# execjail: policy walk, manifest parser and materializer

A shallow embedding of `src/jail/execjail.cc`.  C and C++ strings are lists of
characters (one `Char` per byte); a buffer filled by `fgets` may hold NUL
bytes and is cut at the first of them where the code takes its `strlen`.
Positions are natural numbers and `std::string::npos` is `none`.
-/

namespace Execjail

/-- A C or C++ byte string. -/
abbrev Str := List Char

/-- The `std::string::substr(pos, n)` member: at most `n` characters from `pos`. -/
def substr (s : Str) (pos n : Nat) : Str := (s.drop pos).take n

/-- The `std::string::substr(pos)` member: everything from `pos` on. -/
def substrFrom (s : Str) (pos : Nat) : Str := s.drop pos

/-- The character `s[i]` of a C string; the terminating NUL at `i = length`. -/
def charAt (s : Str) (i : Nat) : Char := s.getD i (Char.ofNat 0)

/-- The `strstr(hay, needle)` call, as the offset of the first occurrence. -/
def strstr : Str → Str → Option Nat
  | [], needle => if needle.isPrefixOf [] then some 0 else none
  | c :: hay, needle =>
    if needle.isPrefixOf (c :: hay) then some 0
    else (strstr hay needle).map (· + 1)

/-- The `strspn(s, accept)` call: length of the initial run of accepted characters. -/
def strspn (s accept : Str) : Nat := (s.takeWhile (fun c => accept.elem c)).length

/-- The `isspace` test in the "C" locale. -/
def isspace (c : Char) : Bool :=
  c == ' ' || c == '\t' || c == '\n' || c == Char.ofNat 11 || c == Char.ofNat 12 || c == '\r'

/-- The `std::string::find(c, pos)` member. -/
def strFind (s : Str) (c : Char) (pos : Nat) : Option Nat :=
  match (s.drop pos).indexOf? c with
  | some k => some (pos + k)
  | none => none

/-- Index of the last `c` among the first `n` characters of `s`. -/
def rfindBelow (s : Str) (c : Char) : Nat → Option Nat
  | 0 => none
  | n + 1 => if s.get? n = some c then some n else rfindBelow s c n

/-- The `std::string::rfind(c, pos)` member: last occurrence at an index `≤ pos`. -/
def strRfind (s : Str) (c : Char) (pos : Nat) : Option Nat :=
  rfindBelow s c (min (pos + 1) s.length)

/-- The `std::string::rfind(c)` member with the default position. -/
def strRfindAll (s : Str) (c : Char) : Option Nat := rfindBelow s c s.length

/-- Byte-wise lexicographic `operator<` of `std::string`. -/
def strLt : Str → Str → Bool
  | [], [] => false
  | [], _ :: _ => true
  | _ :: _, [] => false
  | a :: as, b :: bs => a.toNat < b.toNat || (a == b && strLt as bs)

/-! ## `check_filename` -/

/-- The `allowed_chars` literal of `check_filename`. -/
def allowed_chars : Str :=
  "/0123456789-._ABCDEFGHIJKLMNOPQRSTUVWXYZabcdefghijklmnopqrstuvwxyz~".data

/-- The `while ((dotdot = strstr(name2, "..")))` loop of `check_filename`;
`name2` is kept as an offset into `name`.  Returns `false` where the C code
returns 0.  The first argument bounds the number of iterations. -/
def dotdot_loop (name : Str) : Nat → Nat → Bool
  | 0, _ => true
  | fuel + 1, name2 =>
    match strstr (name.drop name2) ['.', '.'] with
    | none => true
    | some k =>
      let dotdot := name2 + k
      if (dotdot == 0 || charAt name (dotdot - 1) == '/')
          && (charAt name (dotdot + 2) == Char.ofNat 0 || charAt name (dotdot + 2) == '/') then
        false
      else
        dotdot_loop name fuel (dotdot + 2)

/-- The function `check_filename(name, allow_slash, allow_absolute)`. -/
def check_filename (name : Str) (allow_slash allow_absolute : Bool) : Bool :=
  let allowed := if !allow_slash then allowed_chars.drop 1 else allowed_chars
  if strspn name allowed != name.length || charAt name 0 == '~' then false
  else if !dotdot_loop name (name.length + 1) 0 then false
  else if !allow_absolute && charAt name 0 == '/' then false
  else if name.length ≥ 1024 then false
  else true

/-- Split a string at every character satisfying `p` (empty pieces kept). -/
def splitBy (p : Char → Bool) : Str → List Str
  | [] => [[]]
  | c :: cs =>
    if p c then [] :: splitBy p cs
    else match splitBy p cs with
      | [] => [[c]]
      | w :: ws => (c :: w) :: ws

/-- The `/`-delimited components of a path string (empty components kept). -/
def slashComponents (s : Str) : List Str := splitBy (fun c => c == '/') s

/-- A `..` component starts at index `i` of `name`. -/
def DotDotAt (name : Str) (i : Nat) : Prop :=
  ['.', '.'] <+: name.drop i ∧ (i = 0 ∨ name.get? (i - 1) = some '/')
    ∧ (name.get? (i + 2) = none ∨ name.get? (i + 2) = some '/')

/-- A character the specification allows in a name: letter, digit, one of
`. _ - ~`, or `/` when slashes are allowed. -/
def NameChar (allow_slash : Bool) (c : Char) : Prop :=
  c.isAlpha = true ∨ c.isDigit = true ∨ c = '.' ∨ c = '_' ∨ c = '-' ∨ c = '~'
    ∨ (c = '/' ∧ allow_slash = true)

/-- Whether a character is allowed in a name can be computed. -/
instance NameChar.decidable (allow_slash : Bool) (c : Char) : Decidable (NameChar allow_slash c) := by
  unfold NameChar
  infer_instance

end Execjail

namespace Execjail

/-! ## The environment -/

/-- Equality of results is decidable. -/
instance instDecidableEqExcept {ε α : Type} [DecidableEq ε] [DecidableEq α] :
    DecidableEq (Except ε α)
  | .ok a, .ok b =>
    if h : a = b then isTrue (by rw [h]) else isFalse (fun h1 => h (Except.ok.inj h1))
  | .error a, .error b =>
    if h : a = b then isTrue (by rw [h]) else isFalse (fun h1 => h (Except.error.inj h1))
  | .ok _, .error _ => isFalse (fun h => Except.noConfusion h)
  | .error _, .ok _ => isFalse (fun h => Except.noConfusion h)

/-- The fields of `struct stat` the program reads. -/
structure Stat where
  st_mode : Nat
  st_uid : Nat
  st_gid : Nat
  st_dev : Nat
  st_rdev : Nat
  st_size : Nat
  st_mtime : Nat
deriving DecidableEq

/-- The macro `ROOT`. -/
def ROOT : Nat := 0

/-- The macro `FLAG_CP`. -/
def FLAG_CP : Nat := 1

/-! Constants of `<sys/stat.h>` and `<errno.h>` (Linux values). -/

def S_IFMT : Nat := 0o170000
def S_IFSOCK : Nat := 0o140000
def S_IFLNK : Nat := 0o120000
def S_IFREG : Nat := 0o100000
def S_IFBLK : Nat := 0o060000
def S_IFDIR : Nat := 0o040000
def S_IFCHR : Nat := 0o020000
def S_IFIFO : Nat := 0o010000
def S_ISUID : Nat := 0o4000
def S_ISGID : Nat := 0o2000
def S_IRWXU : Nat := 0o700
def S_IRWXG : Nat := 0o070
def S_IRWXO : Nat := 0o007
def S_IWGRP : Nat := 0o020
def S_IWOTH : Nat := 0o002
def ENOENT : Nat := 2
def EEXIST : Nat := 17
def EXDEV : Nat := 18
def ELOOP : Nat := 40

def S_ISDIR (m : Nat) : Bool := m &&& S_IFMT == S_IFDIR
def S_ISREG (m : Nat) : Bool := m &&& S_IFMT == S_IFREG
def S_ISLNK (m : Nat) : Bool := m &&& S_IFMT == S_IFLNK
def S_ISCHR (m : Nat) : Bool := m &&& S_IFMT == S_IFCHR
def S_ISBLK (m : Nat) : Bool := m &&& S_IFMT == S_IFBLK
def S_ISFIFO (m : Nat) : Bool := m &&& S_IFMT == S_IFIFO

/-- A system call that changes the filesystem, with its arguments. -/
inductive Cmd where
  | mkdir (path : Str) (mode : Nat)
  | mkdirat (path : Str) (mode : Nat)
  | link (oldpath newpath : Str)
  | chmod (path : Str) (mode : Nat)
  | lchown (path : Str) (owner group : Nat)
  | mount (fsname dst type : Str) (opts : Nat) (data : Option Str)
  | umount (dir : Str)
  | mknod (path : Str) (mode rdev : Nat)
  | symlink (target path : Str)
  | cp (src lnk : Str)
  | renameat (oldpath newpath : Str)
  | unlinkat (path : Str) (removedir : Bool)
deriving DecidableEq

/-- How the child running `/bin/cp -p` ends, as `fork` and `waitpid` report it. -/
inductive CpResult where
  | exited_zero
  | fork_failed
  | bad_exit_status
  | did_not_exit
deriving DecidableEq

/-- One entry of `/proc/mounts`, as `getmntent` returns it. -/
structure mntent where
  mnt_fsname : Str
  mnt_dir : Str
  mnt_type : Str
  mnt_opts : Str
deriving DecidableEq

/-- The environment the program runs in.  Every answer may depend on the
list of filesystem-changing calls issued so far (oldest first).  A call
result of `none` is success, `some e` is failure with `errno = e`. -/
structure World where
  /-- Result of `lstat(path)`. -/
  lstat : List Cmd → Str → Except Nat Stat
  /-- Result of `stat(path)`. -/
  stat : List Cmd → Str → Except Nat Stat
  /-- Result of `readlink(path)`: the whole link text. -/
  readlink : List Cmd → Str → Except Nat Str
  /-- Result of issuing a filesystem-changing call. -/
  run : List Cmd → Cmd → Option Nat
  /-- Result of `openat(parentfd, component, O_PATH | O_CLOEXEC | O_NOFOLLOW)`
  for the directory at the given path. -/
  openat_dir : List Cmd → Str → Option Nat
  /-- Result of `fstat` on the handle of the directory at the given path. -/
  fstat_dir : List Cmd → Str → Except Nat Stat
  /-- Result of `openat(dirfd, "JAIL61", O_RDONLY | O_NOFOLLOW)` in the
  directory at the given path. -/
  open_jail61 : List Cmd → Str → Option Nat
  /-- Result of `fstat` on the open `JAIL61` of the directory. -/
  fstat_jail61 : List Cmd → Str → Except Nat Stat
  /-- Result of `read` on the open `JAIL61`: the bytes available. -/
  read_jail61 : List Cmd → Str → Except Nat Str
  /-- How the child spawned for `/bin/cp -p src lnk` ends. -/
  cp_result : List Cmd → Str → Str → CpResult
  /-- The entries of `/proc/mounts`, or `none` when `setmntent` fails. -/
  mounts : List Cmd → Option (List mntent)

end Execjail

namespace Execjail

/-! ## The policy walk of `main` -/

/-- The function `take_word(str, pos)`.  The pair `(str, pos)` is kept as the
unread rest `str.substr(pos)`; the result is the word and the new rest. -/
def take_word (s : Str) : Str × Str :=
  let s1 := s.dropWhile (fun c => c != '\n' && isspace c)
  match s1 with
  | c :: _ =>
    if !isspace c then
      (s1.takeWhile (fun c => !isspace c), s1.dropWhile (fun c => !isspace c))
    else ([], s1)
  | [] => ([], [])

/-- The loop `while (take_word(str, pos).length()) ;` that consumes the extra
words of a record.  The first argument bounds the number of iterations. -/
def skip_words : Nat → Str → Str
  | 0, s => s
  | fuel + 1, s =>
    let r := take_word s
    if r.1.length != 0 then skip_words fuel r.2 else r.2

/-- Why the policy walk ends the process with `exit(1)`. -/
inductive WalkExit where
  /-- The message `SUPERDIR: strerror` after `openat`. -/
  | open_failed (superdir : Str) (errno : Nat)
  /-- The message `mkdir SUPERDIR: strerror`. -/
  | mkdir_failed (superdir : Str) (errno : Nat)
  /-- The message `SUPERDIR: strerror` after `fstat`. -/
  | fstat_failed (superdir : Str) (errno : Nat)
  /-- The message `SUPERDIR: Not a directory`. -/
  | not_a_directory (superdir : Str)
  /-- The message `SUPERDIR: Not owned by root`. -/
  | not_owned_by_root (superdir : Str)
  /-- The message `SUPERDIR/JAIL61: strerror`. -/
  | jail61_failed (superdir : Str) (errno : Nat)
  /-- The message `SUPERDIR/JAIL61: Jails are not allowed under here`. -/
  | nojail_here (superdir : Str)
  /-- The message `SUPERDIR/JAIL61: Jails are not allowed under WORD2`. -/
  | nojail_under (superdir word2 : Str)
  /-- The message "No JAIL61 above here contains allowjail". -/
  | no_allowjail
deriving DecidableEq

/-- The variables of the policy walk, the filesystem-changing calls it has
issued and the `JAIL61` files it has ignored with a warning. -/
structure WalkState where
  found_superdir : Bool
  jailsuperdir : Str
  jailparent : Str
  jailcomponent : Str
  cmds : List Cmd
  ignored : List Str
deriving DecidableEq

/-- The variables at the start of the walk. -/
def walk_init : WalkState :=
  { found_superdir := false, jailsuperdir := [], jailparent := [], jailcomponent := [],
    cmds := [], ignored := [] }

/-- The statement `if (word2.length() && word2[word2.length() - 1] != '/') word2 += '/'`. -/
def add_slash (word2 : Str) : Str :=
  if word2.length != 0 && word2.getLast? != some '/' then word2 ++ ['/'] else word2

/-- The test `dirmatch`: `word2` is non-empty and `jaildir` begins with it. -/
def dirmatch (jaildir word2 : Str) : Bool :=
  word2.length != 0 && substr jaildir 0 word2.length == word2

/-- One record of a `JAIL61`, once its two words are known (lines 1012 to 1024). -/
def jail61_record (jaildir superdir word1 word2 : Str) (st : WalkState) :
    Except WalkExit WalkState :=
  let word2 := add_slash word2
  let dm := dirmatch jaildir word2
  if word1 == "nojail".data && word2.length == 0 then
    .error (.nojail_here superdir)
  else if word1 == "nojail".data && dm then
    .error (.nojail_under superdir word2)
  else if word1 == "allowjail".data && dm then
    .ok { st with found_superdir := true, jailsuperdir := word2 }
  else
    .ok st

/-- The loop `while (pos < str.length())` over the records of a `JAIL61`;
the argument `s` is the unread rest of `str`.  The first argument bounds the
number of iterations. -/
def jail61_records (jaildir superdir : Str) : Nat → Str → WalkState → Except WalkExit WalkState
  | 0, _, st => .ok st
  | fuel + 1, s, st =>
    if s.length == 0 then .ok st
    else
      let r1 := take_word s
      let r2 := take_word r1.2
      let s3 := skip_words r2.2.length r2.2
      let s4 := s3.dropWhile (fun c => c == '\n')
      match jail61_record jaildir superdir r1.1 r2.1 st with
      | .error e => .error e
      | .ok st1 => jail61_records jaildir superdir fuel s4 st1

/-- Parsing of the string `str` built from the read buffer. -/
def jail61_parse (jaildir superdir str : Str) (st : WalkState) : Except WalkExit WalkState :=
  jail61_records jaildir superdir str.length str st

/-- The test that makes the walk ignore a `JAIL61`: not owned by root, or
group-writable with a non-root group, or other-writable. -/
def jail61_untrusted (s : Stat) : Bool :=
  s.st_uid != ROOT || (s.st_gid != ROOT && (s.st_mode &&& S_IWGRP) != 0)
    || (s.st_mode &&& S_IWOTH) != 0

/-- What the walk does with the `JAIL61` of the directory `superdir`
(lines 980 to 1002): `.ok (some str)` when the file is read and parsed,
`.ok none` when it is absent or ignored. -/
def jail61_consult (W : World) (cmds : List Cmd) (superdir : Str) :
    Except WalkExit (Option Str) :=
  match W.open_jail61 cmds superdir with
  | some e => if e != ENOENT && e != ELOOP then .error (.jail61_failed superdir e) else .ok none
  | none =>
    match W.fstat_jail61 cmds superdir with
    | .error e => .error (.jail61_failed superdir e)
    | .ok s =>
      if jail61_untrusted s then .ok none
      else
        match W.read_jail61 cmds superdir with
        | .error _ => .ok (some [])
        | .ok text => .ok (some (text.take 8192))

/-- Whether the walk prints the "Ignoring, writable by non-root" warning. -/
def jail61_warns (W : World) (cmds : List Cmd) (superdir : Str) : Bool :=
  match W.open_jail61 cmds superdir, W.fstat_jail61 cmds superdir with
  | none, .ok s => jail61_untrusted s
  | _, _ => false

/-- Opening of one path component (lines 948 to 959), with the `mkdirat` of a
missing component below the authorizing directory.  Returns the calls issued. -/
def walk_open (W : World) (doexec : Bool) (superdir : Str) (st : WalkState) :
    Except WalkExit (List Cmd) :=
  match W.openat_dir st.cmds superdir with
  | none => .ok st.cmds
  | some e =>
    if st.found_superdir && doexec && e == ENOENT then
      match W.run st.cmds (.mkdirat superdir 0o755) with
      | some e1 => .error (.mkdir_failed superdir e1)
      | none =>
        match W.openat_dir (st.cmds ++ [.mkdirat superdir 0o755]) superdir with
        | some e2 => .error (.open_failed superdir e2)
        | none => .ok (st.cmds ++ [.mkdirat superdir 0o755])
    else .error (.open_failed superdir e)

/-- One iteration of the loop of the walk, for the component between
`last_pos` and `next_pos` (lines 940 to 1029). -/
def walk_component (W : World) (doexec : Bool) (jaildir : Str) (last_pos next_pos : Nat)
    (st : WalkState) : Except WalkExit WalkState :=
  let jailparent := substr jaildir 0 last_pos
  let jailcomponent := substr jaildir last_pos (next_pos - last_pos)
  let superdir := substr jaildir 0 next_pos
  match walk_open W doexec superdir st with
  | .error e => .error e
  | .ok cmds =>
    match W.fstat_dir cmds superdir with
    | .error e => .error (.fstat_failed superdir e)
    | .ok s =>
      if !S_ISDIR s.st_mode then .error (.not_a_directory superdir)
      else if s.st_uid != ROOT && !st.found_superdir then .error (.not_owned_by_root superdir)
      else
        let st1 := { st with jailparent := jailparent, jailcomponent := jailcomponent,
                             cmds := cmds }
        if !st.found_superdir && jailparent.length != 0 then
          match jail61_consult W cmds superdir with
          | .error e => .error e
          | .ok none =>
            .ok (if jail61_warns W cmds superdir
                 then { st1 with ignored := st1.ignored ++ [superdir] } else st1)
          | .ok (some str) => jail61_parse jaildir superdir str st1
        else .ok st1

/-- The position bookkeeping of one iteration (lines 935 to 945): from
`last_pos` to `(next_pos, new last_pos)`. -/
def walk_advance (jaildir : Str) (last_pos : Nat) : Nat × Nat :=
  let next_pos :=
    if last_pos == 0 then 1
    else last_pos + ((jaildir.drop last_pos).takeWhile (fun c => c != '/')).length
  (next_pos, next_pos + ((jaildir.drop next_pos).takeWhile (fun c => c == '/')).length)

/-- The pairs `(last_pos, next_pos)` of the iterations of
`while (last_pos != jaildir.length())`.  The first argument bounds the number
of iterations. -/
def walk_positions (jaildir : Str) : Nat → Nat → List (Nat × Nat)
  | 0, _ => []
  | fuel + 1, last_pos =>
    if last_pos == jaildir.length then []
    else
      let p := walk_advance jaildir last_pos
      (last_pos, p.1) :: walk_positions jaildir fuel p.2

/-- The iterations of the walk over the given components, stopping at the
first `exit(1)`. -/
def walk_components (W : World) (doexec : Bool) (jaildir : Str) :
    List (Nat × Nat) → WalkState → Except WalkExit WalkState
  | [], st => .ok st
  | (last_pos, next_pos) :: rest, st =>
    match walk_component W doexec jaildir last_pos next_pos st with
    | .error e => .error e
    | .ok st1 => walk_components W doexec jaildir rest st1

/-- The policy walk of `main` (lines 928 to 1035) on the absolute, validated
`jaildir`. -/
def policy_walk (W : World) (doexec : Bool) (jaildir : Str) : Except WalkExit WalkState :=
  match walk_components W doexec jaildir (walk_positions jaildir jaildir.length 0) walk_init with
  | .error e => .error e
  | .ok st => if !st.found_superdir then .error .no_allowjail else .ok st

end Execjail

namespace Execjail

/-! ## The record format of `JAIL61`, as the specification words it -/

/-- The lines of a text. -/
def text_lines (text : Str) : List Str := splitBy (fun c => c == '\n') text

/-- The whitespace-separated words of a line. -/
def line_words (line : Str) : List Str :=
  (splitBy isspace line).filter (fun w => w.length != 0)

/-- A record: the verb and the path, each empty when the line has no such word. -/
structure Record where
  verb : Str
  path : Str
deriving DecidableEq

/-- The record of a line: its first two words. -/
def record_of_line (line : Str) : Record :=
  { verb := (line_words line).getD 0 [], path := (line_words line).getD 1 [] }

/-- The records of a text, one per line. -/
def text_records (text : Str) : List Record := (text_lines text).map record_of_line

/-- A non-empty path gets `/` appended when it does not end in `/`. -/
def path_with_slash (p : Str) : Str :=
  match p.getLast? with
  | none => p
  | some c => if c = '/' then p else p ++ ['/']

/-- The record is `nojail` with no path, or `nojail P` with `jaildir` beginning with `P/`. -/
def Record.refuses (jaildir : Str) (r : Record) : Bool :=
  r.verb == "nojail".data && (r.path == [] || (path_with_slash r.path).isPrefixOf jaildir)

/-- The record is `allowjail P` with `jaildir` beginning with `P/`. -/
def Record.allows (jaildir : Str) (r : Record) : Bool :=
  r.verb == "allowjail".data && r.path != [] && (path_with_slash r.path).isPrefixOf jaildir

/-- The records of a list applied in order with `jail61_record`. -/
def apply_records (jaildir superdir : Str) : List Record → WalkState → Except WalkExit WalkState
  | [], st => .ok st
  | r :: rs, st =>
    match jail61_record jaildir superdir r.verb r.path st with
    | .error e => .error e
    | .ok st1 => apply_records jaildir superdir rs st1

/-- The first word of a line. -/
def first_word (line : Str) : Str :=
  (line.dropWhile isspace).takeWhile (fun c => !isspace c)

/-- The line after its first word. -/
def after_first_word (line : Str) : Str :=
  (line.dropWhile isspace).dropWhile (fun c => !isspace c)

/-- A rest of text that is empty or starts a new line. -/
def AtLineEnd (R : Str) : Prop := R = [] ∨ R.head? = some '\n'

/-- The outcome of the walk on the text of a consulted `JAIL61`: the first
8192 bytes are parsed. -/
def jail61_outcome (jaildir superdir text : Str) (st : WalkState) : Except WalkExit WalkState :=
  jail61_parse jaildir superdir (text.take 8192) st

end Execjail

namespace Execjail

/-! ## Statements about the policy walk -/

/-- Two environments that differ at most in what `read` returns for `JAIL61`
files that fail the ownership and mode test of the walk. -/
def SameButUntrustedJail61 (W W' : World) : Prop :=
  W'.openat_dir = W.openat_dir ∧ W'.fstat_dir = W.fstat_dir ∧ W'.run = W.run
    ∧ W'.open_jail61 = W.open_jail61 ∧ W'.fstat_jail61 = W.fstat_jail61
    ∧ ∀ cmds p s, W.fstat_jail61 cmds p = .ok s → jail61_untrusted s = false →
        W'.read_jail61 cmds p = W.read_jail61 cmds p

/-- A directory owned by root, mode 0755. -/
def root_dir_stat : Stat :=
  { st_mode := S_IFDIR ||| 0o755, st_uid := 0, st_gid := 0, st_dev := 1, st_rdev := 0,
    st_size := 4096, st_mtime := 0 }

/-- A regular file owned by root, mode 0644. -/
def root_file_stat : Stat :=
  { st_mode := S_IFREG ||| 0o644, st_uid := 0, st_gid := 0, st_dev := 1, st_rdev := 0,
    st_size := 64, st_mtime := 0 }

/-- An environment for examples: every directory exists and is owned by
root, except those of `missing`, which exist once created by `mkdirat`;
`files` gives the directories that hold a `JAIL61` (owned by root, mode 0644)
and its text; every filesystem-changing call succeeds. -/
def example_world (files : List (Str × Str)) (missing : List Str) : World :=
  { lstat := fun _ _ => .error ENOENT
    stat := fun _ _ => .error ENOENT
    readlink := fun _ _ => .error ENOENT
    run := fun _ _ => none
    openat_dir := fun cmds p =>
      if missing.elem p && !cmds.elem (.mkdirat p 0o755) then some ENOENT else none
    fstat_dir := fun _ _ => .ok root_dir_stat
    open_jail61 := fun _ p => if (files.lookup p).isSome then none else some ENOENT
    fstat_jail61 := fun _ _ => .ok root_file_stat
    read_jail61 := fun _ p =>
      match files.lookup p with
      | some t => .ok t
      | none => .error ENOENT
    cp_result := fun _ _ _ => .exited_zero
    mounts := fun _ => some [] }

/-- Scenario 5 of the specification: `/srv/JAIL61` allows `/srv/jails/` and
`/srv/jails/forbidden/JAIL61` forbids `/srv/jails/forbidden/`. -/
def world_nojail_below : World :=
  example_world [("/srv".data, "allowjail /srv/jails/\n".data),
    ("/srv/jails/forbidden".data, "nojail /srv/jails/forbidden/\n".data)] []

/-- Scenario: `/srv/JAIL61` allows `/srv/jails/` and `/srv/jails/new` does not exist. -/
def world_new_jail : World :=
  example_world [("/srv".data, "allowjail /srv/jails/\n".data)] ["/srv/jails/new".data]

/-- Scenario: no `JAIL61` anywhere. -/
def world_no_policy : World := example_world [] []

end Execjail

namespace Execjail

/-! ## The materializer -/

/-- The command-line settings and `dstroot`, fixed while the jail is built. -/
structure Config where
  verbose : Bool
  dryrun : Bool
  makepty : Bool
  copy_samedev : Bool
  linkdir : Str
  dstroot : Str
deriving DecidableEq

/-- The `struct mountslot`. -/
structure mountslot where
  fsname : Str
  type : Str
  alloptions : Str
  opts : Nat
  data : Str
  allowed : Bool
deriving DecidableEq

/-- A system call that only inspects the filesystem. -/
inductive Query where
  | lstat (path : Str)
  | stat (path : Str)
  | readlink (path : Str)
deriving DecidableEq

/-- The global tables of the program, the calls it has issued, the lines it
has written to `verbosefile` (each as the call it describes) and the messages
it has written to `stderr` (format and argument). -/
structure Build where
  dst_table : List Str
  lnk_table : List (Str × Str)
  exit_value : Nat
  linkdir_dirtable : List Str
  mount_table : List (Str × mountslot)
  umount_table : List Str
  cmds : List Cmd
  queries : List Query
  trace : List Cmd
  errors : List (String × Str)
deriving DecidableEq

/-- The state at program start. -/
def Build.init : Build :=
  { dst_table := [], lnk_table := [], exit_value := 0, linkdir_dirtable := [],
    mount_table := [], umount_table := [], cmds := [], queries := [], trace := [],
    errors := [] }

/-- Assignment `m[k] = v` on a `std::map` with string keys, kept in key order. -/
def map_insert {α : Type} (k : Str) (v : α) : List (Str × α) → List (Str × α)
  | [] => [(k, v)]
  | (k1, v1) :: rest =>
    if strLt k k1 then (k, v) :: (k1, v1) :: rest
    else if k == k1 then (k, v) :: rest
    else (k1, v1) :: map_insert k v rest

/-- The member `find` of a `std::map` with string keys. -/
def map_find {α : Type} (k : Str) : List (Str × α) → Option α
  | [] => none
  | (k1, v1) :: rest => if k == k1 then some v1 else map_find k rest

/-- The function `perror_fail`: a message on `stderr` and `exit_value = 1`. -/
def perror_fail (fmt : String) (arg1 : Str) (b : Build) : Build :=
  { b with errors := b.errors ++ [(fmt, arg1)], exit_value := 1 }

/-- A line on `verbosefile`, written when `verbose` is set. -/
def Build.say (cfg : Config) (c : Cmd) (b : Build) : Build :=
  if cfg.verbose then { b with trace := b.trace ++ [c] } else b

/-- A filesystem-changing call: its result and the state with the call recorded. -/
def Build.issue (W : World) (c : Cmd) (b : Build) : Option Nat × Build :=
  (W.run b.cmds c, { b with cmds := b.cmds ++ [c] })

/-- An inspecting call recorded. -/
def Build.ask (q : Query) (b : Build) : Build :=
  { b with queries := b.queries ++ [q] }

/-- The statement `dst_table[dst] = 1`. -/
def Build.add_dst (dst : Str) (b : Build) : Build :=
  { b with dst_table := b.dst_table ++ [dst] }

/-- The statement `linkdir_dirtable[lnksuper] = 1`. -/
def Build.note_dir (lnksuper : Str) (b : Build) : Build :=
  { b with linkdir_dirtable := b.linkdir_dirtable ++ [lnksuper] }

/-- The two `lnk_table.insert` statements of `handle_symlink_dst`. -/
def Build.add_links (dst dst_lnkin : Str) (b : Build) : Build :=
  { b with lnk_table := b.lnk_table ++ [(dst, dst_lnkin), (dst_lnkin, dst)] }

/-- The statement `umount_table[dir] = 1`. -/
def Build.note_umount (dir : Str) (b : Build) : Build :=
  { b with umount_table := b.umount_table ++ [dir] }

/-- A filesystem-changing action recorded whose result comes from elsewhere
(the child running `/bin/cp`). -/
def Build.record (c : Cmd) (b : Build) : Build :=
  { b with cmds := b.cmds ++ [c] }

/-- The function `x_mkdir`; `none` is the return value 0, `some e` is -1 with `errno = e`. -/
def x_mkdir (cfg : Config) (W : World) (pathname : Str) (mode : Nat) (b : Build) :
    Option Nat × Build :=
  let b := b.say cfg (.mkdir pathname mode)
  if cfg.dryrun then (none, b) else b.issue W (.mkdir pathname mode)

/-- The loop of `x_link_eexist_ok` over the slashes of `dst`, from the right. -/
def x_link_eexist_ok_loop (b : Build) (dst : Str) : Nat → Nat → Bool
  | 0, _ => false
  | fuel + 1, npos =>
    if npos == 0 then false
    else
      match strRfind dst '/' (npos - 1) with
      | none => false
      | some slash =>
        let dstdir := substr dst 0 slash
        if b.lnk_table.any (fun e => e.1 == dstdir && b.dst_table.elem (e.2 ++ substrFrom dst slash))
        then true
        else x_link_eexist_ok_loop b dst fuel slash

/-- The function `x_link_eexist_ok`. -/
def x_link_eexist_ok (b : Build) (newpath : Str) : Bool :=
  x_link_eexist_ok_loop b newpath (newpath.length + 2) (newpath.length + 1)

/-- The function `x_link`: `true` is the return value 0, `false` is -1. -/
def x_link (cfg : Config) (W : World) (oldpath newpath : Str) (b : Build) : Bool × Build :=
  let b := b.say cfg (.link oldpath newpath)
  if cfg.dryrun then (true, b)
  else
    let r := b.issue W (.link oldpath newpath)
    match r.1 with
    | none => (true, r.2)
    | some e => if e != EEXIST || !x_link_eexist_ok r.2 newpath then (false, r.2) else (true, r.2)

/-- The function `x_chmod`: the return value and the state. -/
def x_chmod (cfg : Config) (W : World) (path : Str) (mode : Nat) (b : Build) : Nat × Build :=
  let b := b.say cfg (.chmod path mode)
  if cfg.dryrun then (0, b)
  else
    let r := b.issue W (.chmod path mode)
    match r.1 with
    | none => (0, r.2)
    | some _ => (1, perror_fail "chmod %s: %s\n" path r.2)

/-- The function `x_lchown`. -/
def x_lchown (cfg : Config) (W : World) (path : Str) (owner group : Nat) (b : Build) :
    Nat × Build :=
  let b := b.say cfg (.lchown path owner group)
  if cfg.dryrun then (0, b)
  else
    let r := b.issue W (.lchown path owner group)
    match r.1 with
    | none => (0, r.2)
    | some _ => (1, perror_fail "chown %s: %s\n" path r.2)

/-- The call `mount(...)` that `handle_mount` issues for the slot `ms` on `dst`. -/
def mount_call (ms : mountslot) (dst : Str) : Cmd :=
  .mount ms.fsname dst ms.type ms.opts (if ms.data.isEmpty then none else some ms.data)

/-- The function `handle_mount`. -/
def handle_mount (cfg : Config) (W : World) (ms : mountslot) (dst : Str) (b : Build) :
    Nat × Build :=
  let b := b.say cfg (mount_call ms dst)
  if cfg.dryrun then (0, b)
  else
    let r := b.issue W (mount_call ms dst)
    match r.1 with
    | none => (0, r.2)
    | some _ => (1, perror_fail "mount %s: %s\n" dst r.2)

/-- The function `handle_umount` on the mount table entry with key `dir`;
`none` is the `exit(1)` after a failed `umount`. -/
def handle_umount (cfg : Config) (W : World) (dir : Str) (b : Build) : Option Build :=
  let b := b.say cfg (.umount dir)
  if cfg.dryrun then some (b.note_umount dir)
  else
    let r := b.issue W (.umount dir)
    match r.1 with
    | none => some r.2
    | some _ => none

end Execjail

namespace Execjail

/-- Subtraction of `size_t` values below `2^64`, wrapping around modulo `2^64`. -/
def size_sub (a b : Nat) : Nat := if b ≤ a then a - b else 2 ^ 64 - (b - a)

/-- Addition of `size_t` values below `2^64`, wrapping around modulo `2^64`. -/
def size_add (a b : Nat) : Nat := if a + b < 2 ^ 64 then a + b else a + b - 2 ^ 64

/-- The loop of `copy_for_xdev_link` that creates the superdirectories of
`lnk` inside the link cache; `start` is the position `pos + 1` from which the
next `/` is looked for.  The result `false` is the return value 1.  The first
argument bounds the number of iterations. -/
def xdev_superdirs (cfg : Config) (W : World) (lnk : Str) : Nat → Nat → Build → Bool × Build
  | 0, _, b => (true, b)
  | fuel + 1, start, b =>
    match strFind lnk '/' start with
    | none => (true, b)
    | some p =>
      let lnksuper := substr lnk 0 p
      if b.linkdir_dirtable.elem lnksuper then xdev_superdirs cfg W lnk fuel (p + 1) b
      else
        let b1 := b.ask (.lstat lnksuper)
        match W.lstat b1.cmds lnksuper with
        | .error e =>
          if e != ENOENT then (false, perror_fail "lstat %s: %s\n" lnksuper b1)
          else
            let r := x_mkdir cfg W lnksuper 0o770 b1
            match r.1 with
            | some e1 =>
              if e1 != EEXIST then (false, perror_fail "mkdir %s: %s\n" lnksuper r.2)
              else xdev_superdirs cfg W lnk fuel (p + 1) (r.2.note_dir lnksuper)
            | none => xdev_superdirs cfg W lnk fuel (p + 1) (r.2.note_dir lnksuper)
        | .ok st =>
          if !S_ISDIR st.st_mode then
            (false, perror_fail "lstat %s: Not a directory\n" lnksuper b1)
          else xdev_superdirs cfg W lnk fuel (p + 1) (b1.note_dir lnksuper)

/-- The position `pos + 1` of the first search of `copy_for_xdev_link`, with
`pos = linkdir.length() - 1` computed on `size_t`. -/
def xdev_start (linkdir : Str) : Nat := size_add (size_sub linkdir.length 1) 1

/-- The function `copy_for_xdev_link`: the return value and the state. -/
def copy_for_xdev_link (cfg : Config) (W : World) (src lnk : Str) (b : Build) : Nat × Build :=
  let r := xdev_superdirs cfg W lnk (lnk.length + 1) (xdev_start cfg.linkdir) b
  if !r.1 then (1, r.2)
  else
    let b1 := r.2.say cfg (.cp src lnk)
    if cfg.dryrun then (0, b1)
    else
      let b2 := b1.record (.cp src lnk)
      match W.cp_result b1.cmds src lnk with
      | .exited_zero => (0, b2)
      | .fork_failed => (1, perror_fail "%s: %s\n" "fork".data b1)
      | .bad_exit_status => (1, perror_fail "/bin/cp %s: Bad exit status\n" lnk b2)
      | .did_not_exit => (1, perror_fail "/bin/cp %s: Did not exit\n" lnk b2)

/-- The function `handle_xdev_link`. -/
def handle_xdev_link (cfg : Config) (W : World) (src dst : Str) (st : Stat) (b : Build) :
    Nat × Build :=
  let lnk := cfg.linkdir ++ src
  let b1 := b.ask (.lstat lnk)
  let r := W.lstat b1.cmds lnk
  let stale : Bool :=
    match r with
    | .error _ => true
    | .ok lst => lst.st_mode != st.st_mode || lst.st_uid != st.st_uid || lst.st_gid != st.st_gid
        || lst.st_size != st.st_size || lst.st_mtime != st.st_mtime
  let isdir : Bool :=
    match r with
    | .error _ => false
    | .ok lst => S_ISDIR lst.st_mode
  if stale && isdir then (1, perror_fail "%s: Is a directory\n" lnk b1)
  else
    let c := if stale then copy_for_xdev_link cfg W src lnk b1 else (0, b1)
    if c.1 != 0 then (1, c.2)
    else
      let l := x_link cfg W lnk dst c.2
      if !l.1 then (1, perror_fail "link %s: %s\n" (dst ++ lnk) l.2) else (0, l.2)

/-- The loop of `handle_symlink_dst` that expands a relative `lnk`: `none`
is `give_up`, otherwise the directories `src` and `dst` are cut back to and
the rest of `lnk`. -/
def symlink_climb (dstroot : Str) : Nat → Str → Str → Str → Option (Str × Str × Str)
  | 0, _, _, _ => none
  | fuel + 1, src, dst, lnk =>
    if src.length == 1 then none
    else
      match strRfind src '/' (size_sub src.length 2), strRfind dst '/' (size_sub dst.length 2) with
      | some srcslash, some dstslash =>
        if dstslash < dstroot.length then none
        else
          let src1 := substr src 0 (srcslash + 1)
          let dst1 := substr dst 0 (dstslash + 1)
          if lnk.length > 3 && charAt lnk 0 == '.' && charAt lnk 1 == '.' && charAt lnk 2 == '/'
          then symlink_climb dstroot fuel src1 dst1 (substrFrom lnk 3)
          else some (src1, dst1, lnk)
      | _, _ => none

/-- The first half of `handle_symlink_dst`: the pair `(src, dst)` the link
target is materialized for, or `none` for `give_up`. -/
def symlink_target (dstroot src dst lnk : Str) : Option (Str × Str) :=
  if charAt lnk 0 == '/' then some (lnk, dstroot ++ lnk)
  else
    match symlink_climb dstroot (lnk.length + 1) src dst lnk with
    | none => none
    | some (src1, dst1, lnk1) => some (src1 ++ lnk1, dst1 ++ lnk1)

/-- What a call of `handle_copy` gives back: its return value and, when the
`lstat` of the source succeeded, the source mode; or the recursion bound was
reached. -/
inductive Ret where
  | done (r : Nat) (srcmode : Option Nat)
  | out_of_fuel
deriving DecidableEq

/-- The function `handle_symlink_dst`, with the recursive call of
`handle_copy` passed as `recurse`. -/
def handle_symlink_dst (recurse : Str → Str → Bool → Nat → Build → Ret × Build)
    (cfg : Config) (src dst lnk : Str) (b : Build) : Ret × Build :=
  match symlink_target cfg.dstroot src dst lnk with
  | none => (.done 0 none, b)
  | some target =>
    if substr target.2 cfg.dstroot.length 6 != "/proc/".data then
      let r := recurse target.1 target.2 true 0 b
      match r.1 with
      | .out_of_fuel => (.out_of_fuel, r.2)
      | .done rv srcmode =>
        if rv == 0 && S_ISDIR (srcmode.getD 0) then (.done 0 none, r.2.add_links target.2 dst)
        else (.done 0 none, r.2)
    else (.done 0 none, b)

/-- The parent fill-in test of `handle_copy` (lines 503 to 517): the pair the
parent is materialized for, when there is one, and the state after the
`lstat` of the parent. -/
def copy_parent (W : World) (src dst : Str) (check_parents : Bool) (b : Build) :
    Option (Str × Str) × Build :=
  if !check_parents then (none, b)
  else
    match strRfindAll dst '/' with
    | none => (none, b)
    | some last_slash =>
      if last_slash != 0 && last_slash != size_sub dst.length 1 then
        let last_nchars := dst.length - last_slash
        if src.length > last_nchars
            && substrFrom src (src.length - last_nchars) == substrFrom dst (dst.length - last_nchars)
        then
          let dstdir := substr dst 0 last_slash
          let b1 := b.ask (.lstat dstdir)
          match W.lstat b1.cmds dstdir with
          | .error e =>
            if e == ENOENT then
              (some (substr src 0 (src.length - last_nchars),
                     substr dst 0 (dst.length - last_nchars)), b1)
            else (none, b1)
          | .ok _ => (none, b1)
        else (none, b)
      else (none, b)

/-- The local variables `ds` and `ss.st_mode` of `handle_copy` once the
destination exists. -/
structure Created where
  ds_mode : Nat
  ds_uid : Nat
  ds_gid : Nat
  ss_mode : Nat
deriving DecidableEq

/-- The tail of `handle_copy` (lines 571 to 585): mode and owner of the
destination, then the replay of an allowed mount on a directory. -/
def copy_finish (cfg : Config) (W : World) (src dst : Str) (ss : Stat) (c : Created)
    (b : Build) : Nat × Build :=
  let r1 := if c.ds_mode != c.ss_mode then x_chmod cfg W dst c.ss_mode b else (0, b)
  if r1.1 != 0 then (1, r1.2)
  else
    let r2 :=
      if c.ds_uid != ss.st_uid || c.ds_gid != ss.st_gid
      then x_lchown cfg W dst ss.st_uid ss.st_gid r1.2 else (0, r1.2)
    if r2.1 != 0 then (1, r2.2)
    else if S_ISDIR c.ss_mode then
      match map_find src r2.2.mount_table with
      | some ms => if ms.allowed then handle_mount cfg W ms dst r2.2 else (0, r2.2)
      | none => (0, r2.2)
    else (0, r2.2)

/-- The body of `handle_copy` from the `lstat` of the source on (lines 520
to 585), with the recursive call of `handle_copy` passed as `recurse`. -/
def copy_body (recurse : Str → Str → Bool → Nat → Build → Ret × Build)
    (cfg : Config) (W : World) (jaildev : Nat) (src dst : Str) (flags : Nat) (b : Build) :
    Ret × Build :=
  let b0 := b.ask (.lstat src)
  match W.lstat b0.cmds src with
  | .error _ => (.done 1 none, perror_fail "lstat %s: %s\n" src b0)
  | .ok ss =>
    let fin (c : Created) (b : Build) : Ret × Build :=
      let r := copy_finish cfg W src dst ss c b
      (.done r.1 (some ss.st_mode), r.2)
    let fail (fmt : String) (arg : Str) (b : Build) : Ret × Build :=
      (.done 1 (some ss.st_mode), perror_fail fmt arg b)
    if S_ISREG ss.st_mode && !cfg.copy_samedev && (flags &&& FLAG_CP) == 0
        && ss.st_dev == jaildev then
      let l := x_link cfg W src dst b0
      if !l.1 then fail "link %s: %s\n" (dst ++ src) l.2
      else fin ⟨ss.st_mode, ss.st_uid, ss.st_gid, ss.st_mode⟩ l.2
    else if S_ISREG ss.st_mode || (S_ISLNK ss.st_mode && (flags &&& FLAG_CP) != 0) then
      if cfg.linkdir.isEmpty then fail "link %s: %s\n" dst b0
      else
        let x := handle_xdev_link cfg W src dst ss b0
        if x.1 != 0 then fail "link %s: %s\n" dst x.2
        else fin ⟨ss.st_mode, ss.st_uid, ss.st_gid, ss.st_mode⟩ x.2
    else if S_ISDIR ss.st_mode then
      let perm := ss.st_mode &&& (S_ISUID ||| S_ISGID ||| S_IRWXU ||| S_IRWXG ||| S_IRWXO)
      let m := x_mkdir cfg W dst perm b0
      match m.1 with
      | none => fin ⟨perm ||| S_IFDIR, ROOT, ROOT, ss.st_mode⟩ m.2
      | some _ =>
        let b1 := m.2.ask (.lstat dst)
        match W.lstat b1.cmds dst with
        | .error _ => fail "lstat %s: %s\n" dst b1
        | .ok ds =>
          if !S_ISDIR ds.st_mode then fail "lstat %s: Not a directory\n" dst b1
          else fin ⟨ds.st_mode, ds.st_uid, ds.st_gid, ss.st_mode⟩ b1
    else if S_ISCHR ss.st_mode || S_ISBLK ss.st_mode then
      let mode := ss.st_mode &&& (S_IFREG ||| S_IFCHR ||| S_IFBLK ||| S_IFIFO ||| S_IFSOCK
        ||| S_ISUID ||| S_ISGID ||| S_IRWXU ||| S_IRWXG ||| S_IRWXO)
      let b1 := b0.say cfg (.mknod dst mode ss.st_rdev)
      if cfg.dryrun then fin ⟨mode, ROOT, ROOT, mode⟩ b1
      else
        let r := b1.issue W (.mknod dst mode ss.st_rdev)
        match r.1 with
        | some _ => fail "mknod %s: %s\n" dst r.2
        | none => fin ⟨mode, ROOT, ROOT, mode⟩ r.2
    else if S_ISLNK ss.st_mode then
      let b1 := b0.ask (.readlink src)
      match W.readlink b1.cmds src with
      | .error _ => fail "readlink %s: %s\n" src b1
      | .ok text =>
        if text.length ≥ 4096 then fail "%s: Symbolic link too long\n" src b1
        else
          let b2 := b1.say cfg (.symlink text dst)
          let r := if cfg.dryrun then (none, b2) else b2.issue W (.symlink text dst)
          match r.1 with
          | some _ => fail "symlink %s: %s\n" src r.2
          | none =>
            let h := handle_symlink_dst recurse cfg src dst text r.2
            match h.1 with
            | .out_of_fuel => (.out_of_fuel, h.2)
            | .done _ _ => fin ⟨ss.st_mode, ROOT, ROOT, ss.st_mode⟩ h.2
    else fail "%s: Odd file type\n" src b0

/-- The function `handle_copy(src, dst, check_parents, flags, jaildev, &srcmode)`.
The first argument bounds the depth of the recursion. -/
def handle_copy (cfg : Config) (W : World) (jaildev : Nat) :
    Nat → Str → Str → Bool → Nat → Build → Ret × Build
  | 0, _, _, _, _, b => (.out_of_fuel, b)
  | fuel + 1, src, dst, check_parents, flags, b =>
    if b.dst_table.elem dst then (.done 1 none, b)
    else
      let p := copy_parent W src dst check_parents (b.add_dst dst)
      match p.1 with
      | none => copy_body (handle_copy cfg W jaildev fuel) cfg W jaildev src dst flags p.2
      | some parent =>
        let r := handle_copy cfg W jaildev fuel parent.1 parent.2 true 0 p.2
        match r.1 with
        | .out_of_fuel => (.out_of_fuel, r.2)
        | .done _ _ =>
          copy_body (handle_copy cfg W jaildev fuel) cfg W jaildev src dst flags r.2

end Execjail

namespace Execjail

/-! ## The mount table -/

/-- The function `allow_mount(dest, ms)`. -/
def allow_mount (dest : Str) (ms : mountslot) : Bool :=
  (dest == "/proc".data && ms.type == "proc".data)
    || (dest == "/sys".data && ms.type == "sysfs".data)
    || (dest == "/dev".data && ms.type == "udev".data)
    || (dest == "/dev/pts".data && ms.type == "devpts".data)

/-! Mount flags of `<sys/mount.h>` and `BUFSIZ` of `<stdio.h>` (Linux values). -/

def MS_RDONLY : Nat := 1
def MS_NOSUID : Nat := 2
def MS_NODEV : Nat := 4
def MS_NOEXEC : Nat := 8
def MS_NOATIME : Nat := 1024
def MS_NODIRATIME : Nat := 2048
def MS_RELATIME : Nat := 2097152
def MS_STRICTATIME : Nat := 16777216
def BUFSIZ : Nat := 8192

/-- The table `mountargs` (Linux build). -/
def mountargs : List (Str × Nat) :=
  [(",nosuid,".data, MS_NOSUID), (",nodev,".data, MS_NODEV), (",noexec,".data, MS_NOEXEC),
   (",ro,".data, MS_RDONLY), (",rw,".data, 0), (",noatime,".data, MS_NOATIME),
   (",nodiratime,".data, MS_NODIRATIME), (",relatime,".data, MS_RELATIME),
   (",strictatime,".data, MS_STRICTATIME)]

/-- One step of the loop over `mountargs`: when `name` occurs in `options`,
its value is or-ed in and the occurrence, less its last comma, is cut out. -/
def mountarg_step (acc : Nat × Str) (ma : Str × Nat) : Nat × Str :=
  match strstr acc.2 ma.1 with
  | some pos => (acc.1 ||| ma.2, acc.2.take pos ++ acc.2.drop (pos + ma.1.length - 1))
  | none => acc

/-- The loop `while ((l = strlen(options)) > 1 && options[l - 1] == ',')`. -/
def strip_commas (options : Str) : Str :=
  match options with
  | [] => []
  | c :: rest => c :: rest.rdropWhile (fun x => x == ',')

/-- The option parsing of `populate_mount_table` (lines 296 to 309): the flag
word `opts` and the string `data`. -/
def parse_mount_options (mnt_opts : Str) : Nat × Str :=
  let options := ((',' :: mnt_opts) ++ [',']).take (BUFSIZ - 1)
  let r := mountargs.foldl mountarg_step (0, options)
  (r.1, (strip_commas r.2).drop 1)

/-- The slot `populate_mount_table` stores for one entry of `/proc/mounts`. -/
def mountslot_of (me : mntent) : mountslot :=
  let o := parse_mount_options me.mnt_opts
  let ms : mountslot :=
    { fsname := me.mnt_fsname, type := me.mnt_type, alloptions := me.mnt_opts,
      opts := o.1, data := o.2, allowed := false }
  { ms with allowed := allow_mount me.mnt_dir ms }

/-- The function `populate_mount_table` (Linux build). -/
def populate_mount_table (W : World) (b : Build) : Nat × Build :=
  match W.mounts b.cmds with
  | none => (1, perror_fail "open %s: %s\n" "/proc/mounts".data b)
  | some entries =>
    (0, { b with mount_table :=
            entries.foldl (fun t me => map_insert me.mnt_dir (mountslot_of me) t) b.mount_table })

/-! ## `construct_jail` -/

/-- The call `fgets(buf, n, stdin)`: the line read (at most `n - 1`
characters, ending after the first newline) and the rest of the input;
`none` at end of input. -/
def fgets (n : Nat) (input : Str) : Option (Str × Str) :=
  if input.isEmpty then none
  else
    let k := match (input.take (n - 1)).indexOf? '\n' with
      | some i => i + 1
      | none => min (n - 1) input.length
    some (input.take k, input.drop k)

/-- The successive results of `fgets(buf, BUFSIZ, stdin)`.  The first
argument bounds the number of lines. -/
def read_lines : Nat → Str → List Str
  | 0, _ => []
  | fuel + 1, input =>
    match fgets BUFSIZ input with
    | none => []
    | some (line, rest) => line :: read_lines fuel rest

/-- The loop that strips doubled slashes from the end of `cursrcdir`. -/
def strip_double_slash : Nat → Str → Str
  | 0, s => s
  | fuel + 1, s =>
    if s.length > 1 && charAt s (s.length - 1) == '/' && charAt s (s.length - 2) == '/'
    then strip_double_slash fuel (substr s 0 (s.length - 1))
    else s

/-- The new `cursrcdir` for the directory line `buf` of length `l` (lines 627 to 638). -/
def dir_line_src (buf : Str) (l : Nat) : Str :=
  let d0 : Str :=
    if l == 2 && charAt buf 0 == '.' then "/".data
    else if l > 2 && charAt buf 0 == '.' && charAt buf 1 == '/' then substr buf 1 (l - 2)
    else substr buf 0 (l - 1)
  let d1 := if charAt d0 0 != '/' then '/' :: d0 else d0
  let d2 := strip_double_slash d1.length d1
  if charAt d2 (d2.length - 1) != '/' then d2 ++ ['/'] else d2

/-- What one line of the manifest makes `construct_jail` do. -/
inductive LineAction where
  /-- Nothing (`continue`). -/
  | skip
  /-- New values of `cursrcdir` and `curdstdir`. -/
  | setdir (cursrcdir curdstdir : Str)
  /-- The call `handle_copy(src, dst, check_parents, flags, jaildev, NULL)`. -/
  | copy (src dst : Str) (check_parents : Bool) (flags : Nat)
deriving DecidableEq

/-- The entry of a manifest line once flags are removed (lines 660 to 675). -/
def entry_action (cursrcdir curdstdir body : Str) (flags : Nat) : LineAction :=
  match charAt body 0 == '/', strstr body " <- ".data with
  | true, some arrow => .copy (body.drop (arrow + 4)) (curdstdir ++ body.take arrow) true flags
  | true, none => .copy body (curdstdir ++ body) true flags
  | false, some arrow => .copy (body.drop (arrow + 4)) (curdstdir ++ body.take arrow) false flags
  | false, none => .copy (cursrcdir ++ body) (curdstdir ++ body) false flags

/-- The C string held in a buffer: the bytes before the first NUL, which is
where `strlen` stops. -/
def c_string (buf : Str) : Str := buf.takeWhile (fun c => c != Char.ofNat 0)

/-- The body of the loop of `construct_jail` for the line `line` that
`fgets` returned (lines 619 to 675).  The line is measured with `strlen`, so
it ends at its first NUL byte. -/
def parse_line (dstroot cursrcdir curdstdir line : Str) : LineAction :=
  let buf := (c_string line).rdropWhile isspace
  let l := buf.length
  if l == 0 then .skip
  else if charAt buf (l - 1) == ':' then
    let d := dir_line_src buf l
    .setdir d (dstroot ++ d)
  else if charAt buf (l - 1) == ']' then
    match rfindBelow buf '[' (l - 1) with
    | none => .skip
    | some open_pos =>
      let l1 := open_pos + 1
      let flags :=
        match strstr (buf.drop l1) "cp".data with
        | some k =>
          if (charAt buf (l1 + k - 1) == '[' || charAt buf (l1 + k - 1) == ',')
              && (charAt buf (l1 + k + 2) == ']' || charAt buf (l1 + k + 2) == ',')
          then FLAG_CP else 0
        | none => 0
      entry_action cursrcdir curdstdir ((buf.take open_pos).rdropWhile isspace) flags
  else entry_action cursrcdir curdstdir buf 0

/-- The loop of `construct_jail` over the lines read from `stdin`; `fuel`
bounds the recursion of each `handle_copy`. -/
def construct_jail_lines (cfg : Config) (W : World) (jaildev fuel : Nat) :
    List Str → Str → Str → Build → Ret × Build
  | [], _, _, b => (.done b.exit_value none, b)
  | line :: rest, cursrcdir, curdstdir, b =>
    match parse_line cfg.dstroot cursrcdir curdstdir line with
    | .skip => construct_jail_lines cfg W jaildev fuel rest cursrcdir curdstdir b
    | .setdir s d => construct_jail_lines cfg W jaildev fuel rest s d b
    | .copy src dst check_parents flags =>
      let r := handle_copy cfg W jaildev fuel src dst check_parents flags b
      match r.1 with
      | .out_of_fuel => (.out_of_fuel, r.2)
      | .done _ _ => construct_jail_lines cfg W jaildev fuel rest cursrcdir curdstdir r.2

/-- The statement that strips trailing slashes of `jaildir` into `dstroot`. -/
def dstroot_of (jaildir : Str) : Str :=
  match jaildir with
  | [] => []
  | c :: rest => c :: rest.rdropWhile (fun x => x == '/')

/-- The built-in calls of `construct_jail` for `/proc`, `/dev/pts` and
`/dev/ptmx` (Linux build). -/
def construct_jail_mounts (cfg : Config) (W : World) (jaildev fuel : Nat) (b : Build) :
    Ret × Build :=
  let r1 := handle_copy cfg W jaildev fuel "/proc".data (cfg.dstroot ++ "/proc".data) true 0 b
  match r1.1 with
  | .out_of_fuel => (.out_of_fuel, r1.2)
  | .done _ _ =>
    if cfg.makepty then
      let r2 := handle_copy cfg W jaildev fuel "/dev/pts".data (cfg.dstroot ++ "/dev/pts".data)
        true 0 r1.2
      match r2.1 with
      | .out_of_fuel => (.out_of_fuel, r2.2)
      | .done _ _ =>
        handle_copy cfg W jaildev fuel "/dev/ptmx".data (cfg.dstroot ++ "/dev/ptmx".data)
          true 0 r2.2
    else r1

/-- The function `construct_jail(jaildir, jaildev)` reading the manifest
`stdin`; `fuel` bounds the recursion of each `handle_copy`.  The `dstroot`
of the result replaces the one of `cfg0`. -/
def construct_jail (cfg0 : Config) (W : World) (jaildir : Str) (jaildev : Nat) (stdin : Str)
    (fuel : Nat) (b : Build) : Ret × Build :=
  let cfg := { cfg0 with dstroot := dstroot_of jaildir }
  let r1 := x_chmod cfg W cfg.dstroot 0o755 b
  if r1.1 != 0 then (.done 1 none, r1.2)
  else
    let r2 := x_lchown cfg W cfg.dstroot 0 0 r1.2
    if r2.1 != 0 then (.done 1 none, r2.2)
    else
      let b3 := r2.2.add_dst (cfg.dstroot ++ "/".data)
      let b4 := (populate_mount_table W b3).2
      let m := construct_jail_mounts cfg W jaildev fuel b4
      match m.1 with
      | .out_of_fuel => (.out_of_fuel, m.2)
      | .done _ _ =>
        construct_jail_lines cfg W jaildev fuel (read_lines (stdin.length + 1) stdin)
          "/".data cfg.dstroot m.2

end Execjail

namespace Execjail

/-! ## Statements about the materializer -/

/-- The four pairs of mountpoint and type that may be replayed. -/
def Whitelisted (dest type : Str) : Prop :=
  (dest = "/proc".data ∧ type = "proc".data) ∨ (dest = "/sys".data ∧ type = "sysfs".data)
    ∨ (dest = "/dev".data ∧ type = "udev".data) ∨ (dest = "/dev/pts".data ∧ type = "devpts".data)

/-- Every slot of the mount table has `allowed` as `allow_mount` computes it
from its key. -/
def MountTableOk (t : List (Str × mountslot)) : Prop :=
  ∀ e ∈ t, e.2.allowed = allow_mount e.1 e.2

/-- The call is no `mount`, or it is the replay on some destination of a slot
of the table `t` with `allowed` set, whose key is a path that `lstat` has
shown to be a directory. -/
def ReplayOk (W : World) (t : List (Str × mountslot)) (c : Cmd) : Prop :=
  match c with
  | .mount fs dst ty o d =>
    ∃ key ms, map_find key t = some ms ∧ ms.allowed = true
      ∧ Cmd.mount fs dst ty o d = mount_call ms dst
      ∧ ∃ h ss, W.lstat h key = .ok ss ∧ S_ISDIR ss.st_mode = true
  | _ => True

/-- The state `b1` comes from `b` by steps of the materializer: the mount
table is the same, the destination set has only grown, and the calls issued
since are no mounts except replays of allowed slots. -/
def Build.Extends (W : World) (b b1 : Build) : Prop :=
  b1.mount_table = b.mount_table
    ∧ (∀ d ∈ b.dst_table, d ∈ b1.dst_table)
    ∧ ∃ new, b1.cmds = b.cmds ++ new ∧ ∀ c ∈ new, ReplayOk W b.mount_table c

end Execjail

namespace Execjail

/-! ## Example settings -/

/-- The settings of `execjail JAILDIR USER COMMAND`: no flag given. -/
def plain_config : Config :=
  { verbose := false, dryrun := false, makepty := false, copy_samedev := false,
    linkdir := [], dstroot := [] }

/-- The settings for a jail at `/srv/jail`, once `construct_jail` has set `dstroot`. -/
def jail_config : Config := { plain_config with dstroot := "/srv/jail".data }

/-- The slot of the host's `/proc` mount. -/
def proc_slot : mountslot :=
  mountslot_of { mnt_fsname := "proc".data, mnt_dir := "/proc".data, mnt_type := "proc".data,
                 mnt_opts := "rw,nosuid,nodev,noexec,relatime".data }

/-- An environment in which `/proc` is a directory owned by root with mode
0555 and no other path exists; every filesystem-changing call succeeds. -/
def world_proc : World :=
  { example_world [] [] with
    lstat := fun _ p =>
      if p == "/proc".data then
        .ok { st_mode := S_IFDIR ||| 0o555, st_uid := 0, st_gid := 0, st_dev := 5, st_rdev := 0,
              st_size := 0, st_mtime := 0 }
      else .error ENOENT
    mounts := fun _ =>
      some [{ mnt_fsname := "proc".data, mnt_dir := "/proc".data, mnt_type := "proc".data,
              mnt_opts := "rw,nosuid,nodev,noexec,relatime".data }] }

/-- The state of the build with the mount table of `world_proc`. -/
def build_with_proc : Build := (populate_mount_table world_proc Build.init).2

end Execjail

namespace Execjail

/-! ## Example hosts -/

/-- An environment given by the `lstat` result of each host path that
exists, the text of each symbolic link and the entries of `/proc/mounts`;
every filesystem-changing call succeeds. -/
def host_world (files : List (Str × Stat)) (links : List (Str × Str)) (mounted : List mntent) :
    World :=
  { example_world [] [] with
    lstat := fun _ p =>
      match files.lookup p with
      | some st => .ok st
      | none => .error ENOENT
    readlink := fun _ p =>
      match links.lookup p with
      | some text => .ok text
      | none => .error ENOENT
    mounts := fun _ => some mounted }

/-- A file of the given type owned by root, mode 0644, on device `dev`. -/
def stat_of (type dev : Nat) : Stat :=
  { st_mode := type ||| 0o644, st_uid := 0, st_gid := 0, st_dev := dev, st_rdev := 0,
    st_size := 64, st_mtime := 0 }

/-- A host whose only file is the regular file `/usr/f`, on device 1. -/
def world_usr_f : World := host_world [("/usr/f".data, stat_of S_IFREG 1)] [] []

end Execjail

namespace Execjail

/-! ## Teardown -/

/-- The statement `if (jaildir[jaildir.length() - 1] != '/') jaildir += "/"` of `main`
(lines 1115 and 1116). -/
def teardown_jaildir (jaildir : Str) : Str :=
  if charAt jaildir (jaildir.length - 1) != '/' then jaildir ++ ['/'] else jaildir

/-- The test of the loop over `mount_table` (lines 1119 to 1121): the key is
at least as long as `jaildir` and its first bytes are those of `jaildir`. -/
def under_jail (jaildir key : Str) : Bool :=
  key.length ≥ jaildir.length && key.take jaildir.length == jaildir

/-- The loop over `mount_table` in `main` (lines 1118 to 1122), in key
order; `none` is the `exit(1)` of `handle_umount`. -/
def umount_all (cfg : Config) (W : World) (jaildir : Str) :
    List (Str × mountslot) → Build → Option Build
  | [], b => some b
  | e :: rest, b =>
    if under_jail jaildir e.1 then
      match handle_umount cfg W e.1 b with
      | none => none
      | some b1 => umount_all cfg W jaildir rest b1
    else umount_all cfg W jaildir rest b

/-- The teardown of `main` up to the call of `x_rm_rf_under` (lines 1115 to
1122): the mount table is read again and what is mounted below the jail is
unmounted. -/
def teardown_umounts (cfg : Config) (W : World) (jaildir : Str) (b : Build) : Option Build :=
  let b1 := (populate_mount_table W b).2
  umount_all cfg W (teardown_jaildir jaildir) b1.mount_table b1

/-- The keys of a mount table that begin with `jaildir`, in key order. -/
def mounts_under (jaildir : Str) (t : List (Str × mountslot)) : List Str :=
  (t.map Prod.fst).filter (under_jail jaildir)

/-- A host with `proc` mounted on `/proc` and on `/srv/jail/proc`, and a
filesystem mounted on `/srv/jailhouse`. -/
def world_jail_mounted : World :=
  host_world [] []
    [{ mnt_fsname := "proc".data, mnt_dir := "/proc".data, mnt_type := "proc".data,
       mnt_opts := "rw".data },
     { mnt_fsname := "/dev/sdb1".data, mnt_dir := "/srv/jailhouse".data, mnt_type := "ext4".data,
       mnt_opts := "rw".data },
     { mnt_fsname := "proc".data, mnt_dir := "/srv/jail/proc".data, mnt_type := "proc".data,
       mnt_opts := "rw".data }]

/-- The settings of `execjail -n`: dry run, which implies verbose. -/
def dryrun_config : Config := { plain_config with verbose := true, dryrun := true }

end Execjail

namespace Execjail

/-! ## The target of a symbolic link, in the words of the specification -/

/-- A path cut back to its parent directory: the part up to and including
the last `/` that is not its final character.  There is none for a path of
one character (the root `/`) or without such a `/`. -/
def parent_cut (s : Str) : Option Str :=
  if s.length == 1 then none
  else (rfindBelow s '/' (s.length - 1)).map (fun i => s.take (i + 1))

/-- A path cut back to its parent directory `n` times. -/
def cut_times : Nat → Str → Option Str
  | 0, s => some s
  | n + 1, s => (parent_cut s).bind (cut_times n)

/-- The number of leading `../` of a link text that are each followed by at
least one more character, and the text that remains after them. -/
def strip_updirs : Str → Nat × Str
  | '.' :: '.' :: '/' :: c :: rest => ((strip_updirs (c :: rest)).1 + 1, (strip_updirs (c :: rest)).2)
  | lnk => (0, lnk)

/-- The pair `(src', dst')` for which the target of a symbolic link `src`
with text `lnk` is materialized, in the words of the specification, for a
link materialized at `dstroot + src`: an absolute text gives
`(lnk, dstroot + lnk)`; otherwise the source is cut back to its parent
directory once, and once more for each counted `../`, and what remains of the
text is appended; the destination is `dstroot` followed by the new source.
There is no pair when a cut fails. -/
def jail_view_target (dstroot src lnk : Str) : Option (Str × Str) :=
  if lnk.head? = some '/' then some (lnk, dstroot ++ lnk)
  else
    match cut_times ((strip_updirs lnk).1 + 1) src with
    | some s1 => some (s1 ++ (strip_updirs lnk).2, dstroot ++ (s1 ++ (strip_updirs lnk).2))
    | none => none

/-- A host on which `/bin` is a symbolic link to the directory `usr/bin`,
which holds the regular file `sh`; everything is on device 1. -/
def world_bin_link : World :=
  host_world
    [("/bin".data, stat_of S_IFLNK 1), ("/usr".data, stat_of S_IFDIR 1),
     ("/usr/bin".data, stat_of S_IFDIR 1), ("/usr/bin/sh".data, stat_of S_IFREG 1),
     ("/bin/sh".data, stat_of S_IFREG 1)]
    [("/bin".data, "usr/bin".data)] []

end Execjail

namespace Execjail

/-! ## Statements about the table of directory symbolic links -/

/-- The table holds every pair in both directions. -/
def LinksSymmetric (L : List (Str × Str)) : Prop := ∀ a b, (a, b) ∈ L → (b, a) ∈ L

end Execjail

namespace Execjail

/-! ## Statements about the termination of the materializer -/

/-- The host has finitely many names of symbolic links and finitely many
link texts: whatever calls have been issued, `lstat` reports a symbolic link
only for a path of `S` and `readlink` returns only texts of `T`. -/
def FiniteLinks (W : World) (S T : List Str) : Prop :=
  (∀ h p st, W.lstat h p = .ok st → S_ISLNK st.st_mode = true → p ∈ S)
    ∧ ∀ h p text, W.readlink h p = .ok text → text ∈ T

/-- The sources a call of `handle_copy` for `src0` can lead to: a prefix of
`src0` or of the name of a symbolic link, followed by nothing or by a piece
of a link text. -/
def link_sources (S T : List Str) (src0 : Str) : List Str :=
  ((src0 :: S).flatMap List.inits).flatMap fun p =>
    ([] :: (T.flatMap List.tails).flatMap List.inits).map fun q => p ++ q

/-- The destinations a call of `handle_copy` for `(src0, dst0)` can lead to:
a prefix of `dst0` or of `dstroot` followed by the end of such a source. -/
def link_destinations (dstroot : Str) (S T : List Str) (src0 dst0 : Str) : List Str :=
  (dst0.inits ++ dstroot.inits).flatMap fun B =>
    ((link_sources S T src0).flatMap List.tails).map fun t => B ++ t

/-- The number of the destinations of `C` that are not yet in the set `D`. -/
def missing (C D : List Str) : Nat := C.countP fun d => !D.elem d

/-- The pair `(src, dst)` is one that a call of `handle_copy` for
`(src0, dst0)` can lead to: `src` is among the sources above, and `dst` is a
prefix of `dst0` or of `dstroot` followed by an end of `src`. -/
def CallOk (dstroot : Str) (S T : List Str) (src0 dst0 src dst : Str) : Prop :=
  (∃ p q, src = p ++ q ∧ (∃ s ∈ src0 :: S, p <+: s) ∧ (q = [] ∨ ∃ t ∈ T, q <:+: t))
    ∧ ∃ B t, dst = B ++ t ∧ (B <+: dst0 ∨ B <+: dstroot) ∧ t <:+ src

end Execjail

namespace Execjail

/-! ## Examples for the link-equivalence test -/

/-- The tables after `/jail/bin -> usr/bin` and `/jail/usr/bin/sh` have been
materialized: `D` holds the file under its real directory and `L` holds the
pair of the link and its target, both ways. -/
def build_bin_link : Build :=
  { Build.init with
    dst_table := ["/jail/".data, "/jail/usr".data, "/jail/usr/bin".data, "/jail/bin".data,
      "/jail/usr/bin/sh".data]
    lnk_table := [("/jail/bin".data, "/jail/usr/bin".data),
      ("/jail/usr/bin".data, "/jail/bin".data)] }

/-- A host on which every `link` call fails with `EEXIST`. -/
def world_link_eexist : World :=
  { host_world [] [] [] with
    run := fun _ c =>
      match c with
      | .link _ _ => some EEXIST
      | _ => none }

end Execjail

namespace Execjail

/-! ## The `JAIL61` of the root directory -/

/-- Two environments that differ at most in the answers about the `JAIL61`
of the directories whose path satisfies `A`. -/
def SameButJail61At (A : Str → Bool) (W W' : World) : Prop :=
  W'.openat_dir = W.openat_dir ∧ W'.fstat_dir = W.fstat_dir ∧ W'.run = W.run
    ∧ ∀ cmds p, A p = false →
        W'.open_jail61 cmds p = W.open_jail61 cmds p
        ∧ W'.fstat_jail61 cmds p = W.fstat_jail61 cmds p
        ∧ W'.read_jail61 cmds p = W.read_jail61 cmds p

/-- A path that names the root directory: it is absolute and each of its
components is empty or `.`. -/
def names_root (p : Str) : Bool :=
  p.head? == some '/' && (slashComponents p).all (fun c => c == [] || c == ['.'])

/-- The first component of `jaildir` below the root: the characters after the
leading slashes, up to the next slash. -/
def first_component (jaildir : Str) : Str :=
  ((jaildir.drop 1).dropWhile (fun c => c == '/')).takeWhile (fun c => c != '/')

/-- A host like that of `example_world files []` whose root directory holds a
`JAIL61` with the given text; the root directory is the one reached as `/`
and as `/.`. -/
def world_root_jail61 (text : Str) (files : List (Str × Str)) : World :=
  example_world (("/".data, text) :: ("/.".data, text) :: files) []

end Execjail

namespace Execjail

/-! ## The order of the unmounts -/

/-- The keys of a `std::map` with string keys come in ascending byte-wise
lexicographic order, each once. -/
def KeysAscending {α : Type} (t : List (Str × α)) : Prop :=
  (t.map Prod.fst).Pairwise (fun a b => strLt a b = true)

/-- A host with `proc` on `/proc` and, for the jail `/srv/jail`, `proc` on
`/srv/jail/proc`, `udev` on `/srv/jail/dev` and `devpts` on
`/srv/jail/dev/pts`, listed in the order they were mounted. -/
def world_jail_nested : World :=
  host_world [] []
    [{ mnt_fsname := "proc".data, mnt_dir := "/proc".data, mnt_type := "proc".data,
       mnt_opts := "rw".data },
     { mnt_fsname := "proc".data, mnt_dir := "/srv/jail/proc".data, mnt_type := "proc".data,
       mnt_opts := "rw".data },
     { mnt_fsname := "udev".data, mnt_dir := "/srv/jail/dev".data, mnt_type := "udev".data,
       mnt_opts := "rw".data },
     { mnt_fsname := "devpts".data, mnt_dir := "/srv/jail/dev/pts".data,
       mnt_type := "devpts".data, mnt_opts := "rw".data }]

end Execjail

namespace Execjail

/-! ## Mount options, as the specification words them -/

/-- The tokens of a comma-separated option string: the pieces between the
commas, empty pieces kept. -/
def option_tokens (s : Str) : List Str := splitBy (fun c => c == ',') s

/-- The recognized options with their flag values. -/
def recognized_options : List (Str × Nat) :=
  [("nosuid".data, MS_NOSUID), ("nodev".data, MS_NODEV), ("noexec".data, MS_NOEXEC),
   ("ro".data, MS_RDONLY), ("rw".data, 0), ("noatime".data, MS_NOATIME),
   ("nodiratime".data, MS_NODIRATIME), ("relatime".data, MS_RELATIME),
   ("strictatime".data, MS_STRICTATIME)]

/-- Whether a token is a recognized option. -/
def is_recognized (t : Str) : Bool := (recognized_options.map Prod.fst).elem t

/-- The bitwise OR of the flag values of the recognized options that occur
among the tokens. -/
def option_flags (toks : List Str) : Nat :=
  recognized_options.foldl (fun acc o => if toks.elem o.1 then acc ||| o.2 else acc) 0

/-- Tokens joined by commas. -/
def join_commas : List Str → Str
  | [] => []
  | [t] => t
  | t :: rest => t ++ ',' :: join_commas rest

/-- The tokens that are not recognized options, in their original order,
joined by commas. -/
def option_data (toks : List Str) : Str :=
  join_commas (toks.filter (fun t => !is_recognized t))

/-- The tokens left when the first occurrence of each recognized option is
taken out. -/
def residual_tokens (toks : List Str) : List Str :=
  (recognized_options.map Prod.fst).foldl List.erase toks

/-- Each token followed by a comma. -/
def token_string : List Str → Str
  | [] => []
  | t :: rest => t ++ ',' :: token_string rest

/-- An entry of `/proc/mounts` for a `tmpfs` on `/run` with the given options. -/
def tmpfs_entry (opts : Str) : mntent :=
  { mnt_fsname := "tmpfs".data, mnt_dir := "/run".data, mnt_type := "tmpfs".data,
    mnt_opts := opts }

end Execjail

namespace Execjail

/-! ## A `JAIL61` longer than the read buffer -/

/-- A `JAIL61` of 8196 bytes: 8174 empty lines, then the record
`nojail /srv/jails/zz/`, whose path crosses byte 8192. -/
def long_jail61 : Str := List.replicate 8174 '\n' ++ "nojail /srv/jails/zz/\n".data

end Execjail

namespace Execjail

/-! ## Example settings with a link cache -/

/-- The settings of `execjail -l /cache JAILDIR USER COMMAND`. -/
def cache_config : Config := { plain_config with linkdir := "/cache".data }

end Execjail

namespace Execjail

/-! ## Character classes of `check_filename` -/

theorem char_eq_ofNat_toNat (c : Char) : c = Char.ofNat c.toNat := by
  simp [Char.ofNat_toNat]

theorem upper_allowed : ∀ n, 65 ≤ n → n ≤ 90 →
    (allowed_chars.drop 1).elem (Char.ofNat n) = true := by
  intro n h1 h2
  interval_cases n <;> decide

theorem lower_allowed : ∀ n, 97 ≤ n → n ≤ 122 →
    (allowed_chars.drop 1).elem (Char.ofNat n) = true := by
  intro n h1 h2
  interval_cases n <;> decide

theorem digit_allowed : ∀ n, 48 ≤ n → n ≤ 57 →
    (allowed_chars.drop 1).elem (Char.ofNat n) = true := by
  intro n h1 h2
  interval_cases n <;> decide

theorem nameChar_false_of_elem (c : Char) (h : (allowed_chars.drop 1).elem c = true) :
    NameChar false c := by
  have hm : c ∈ allowed_chars.drop 1 := by simpa using h
  have hall : ∀ d ∈ allowed_chars.drop 1, NameChar false d := by decide
  exact hall c hm

theorem elem_of_nameChar_false (c : Char) (h : NameChar false c) :
    (allowed_chars.drop 1).elem c = true := by
  unfold NameChar at h
  have hpunct : ∀ d ∈ ['.', '_', '-', '~'], (allowed_chars.drop 1).elem d = true := by decide
  rcases h with h | h | h
  · have hcase : c.isUpper = true ∨ c.isLower = true := by
      simpa [Char.isAlpha] using h
    rcases hcase with hu | hl
    · simp only [Char.isUpper, Bool.and_eq_true, decide_eq_true_eq, ge_iff_le] at hu
      obtain ⟨h1, h2⟩ := hu
      rw [UInt32.le_def, BitVec.le_def] at h1 h2
      rw [char_eq_ofNat_toNat c]
      exact upper_allowed _ h1 h2
    · simp only [Char.isLower, Bool.and_eq_true, decide_eq_true_eq, ge_iff_le] at hl
      obtain ⟨h1, h2⟩ := hl
      rw [UInt32.le_def, BitVec.le_def] at h1 h2
      rw [char_eq_ofNat_toNat c]
      exact lower_allowed _ h1 h2
  · simp only [Char.isDigit, Bool.and_eq_true, decide_eq_true_eq, ge_iff_le] at h
    obtain ⟨h1, h2⟩ := h
    rw [UInt32.le_def, BitVec.le_def] at h1 h2
    rw [char_eq_ofNat_toNat c]
    exact digit_allowed _ h1 h2
  · have hmem : c ∈ ['.', '_', '-', '~'] := by
      simp only [List.mem_cons, List.mem_nil_iff, or_false]
      tauto
    exact hpunct c hmem

theorem nameChar_true_iff (c : Char) : NameChar true c ↔ c = '/' ∨ NameChar false c := by
  unfold NameChar
  simp only [and_true, Bool.false_eq_true, and_false, or_false]
  tauto

theorem elem_allowed_iff (allow_slash : Bool) (c : Char) :
    (if !allow_slash then allowed_chars.drop 1 else allowed_chars).elem c = true
      ↔ NameChar allow_slash c := by
  cases allow_slash with
  | false =>
    exact ⟨nameChar_false_of_elem c, elem_of_nameChar_false c⟩
  | true =>
    have hsplit : allowed_chars = '/' :: allowed_chars.drop 1 := by decide
    have hcons : allowed_chars.elem c = true
        ↔ c = '/' ∨ (allowed_chars.drop 1).elem c = true := by
      conv_lhs => rw [hsplit]
      simp only [List.elem_cons]
      by_cases hc : c = '/'
      · simp [hc]
      · have hne : (c == '/') = false := by simpa using hc
        simp [hne, hc]
    simp only [Bool.not_true, Bool.false_eq_true, if_false]
    rw [hcons, nameChar_true_iff]
    constructor
    · rintro (h | h)
      · exact Or.inl h
      · exact Or.inr (nameChar_false_of_elem c h)
    · rintro (h | h)
      · exact Or.inl h
      · exact Or.inr (elem_of_nameChar_false c h)

theorem strspn_eq_length_iff (s accept : Str) :
    strspn s accept = s.length ↔ ∀ c ∈ s, accept.elem c = true := by
  unfold strspn
  induction s with
  | nil => simp
  | cons a t ih =>
    by_cases ha : accept.elem a = true
    · simp only [List.takeWhile_cons, ha, if_true, List.length_cons, Nat.add_right_cancel_iff,
        List.mem_cons, forall_eq_or_imp, true_and]
      exact ih
    · simp only [List.takeWhile_cons, ha, List.length_cons, List.mem_cons, forall_eq_or_imp,
        false_and, iff_false]
      simp

end Execjail

namespace Execjail

/-! ## `strstr` and the `..` scan -/

theorem strstr_some (needle : Str) : ∀ (s : Str) (k : Nat), strstr s needle = some k →
    needle <+: s.drop k ∧ ∀ j, j < k → ¬ needle <+: s.drop j := by
  intro s
  induction s with
  | nil =>
    intro k h
    simp only [strstr] at h
    split at h
    · rename_i hp
      cases h
      exact ⟨by simpa [List.isPrefixOf_iff_prefix] using hp, by intro j hj; omega⟩
    · cases h
  | cons c t ih =>
    intro k h
    simp only [strstr] at h
    split at h
    · rename_i hp
      cases h
      exact ⟨by simpa [List.isPrefixOf_iff_prefix] using hp, by intro j hj; omega⟩
    · rename_i hp
      cases hq : strstr t needle with
      | none => rw [hq] at h; cases h
      | some q =>
        rw [hq] at h
        simp only [Option.map_some', Option.some.injEq] at h
        subst h
        obtain ⟨h1, h2⟩ := ih q hq
        refine ⟨by simpa using h1, ?_⟩
        intro j hj
        cases j with
        | zero =>
          simpa [List.isPrefixOf_iff_prefix] using hp
        | succ j =>
          simpa using h2 j (by omega)

theorem strstr_none (needle : Str) : ∀ (s : Str), strstr s needle = none →
    ∀ j, ¬ needle <+: s.drop j := by
  intro s
  induction s with
  | nil =>
    intro h j
    simp only [strstr] at h
    split at h
    · cases h
    · rename_i hp
      simpa [List.isPrefixOf_iff_prefix] using hp
  | cons c t ih =>
    intro h j
    simp only [strstr] at h
    split at h
    · cases h
    · rename_i hp
      cases hq : strstr t needle with
      | some q => rw [hq] at h; cases h
      | none =>
        cases j with
        | zero => simpa [List.isPrefixOf_iff_prefix] using hp
        | succ j => simpa using ih hq j

theorem charAt_eq_slash (s : Str) (i : Nat) :
    (charAt s i == '/') = true ↔ s.get? i = some '/' := by
  unfold charAt
  rw [List.getD_eq_getElem?_getD, List.get?_eq_getElem?]
  cases h : s[i]? with
  | none => simp
  | some c => simp

theorem charAt_eq_nul (s : Str) (hs : ∀ c ∈ s, c ≠ Char.ofNat 0) (i : Nat) :
    (charAt s i == Char.ofNat 0) = true ↔ s.get? i = none := by
  unfold charAt
  rw [List.getD_eq_getElem?_getD, List.get?_eq_getElem?]
  cases h : s[i]? with
  | none => simp
  | some c =>
    have hc : c ∈ s := List.getElem?_mem h
    simpa using hs c hc

theorem prefix_dotdot_get (s : Str) (i : Nat) (h : ['.', '.'] <+: s.drop i) :
    s.get? i = some '.' ∧ s.get? (i + 1) = some '.' := by
  obtain ⟨t, ht⟩ := h
  have h0 : (s.drop i).get? 0 = some '.' := by rw [← ht]; rfl
  have h1 : (s.drop i).get? 1 = some '.' := by rw [← ht]; rfl
  simp only [List.get?_eq_getElem?, List.getElem?_drop] at h0 h1 ⊢
  exact ⟨by simpa using h0, h1⟩

theorem dotdot_loop_spec (name : Str) (hs : ∀ c ∈ name, c ≠ Char.ofNat 0) :
    ∀ (fuel name2 : Nat), name.length < fuel + name2 →
      (dotdot_loop name fuel name2 = true ↔ ∀ i, name2 ≤ i → ¬ DotDotAt name i) := by
  intro fuel
  induction fuel with
  | zero =>
    intro name2 hlen
    simp only [dotdot_loop, true_iff]
    intro i hi hdd
    have := prefix_dotdot_get name i hdd.1
    have hlt : i < name.length := by
      have := this.1
      rw [List.get?_eq_getElem?] at this
      exact (List.getElem?_eq_some_iff.mp this).1
    omega
  | succ fuel ih =>
    intro name2 hlen
    simp only [dotdot_loop]
    cases hq : strstr (name.drop name2) ['.', '.'] with
    | none =>
      simp only [true_iff]
      intro i hi hdd
      have h := strstr_none _ _ hq (i - name2)
      rw [List.drop_drop] at h
      have e : name2 + (i - name2) = i := by omega
      rw [e] at h
      exact h hdd.1
    | some k =>
      obtain ⟨hp, hfirst⟩ := strstr_some _ _ _ hq
      rw [List.drop_drop] at hp
      have hget := prefix_dotdot_get name (name2 + k) hp
      simp only []
      split
      · rename_i hc
        simp only [Bool.false_eq_true, false_iff, not_forall, not_not]
        refine ⟨name2 + k, by omega, hp, ?_, ?_⟩
        · simp only [Bool.and_eq_true, Bool.or_eq_true, beq_iff_eq] at hc
          rcases hc.1 with h | h
          · exact Or.inl h
          · exact Or.inr ((charAt_eq_slash _ _).mp (by simpa using h))
        · simp only [Bool.and_eq_true, Bool.or_eq_true] at hc
          rcases hc.2 with h | h
          · exact Or.inl ((charAt_eq_nul _ hs _).mp h)
          · exact Or.inr ((charAt_eq_slash _ _).mp h)
      · rename_i hc
        rw [ih (name2 + k + 2) (by omega)]
        constructor
        · intro h i hi hdd
          by_cases h1 : i < name2 + k
          · have := hfirst (i - name2) (by omega)
            rw [List.drop_drop] at this
            have e : name2 + (i - name2) = i := by omega
            rw [e] at this
            exact this hdd.1
          · by_cases h2 : i = name2 + k
            · subst h2
              apply hc
              simp only [Bool.and_eq_true, Bool.or_eq_true, beq_iff_eq]
              refine ⟨?_, ?_⟩
              · rcases hdd.2.1 with h' | h'
                · exact Or.inl h'
                · exact Or.inr (by simpa using (charAt_eq_slash _ _).mpr h')
              · rcases hdd.2.2 with h' | h'
                · exact Or.inl (by simpa using (charAt_eq_nul _ hs _).mpr h')
                · exact Or.inr (by simpa using (charAt_eq_slash _ _).mpr h')
            · by_cases h3 : i = name2 + k + 1
              · subst h3
                rcases hdd.2.1 with h' | h'
                · omega
                · have e : name2 + k + 1 - 1 = name2 + k := by omega
                  rw [e, hget.1] at h'
                  exact absurd h' (by decide)
              · exact h i (by omega) hdd
        · intro h i hi
          exact h i (by omega)

end Execjail

namespace Execjail

/-! ## Components of a path and the `..` component -/

theorem splitBy_ne_nil (p : Char → Bool) (s : Str) : splitBy p s ≠ [] := by
  cases s with
  | nil => simp [splitBy]
  | cons c cs =>
    simp only [splitBy]
    split
    · simp
    · split <;> simp

theorem splitBy_append_sep (p : Char → Bool) (pre post : Str) (sep : Char) (hsep : p sep = true) :
    splitBy p (pre ++ sep :: post) = splitBy p pre ++ splitBy p post := by
  induction pre with
  | nil => simp [splitBy, hsep]
  | cons c cs ih =>
    by_cases hc : p c = true
    · simp [splitBy, hc, ih]
    · cases h : splitBy p cs with
      | nil => exact absurd h (splitBy_ne_nil p cs)
      | cons w ws =>
        simp only [List.cons_append, splitBy, hc, if_false]
        show (match splitBy p (cs ++ sep :: post) with
            | [] => [[c]]
            | w :: ws => (c :: w) :: ws) = _
        rw [ih, h]
        rfl

theorem splitBy_decomp (p : Char → Bool) (s : Str) :
    (∃ hd tl post, splitBy p s = hd :: tl ∧ s = hd ++ post
        ∧ (post = [] ∨ ∃ c, post.head? = some c ∧ p c = true) ∧ ∀ c ∈ hd, p c = false)
    ∧ (∀ w ∈ (splitBy p s).tail, ∃ pre post, s = pre ++ w ++ post
        ∧ (∃ c, pre.getLast? = some c ∧ p c = true)
        ∧ (post = [] ∨ ∃ c, post.head? = some c ∧ p c = true)) := by
  induction s with
  | nil =>
    refine ⟨⟨[], [], [], by simp [splitBy]⟩, ?_⟩
    simp [splitBy]
  | cons c cs ih =>
    obtain ⟨⟨hd, tl, post, hsc, hs, hpost, hhd⟩, ih2⟩ := ih
    by_cases hc : p c = true
    · refine ⟨⟨[], splitBy p cs, c :: cs, by simp [splitBy, hc], by simp,
        Or.inr ⟨c, by simp, hc⟩, by simp⟩, ?_⟩
      intro w hw
      simp only [splitBy, hc, if_true, List.tail_cons] at hw
      rw [hsc] at hw
      rcases List.mem_cons.mp hw with h | h
      · subst h
        exact ⟨[c], post, by simp [← hs], ⟨c, by simp, hc⟩, hpost⟩
      · obtain ⟨pre, post', e, ⟨d, hpre, hd⟩, hpost'⟩ := ih2 w (by rw [hsc]; simpa using h)
        refine ⟨c :: pre, post', by simp [e], ⟨d, ?_, hd⟩, hpost'⟩
        cases pre with
        | nil => simp at hpre
        | cons a t => simpa [List.getLast?_cons_cons] using hpre
    · refine ⟨⟨c :: hd, tl, post, by simp [splitBy, hc, hsc], by simp [hs], hpost, ?_⟩, ?_⟩
      · intro d hd
        rcases List.mem_cons.mp hd with h | h
        · subst h; simpa using hc
        · exact hhd d h
      · intro w hw
        simp only [splitBy, hc, if_false, hsc, List.tail_cons] at hw
        obtain ⟨pre, post', e, ⟨d, hpre, hd⟩, hpost'⟩ := ih2 w (by rw [hsc]; simpa using hw)
        refine ⟨c :: pre, post', by simp [e], ⟨d, ?_, hd⟩, hpost'⟩
        cases pre with
        | nil => simp at hpre
        | cons a t => simpa [List.getLast?_cons_cons] using hpre

theorem slashComponents_append_slash (pre post : Str) :
    slashComponents (pre ++ '/' :: post) = slashComponents pre ++ slashComponents post :=
  splitBy_append_sep _ pre post '/' (by decide)

theorem slashComponents_decomp (s : Str) :
    (∃ hd tl post, slashComponents s = hd :: tl ∧ s = hd ++ post
        ∧ (post = [] ∨ post.head? = some '/'))
    ∧ (∀ w ∈ (slashComponents s).tail, ∃ pre post, s = pre ++ w ++ post
        ∧ pre.getLast? = some '/' ∧ (post = [] ∨ post.head? = some '/')) := by
  obtain ⟨⟨hd, tl, post, hsc, hs, hpost, _⟩, h2⟩ := splitBy_decomp (fun c => c == '/') s
  refine ⟨⟨hd, tl, post, hsc, hs, ?_⟩, ?_⟩
  · rcases hpost with h | ⟨c, h, hc⟩
    · exact Or.inl h
    · have : c = '/' := by simpa using hc
      subst this; exact Or.inr h
  · intro w hw
    obtain ⟨pre, post', e, ⟨d, hpre, hd⟩, hpost'⟩ := h2 w hw
    have hd' : d = '/' := by simpa using hd
    subst hd'
    refine ⟨pre, post', e, hpre, ?_⟩
    rcases hpost' with h | ⟨c, h, hc⟩
    · exact Or.inl h
    · have : c = '/' := by simpa using hc
      subst this; exact Or.inr h

theorem mem_slashComponents_decomp (s w : Str) (h : w ∈ slashComponents s) :
    ∃ pre post, s = pre ++ w ++ post ∧ (pre = [] ∨ pre.getLast? = some '/')
      ∧ (post = [] ∨ post.head? = some '/') := by
  obtain ⟨⟨hd, tl, post, hsc, hs, hpost⟩, h2⟩ := slashComponents_decomp s
  rw [hsc] at h
  rcases List.mem_cons.mp h with h | h
  · subst h
    exact ⟨[], post, by simpa using hs, Or.inl rfl, hpost⟩
  · obtain ⟨pre, post', e, hpre, hpost'⟩ := h2 w (by rw [hsc]; simpa using h)
    exact ⟨pre, post', e, Or.inr hpre, hpost'⟩

theorem dotdot_mem_of_decomp (pre post : Str)
    (hpre : pre = [] ∨ pre.getLast? = some '/') (hpost : post = [] ∨ post.head? = some '/') :
    ['.', '.'] ∈ slashComponents (pre ++ ['.', '.'] ++ post) := by
  have key : ['.', '.'] ∈ slashComponents (['.', '.'] ++ post) := by
    rcases hpost with h | h
    · subst h; decide
    · cases post with
      | nil => simp at h
      | cons a t =>
        simp only [List.head?_cons, Option.some.injEq] at h
        subst h
        rw [slashComponents_append_slash]
        exact List.mem_append_left _ (by decide)
  rcases hpre with h | h
  · subst h; simpa using key
  · obtain ⟨pre', e⟩ : ∃ pre', pre = pre' ++ ['/'] := by
      exact ⟨pre.dropLast, (List.dropLast_append_getLast? '/' (by simpa using h)).symm⟩
    subst e
    have e2 : pre' ++ ['/'] ++ ['.', '.'] ++ post = pre' ++ '/' :: (['.', '.'] ++ post) := by simp
    rw [e2, slashComponents_append_slash]
    exact List.mem_append_right _ key

theorem dotdot_component_iff (s : Str) :
    ['.', '.'] ∈ slashComponents s ↔ ∃ i, DotDotAt s i := by
  constructor
  · intro h
    obtain ⟨pre, post, e, hpre, hpost⟩ := mem_slashComponents_decomp s _ h
    refine ⟨pre.length, ?_, ?_, ?_⟩
    · rw [e]; simp [List.drop_append_of_le_length]
    · rcases hpre with h | h
      · exact Or.inl (by simp [h])
      · right
        rw [e, List.get?_eq_getElem?]
        have hne : pre ≠ [] := by rintro rfl; simp at h
        have hl : 0 < pre.length := List.length_pos.mpr hne
        rw [List.append_assoc, List.getElem?_append_left (by omega)]
        rw [List.getLast?_eq_getElem?] at h
        exact h
    · rw [e, List.get?_eq_getElem?]
      have e1 : pre ++ ['.', '.'] ++ post = (pre ++ ['.', '.']) ++ post := rfl
      rw [e1, List.getElem?_append_right (by simp)]
      simp only [List.length_append, List.length_cons, List.length_nil, Nat.zero_add,
        Nat.sub_self]
      rcases hpost with h | h
      · subst h; left; simp
      · right
        cases post with
        | nil => simp at h
        | cons a t => simpa using h
  · rintro ⟨i, ⟨t, ht⟩, hpre, hpost⟩
    have hs : s = s.take i ++ ['.', '.'] ++ t := by
      rw [List.append_assoc, ht, List.take_append_drop]
    have hlen : i ≤ s.length := by
      by_contra hcon
      rw [List.drop_eq_nil_of_le (by omega)] at ht
      simp at ht
    have hti : (s.take i).length = i := by simp [hlen]
    rw [hs]
    apply dotdot_mem_of_decomp
    · rcases hpre with h | h
      · subst h; left; simp
      · right
        have hi : 0 < i := by
          by_contra hcon
          have : i = 0 := by omega
          subst this
          simp only [Nat.zero_sub, List.get?_eq_getElem?] at h
          have h0 := ht
          simp only [List.drop_zero] at h0
          rw [← h0] at h
          simp at h
        rw [List.getLast?_eq_getElem?, hti, List.getElem?_take_of_lt (by omega)]
        simpa [List.get?_eq_getElem?] using h
    · have hg : s.get? (i + 2) = t.head? := by
        conv_lhs => rw [hs]
        rw [List.get?_eq_getElem?, List.getElem?_append_right (by simp [hti])]
        simp [hti]
        cases t <;> simp
      rw [hg] at hpost
      rcases hpost with h | h
      · left
        cases t with
        | nil => rfl
        | cons a t => simp at h
      · exact Or.inr h

end Execjail

namespace Execjail

theorem charAt_zero_eq (s : Str) (c : Char) (hc : c ≠ Char.ofNat 0) :
    (charAt s 0 == c) = true ↔ s.head? = some c := by
  cases s with
  | nil =>
    simp only [charAt, List.getD_nil, beq_iff_eq, List.head?_nil]
    constructor
    · intro h; exact absurd h.symm hc
    · intro h; cases h
  | cons a t => simp [charAt]

theorem check_filename_iff (name : Str) (allow_slash allow_absolute : Bool) :
    check_filename name allow_slash allow_absolute = true ↔
      ((∀ c ∈ name, NameChar allow_slash c) ∧ name.head? ≠ some '~'
        ∧ ['.', '.'] ∉ slashComponents name
        ∧ (name.head? = some '/' → allow_absolute = true)
        ∧ name.length < 1024) := by
  have hchars : strspn name (if !allow_slash then allowed_chars.drop 1 else allowed_chars)
      = name.length ↔ ∀ c ∈ name, NameChar allow_slash c := by
    rw [strspn_eq_length_iff]
    constructor
    · intro h c hc; exact (elem_allowed_iff allow_slash c).mp (h c hc)
    · intro h c hc; exact (elem_allowed_iff allow_slash c).mpr (h c hc)
  have htilde := charAt_zero_eq name '~' (by decide)
  have hslash := charAt_zero_eq name '/' (by decide)
  unfold check_filename
  simp only []
  generalize strspn name (if !allow_slash then allowed_chars.drop 1 else allowed_chars) = A
    at hchars ⊢
  by_cases h1 : ∀ c ∈ name, NameChar allow_slash c
  · have hnul : ∀ c ∈ name, c ≠ Char.ofNat 0 := by
      intro c hc hz
      have := (elem_allowed_iff allow_slash c).mpr (h1 c hc)
      rw [hz] at this
      cases allow_slash <;> exact absurd this (by decide)
    have hdd : dotdot_loop name (name.length + 1) 0 = true ↔ ['.', '.'] ∉ slashComponents name := by
      rw [dotdot_loop_spec name hnul _ _ (by omega), dotdot_component_iff]
      constructor
      · rintro h ⟨i, hi⟩; exact h i (Nat.zero_le _) hi
      · intro h i _ hi; exact h ⟨i, hi⟩
    have e1 := hchars.mpr h1
    by_cases h2 : name.head? = some '~'
    · have := htilde.mpr h2
      simp [e1, this, h2]
    · have h2' : (charAt name 0 == '~') = false := by
        cases hb : (charAt name 0 == '~') with
        | false => rfl
        | true => exact absurd (htilde.mp hb) h2
      by_cases h3 : ['.', '.'] ∈ slashComponents name
      · have : dotdot_loop name (name.length + 1) 0 = false := by
          cases hb : dotdot_loop name (name.length + 1) 0 with
          | false => rfl
          | true => exact absurd h3 (hdd.mp hb)
        simp [e1, h2', this, h3]
      · have h3' := hdd.mpr h3
        by_cases h4 : name.head? = some '/'
        · have h4' := hslash.mpr h4
          cases allow_absolute with
          | false => simp [e1, h2', h3', h4', h4]
          | true =>
            by_cases h5 : name.length < 1024
            · have : ¬ (name.length ≥ 1024) := by omega
              simp [e1, h2', h3', h4', h2, h3, h5]
              exact h1
            · have : name.length ≥ 1024 := by omega
              simp [e1, h2', h3', h4', h5, this]
        · have h4' : (charAt name 0 == '/') = false := by
            cases hb : (charAt name 0 == '/') with
            | false => rfl
            | true => exact absurd (hslash.mp hb) h4
          by_cases h5 : name.length < 1024
          · have : ¬ (name.length ≥ 1024) := by omega
            simp [e1, h2', h3', h4', h2, h3, h4, h5]
            exact h1
          · have : name.length ≥ 1024 := by omega
            simp [e1, h2', h3', h4', h5, this]
  · have e1 : ¬ A = name.length := fun h => h1 (hchars.mp h)
    simp [e1, h1]

/-- C5: `check_filename(name, allow_slash, allow_absolute)` returns true exactly when every
character of `name` is a letter, a digit, one of `. _ - ~`, or `/` with `allow_slash` set;
`name` does not begin with `~`; no `/`-delimited component of `name` equals `..`; `name` does
not begin with `/` unless `allow_absolute` is set; and the length of `name` is below 1024.
An otherwise valid name of length 1023 is accepted, and every name of length 1024 is
rejected. -/
theorem check_filename_spec (name : Str) (allow_slash allow_absolute : Bool) :
    (check_filename name allow_slash allow_absolute = true ↔
      ((∀ c ∈ name, NameChar allow_slash c) ∧ name.head? ≠ some '~'
        ∧ ['.', '.'] ∉ slashComponents name
        ∧ (name.head? = some '/' → allow_absolute = true)
        ∧ name.length < 1024))
    ∧ (((∀ c ∈ name, NameChar allow_slash c) ∧ name.head? ≠ some '~'
          ∧ ['.', '.'] ∉ slashComponents name
          ∧ (name.head? = some '/' → allow_absolute = true)) →
        name.length = 1023 → check_filename name allow_slash allow_absolute = true)
    ∧ (name.length = 1024 → check_filename name allow_slash allow_absolute = false) := by
  refine ⟨check_filename_iff name allow_slash allow_absolute, ?_, ?_⟩
  · rintro ⟨h1, h2, h3, h4⟩ hlen
    exact (check_filename_iff name allow_slash allow_absolute).mpr ⟨h1, h2, h3, h4, by omega⟩
  · intro hlen
    cases hb : check_filename name allow_slash allow_absolute with
    | false => rfl
    | true =>
      have := ((check_filename_iff name allow_slash allow_absolute).mp hb).2.2.2.2
      omega

end Execjail

namespace Execjail

/-! ## Records of a `JAIL61` -/

theorem splitBy_unfold (p : Char → Bool) (s : Str) :
    splitBy p s = s.takeWhile (fun c => !p c) ::
      (match s.dropWhile (fun c => !p c) with
        | [] => []
        | _ :: t => splitBy p t) := by
  induction s with
  | nil => simp [splitBy]
  | cons c cs ih =>
    by_cases hc : p c = true
    · simp [splitBy, hc]
    · have hc' : p c = false := by simpa using hc
      simp only [splitBy, hc', Bool.false_eq_true, if_false, List.takeWhile_cons,
        List.dropWhile_cons, Bool.not_false, if_true]
      rw [ih]

theorem line_words_sep (c : Char) (cs : Str) (hc : isspace c = true) :
    line_words (c :: cs) = line_words cs := by
  simp [line_words, splitBy, hc]

theorem line_words_dropWhile (l : Str) : line_words (l.dropWhile isspace) = line_words l := by
  induction l with
  | nil => rfl
  | cons c cs ih =>
    by_cases hc : isspace c = true
    · rw [List.dropWhile_cons, if_pos hc, ih, line_words_sep c cs hc]
    · rw [List.dropWhile_cons, if_neg hc]

theorem line_words_nonspace (c : Char) (cs : Str) (hc : isspace c = false) :
    line_words (c :: cs) = (c :: cs.takeWhile (fun c => !isspace c))
      :: line_words (cs.dropWhile (fun c => !isspace c)) := by
  have h := splitBy_unfold isspace (c :: cs)
  simp only [List.takeWhile_cons, List.dropWhile_cons, hc, Bool.not_false, if_true] at h
  unfold line_words
  rw [h]
  simp only [List.filter_cons, List.length_cons]
  have : (cs.takeWhile (fun c => !isspace c)).length + 1 != 0 := by simp
  rw [if_pos this]
  congr 1
  cases hd : cs.dropWhile (fun c => !isspace c) with
  | nil => simp [splitBy]
  | cons d t =>
    have hsp : isspace d = true := by
      have := List.head_dropWhile_not (fun c => !isspace c) cs
      simp only [hd] at this
      simpa using this (by simp)
    simp [splitBy, hsp]

theorem first_word_nil_iff (l : Str) : first_word l = [] ↔ l.dropWhile isspace = [] := by
  unfold first_word
  cases h : l.dropWhile isspace with
  | nil => simp
  | cons d t =>
    have hsp : isspace d = false := by
      have := List.head_dropWhile_not isspace l
      simp only [h] at this
      simpa using this (by simp)
    simp [hsp]

theorem line_words_eq (l : Str) :
    line_words l = if first_word l = [] then [] else first_word l :: line_words (after_first_word l) := by
  rw [← line_words_dropWhile l]
  by_cases h : first_word l = []
  · rw [if_pos h, (first_word_nil_iff l).mp h]
    rfl
  · rw [if_neg h]
    unfold first_word after_first_word at *
    cases hd : l.dropWhile isspace with
    | nil => rw [hd] at h; simp at h
    | cons d t =>
      have hsp : isspace d = false := by
        have := List.head_dropWhile_not isspace l
        simp only [hd] at this
        simpa using this (by simp)
      rw [line_words_nonspace d t hsp]
      simp [hsp]

theorem after_first_word_of_nil (l : Str) (h : first_word l = []) : after_first_word l = [] := by
  unfold after_first_word
  rw [(first_word_nil_iff l).mp h]
  rfl

theorem record_of_line_eq (l : Str) :
    record_of_line l = { verb := first_word l, path := first_word (after_first_word l) } := by
  unfold record_of_line
  rw [line_words_eq l]
  by_cases h : first_word l = []
  · rw [if_pos h, after_first_word_of_nil l h, h]
    rfl
  · rw [if_neg h, line_words_eq (after_first_word l)]
    by_cases h2 : first_word (after_first_word l) = []
    · rw [if_pos h2, h2]; rfl
    · rw [if_neg h2]; rfl

end Execjail

namespace Execjail

theorem takeWhile_append_stop (p : Char → Bool) (X R : Str)
    (hR : R = [] ∨ ∃ c, R.head? = some c ∧ p c = false) :
    (X ++ R).takeWhile p = X.takeWhile p ∧ (X ++ R).dropWhile p = X.dropWhile p ++ R := by
  induction X with
  | nil =>
    rcases hR with h | ⟨c, h, hc⟩
    · subst h; simp
    · cases R with
      | nil => simp
      | cons a t =>
        simp only [List.head?_cons, Option.some.injEq] at h
        subst h
        simp [hc]
  | cons a t ih =>
    by_cases ha : p a = true
    · simp [ha, ih.1, ih.2]
    · simp [ha]

theorem take_word_line (L R : Str) (hL : ∀ c ∈ L, c ≠ '\n') (hR : AtLineEnd R) :
    take_word (L ++ R) = (first_word L, after_first_word L ++ R) := by
  induction L with
  | nil =>
    rcases hR with h | h
    · subst h; rfl
    · cases R with
      | nil => rfl
      | cons a t =>
        simp only [List.head?_cons, Option.some.injEq] at h
        subst h
        rfl
  | cons c cs ih =>
    have hc : c ≠ '\n' := hL c (by simp)
    have ih' := ih (fun d hd => hL d (by simp [hd]))
    by_cases hs : isspace c = true
    · have e1 : take_word ((c :: cs) ++ R) = take_word (cs ++ R) := by
        unfold take_word
        simp [hs, hc]
      rw [e1, ih']
      simp [first_word, after_first_word, hs]
    · have hs' : isspace c = false := by simpa using hs
      have hstop : R = [] ∨ ∃ d, R.head? = some d ∧ (fun c => !isspace c) d = false := by
        rcases hR with h | h
        · exact Or.inl h
        · exact Or.inr ⟨'\n', h, by decide⟩
      obtain ⟨t1, t2⟩ := takeWhile_append_stop (fun c => !isspace c) cs R hstop
      unfold take_word
      simp only [List.cons_append, List.dropWhile_cons, hs', Bool.and_false, Bool.false_eq_true,
        if_false, Bool.not_false, if_true, List.takeWhile_cons, first_word, after_first_word]
      rw [t1, t2]

theorem after_first_word_length (L : Str) : (after_first_word L).length ≤ L.length := by
  unfold after_first_word
  have h1 := (List.dropWhile_sublist (l := L.dropWhile isspace) (fun c => !isspace c)).length_le
  have h2 := (List.dropWhile_sublist (l := L) isspace).length_le
  omega

theorem after_first_word_length_lt (L : Str) (h : first_word L ≠ []) :
    (after_first_word L).length < L.length := by
  unfold after_first_word first_word at *
  have h2 := (List.dropWhile_sublist (l := L) isspace).length_le
  have h3 := List.takeWhile_append_dropWhile (fun c => !isspace c) (L.dropWhile isspace)
  have h4 : ((L.dropWhile isspace).takeWhile (fun c => !isspace c)).length
      + ((L.dropWhile isspace).dropWhile (fun c => !isspace c)).length
      = (L.dropWhile isspace).length := by
    rw [← List.length_append, h3]
  have h5 : 0 < ((L.dropWhile isspace).takeWhile (fun c => !isspace c)).length :=
    List.length_pos.mpr h
  omega

theorem after_first_word_mem (L : Str) (c : Char) (h : c ∈ after_first_word L) : c ∈ L := by
  unfold after_first_word at h
  exact (List.dropWhile_sublist (l := L) isspace).subset
    ((List.dropWhile_sublist (fun c => !isspace c)).subset h)

theorem skip_words_line : ∀ (fuel : Nat) (L R : Str), (∀ c ∈ L, c ≠ '\n') → AtLineEnd R →
    L.length ≤ fuel → skip_words fuel (L ++ R) = R := by
  intro fuel
  induction fuel with
  | zero =>
    intro L R _ _ hlen
    have : L = [] := List.length_eq_zero.mp (by omega)
    subst this
    rfl
  | succ fuel ih =>
    intro L R hL hR hlen
    simp only [skip_words]
    rw [take_word_line L R hL hR]
    by_cases h : first_word L = []
    · simp [h, after_first_word_of_nil L h]
    · have hpos : (first_word L).length != 0 := by
        simpa using h
      simp only [hpos, if_true]
      exact ih _ R (fun c hc => hL c (after_first_word_mem L c hc)) hR
        (by have := after_first_word_length_lt L h; omega)

end Execjail

namespace Execjail

theorem jail61_record_empty (jaildir superdir : Str) (st : WalkState) :
    jail61_record jaildir superdir [] [] st = .ok st := by
  simp [jail61_record, add_slash, dirmatch]

theorem record_of_line_nil : record_of_line [] = { verb := [], path := [] } := by
  decide

theorem text_records_unfold (s : Str) :
    text_records s = record_of_line (s.takeWhile (fun c => !(c == '\n'))) ::
      (match s.dropWhile (fun c => !(c == '\n')) with
        | [] => []
        | _ :: t => text_records t) := by
  unfold text_records text_lines
  rw [splitBy_unfold]
  cases s.dropWhile (fun c => !(c == '\n')) <;> simp

theorem text_records_newline (t : Str) :
    text_records ('\n' :: t) = { verb := [], path := [] } :: text_records t := by
  unfold text_records text_lines
  simp [splitBy, record_of_line_nil]

theorem apply_records_skip_newlines (jaildir superdir : Str) (t : Str) (st : WalkState) :
    apply_records jaildir superdir (text_records (t.dropWhile (fun c => c == '\n'))) st
      = apply_records jaildir superdir (text_records t) st := by
  induction t with
  | nil => rfl
  | cons c cs ih =>
    by_cases hc : c = '\n'
    · subst hc
      rw [text_records_newline]
      simp only [List.dropWhile_cons, beq_self_eq_true, if_true, apply_records,
        jail61_record_empty]
      exact ih
    · simp [hc]

theorem apply_records_text_nil (jaildir superdir : Str) (st : WalkState) :
    apply_records jaildir superdir (text_records []) st = .ok st := by
  have : text_records [] = [{ verb := [], path := [] }] := by decide
  rw [this]
  simp [apply_records, jail61_record_empty]

theorem jail61_records_eq (jaildir superdir : Str) : ∀ (fuel : Nat) (s : Str) (st : WalkState),
    s.length ≤ fuel →
      jail61_records jaildir superdir fuel s st
        = apply_records jaildir superdir (text_records s) st := by
  intro fuel
  induction fuel with
  | zero =>
    intro s st hlen
    have : s = [] := List.length_eq_zero.mp (by omega)
    subst this
    rw [apply_records_text_nil]
    rfl
  | succ fuel ih =>
    intro s st hlen
    by_cases hs : s = []
    · subst hs
      rw [apply_records_text_nil]
      rfl
    · have hne : (s.length == 0) = false := by
        simpa using hs
      simp only [jail61_records, hne, Bool.false_eq_true, if_false]
      have hsplit := List.takeWhile_append_dropWhile (fun c => !(c == '\n')) s
      generalize hLd : s.takeWhile (fun c => !(c == '\n')) = L at hsplit
      generalize hRd : s.dropWhile (fun c => !(c == '\n')) = R at hsplit
      have hL : ∀ c ∈ L, c ≠ '\n' := by
        intro c hc
        rw [← hLd] at hc
        have := List.mem_takeWhile_imp hc
        simpa using this
      have hR : AtLineEnd R := by
        cases hR' : R with
        | nil => exact Or.inl rfl
        | cons d t =>
          right
          have := List.head_dropWhile_not (fun c => !(c == '\n')) s
          simp only [hRd, hR'] at this
          have h2 := this (by simp)
          simp only [List.head_cons, Bool.not_eq_true, Bool.not_eq_false', beq_iff_eq] at h2
          simp [h2]
      have hL2 : ∀ c ∈ after_first_word L, c ≠ '\n' :=
        fun c hc => hL c (after_first_word_mem L c hc)
      have hL3 : ∀ c ∈ after_first_word (after_first_word L), c ≠ '\n' :=
        fun c hc => hL2 c (after_first_word_mem _ c hc)
      have e1 : take_word s = (first_word L, after_first_word L ++ R) := by
        rw [← hsplit]; exact take_word_line L R hL hR
      have e2 : take_word (after_first_word L ++ R)
          = (first_word (after_first_word L), after_first_word (after_first_word L) ++ R) :=
        take_word_line _ R hL2 hR
      rw [e1]
      simp only []
      rw [e2]
      simp only []
      rw [skip_words_line _ _ R hL3 hR (by simp)]
      rw [text_records_unfold s, hLd, hRd]
      simp only [apply_records, record_of_line_eq L]
      cases hrec : jail61_record jaildir superdir (first_word L)
          (first_word (after_first_word L)) st with
      | error e => rfl
      | ok st1 =>
        simp only []
        have hlen4 : (R.dropWhile (fun c => c == '\n')).length ≤ fuel := by
          have hl : s.length = L.length + R.length := by rw [← hsplit, List.length_append]
          have h1 := (List.dropWhile_sublist (l := R) (fun c => c == '\n')).length_le
          cases hR' : R with
          | nil =>
            have : 0 < s.length := List.length_pos.mpr hs
            simp
          | cons d t =>
            rcases hR with h | h
            · rw [hR'] at h; cases h
            · rw [hR'] at h
              simp only [List.head?_cons, Option.some.injEq] at h
              subst h
              have h2 := (List.dropWhile_sublist (l := t) (fun c => c == '\n')).length_le
              simp only [List.dropWhile_cons, beq_self_eq_true, if_true]
              rw [hR'] at hl
              simp only [List.length_cons] at hl
              omega
        rw [ih _ st1 hlen4]
        cases hR' : R with
        | nil =>
          simp only [List.dropWhile_nil]
          rw [apply_records_text_nil]
          rfl
        | cons d t =>
          rcases hR with h | h
          · rw [hR'] at h; cases h
          · rw [hR'] at h
            simp only [List.head?_cons, Option.some.injEq] at h
            subst h
            simp only [List.dropWhile_cons, beq_self_eq_true, if_true]
            exact apply_records_skip_newlines jaildir superdir t st1

theorem jail61_parse_eq (jaildir superdir str : Str) (st : WalkState) :
    jail61_parse jaildir superdir str st
      = apply_records jaildir superdir (text_records str) st :=
  jail61_records_eq jaildir superdir _ str st (Nat.le_refl _)

end Execjail

namespace Execjail

theorem add_slash_eq (p : Str) : add_slash p = path_with_slash p := by
  unfold add_slash path_with_slash
  cases h : p.getLast? with
  | none =>
    have : p = [] := List.getLast?_eq_none_iff.mp h
    subst this
    rfl
  | some c =>
    have hne : p ≠ [] := by rintro rfl; simp at h
    have hlen : (p.length != 0) = true := by simpa using hne
    by_cases hc : c = '/'
    · subst hc; simp
    · simp [hlen, hc]

theorem path_with_slash_last (p : Str) (h : p ≠ []) : (path_with_slash p).getLast? = some '/' := by
  unfold path_with_slash
  cases hl : p.getLast? with
  | none => exact absurd (List.getLast?_eq_none_iff.mp hl) h
  | some c =>
    by_cases hc : c = '/'
    · subst hc; simpa using hl
    · simp [hc]

theorem path_with_slash_eq_nil (p : Str) : path_with_slash p = [] ↔ p = [] := by
  unfold path_with_slash
  cases hl : p.getLast? with
  | none => simp [List.getLast?_eq_none_iff.mp hl]
  | some c =>
    have hne : p ≠ [] := by rintro rfl; simp at hl
    by_cases hc : c = '/' <;> simp [hc, hne]

theorem dirmatch_eq (jaildir w : Str) :
    dirmatch jaildir w = (w != [] && w.isPrefixOf jaildir) := by
  unfold dirmatch substr
  have h1 : (w.length != 0) = (w != []) := by
    cases w <;> simp
  rw [h1]
  congr 1
  rw [Bool.eq_iff_iff]
  simp only [List.drop_zero, beq_iff_eq, List.isPrefixOf_iff_prefix]
  constructor
  · intro h; rw [← h]; exact List.take_prefix _ _
  · intro h; exact (List.prefix_iff_eq_take.mp h).symm

theorem jail61_record_eq (jaildir superdir : Str) (r : Record) (st : WalkState) :
    jail61_record jaildir superdir r.verb r.path st =
      if r.refuses jaildir then
        (if r.path = [] then .error (.nojail_here superdir)
         else .error (.nojail_under superdir (path_with_slash r.path)))
      else if r.allows jaildir then
        .ok { st with found_superdir := true, jailsuperdir := path_with_slash r.path }
      else .ok st := by
  unfold jail61_record Record.refuses Record.allows
  simp only [add_slash_eq, dirmatch_eq]
  have hnil := path_with_slash_eq_nil r.path
  by_cases hp : r.path = []
  · have hp' : path_with_slash ([] : Str) = [] := rfl
    by_cases hv : r.verb = "nojail".data
    · simp [hp, hp', hv]
    · by_cases hv2 : r.verb = "allowjail".data
      · simp [hp, hp', hv2]
      · simp [hp, hp', hv, hv2]
  · have hp' : path_with_slash r.path ≠ [] := fun h => hp (hnil.mp h)
    by_cases hv : r.verb = "nojail".data
    · by_cases hm : (path_with_slash r.path).isPrefixOf jaildir = true
      · simp [hp, hp', hv, hm]
      · simp [hp, hp', hv, hm]
    · by_cases hv2 : r.verb = "allowjail".data
      · by_cases hm : (path_with_slash r.path).isPrefixOf jaildir = true
        · simp [hp, hp', hv2, hm]
        · simp [hp, hp', hv2, hm]
      · simp [hp, hp', hv, hv2]

theorem apply_records_error_iff (jaildir superdir : Str) : ∀ (rs : List Record) (st : WalkState),
    (∃ e, apply_records jaildir superdir rs st = .error e)
      ↔ ∃ r ∈ rs, r.refuses jaildir = true := by
  intro rs
  induction rs with
  | nil => intro st; simp [apply_records]
  | cons r rs ih =>
    intro st
    simp only [apply_records, jail61_record_eq, List.mem_cons, exists_eq_or_imp]
    by_cases h1 : r.refuses jaildir = true
    · simp only [h1, if_true, true_or, iff_true]
      by_cases hp : r.path = []
      · simp [hp]
      · simp [hp]
    · simp only [h1, Bool.false_eq_true, if_false, false_or]
      by_cases h2 : r.allows jaildir = true
      · simp only [h2, if_true]
        exact ih _
      · simp only [h2, Bool.false_eq_true, if_false]
        exact ih _

theorem apply_records_ok (jaildir superdir : Str) : ∀ (rs : List Record) (st st' : WalkState),
    apply_records jaildir superdir rs st = .ok st' →
      st'.found_superdir = (st.found_superdir || rs.any (Record.allows jaildir))
      ∧ st'.jailsuperdir = (match (rs.filter (Record.allows jaildir)).getLast? with
          | some r => path_with_slash r.path
          | none => st.jailsuperdir)
      ∧ st'.jailparent = st.jailparent ∧ st'.jailcomponent = st.jailcomponent
      ∧ st'.cmds = st.cmds ∧ st'.ignored = st.ignored := by
  intro rs
  induction rs with
  | nil =>
    intro st st' h
    simp only [apply_records, Except.ok.injEq] at h
    subst h
    simp
  | cons r rs ih =>
    intro st st' h
    simp only [apply_records, jail61_record_eq] at h
    by_cases h1 : r.refuses jaildir = true
    · simp only [h1, if_true] at h
      by_cases hp : r.path = []
      · simp [hp] at h
      · simp [hp] at h
    · simp only [h1, Bool.false_eq_true, if_false] at h
      by_cases h2 : r.allows jaildir = true
      · simp only [h2, if_true] at h
        obtain ⟨a, b, c, d, e, f⟩ := ih _ _ h
        refine ⟨by simp [a, h2], ?_, c, d, e, f⟩
        rw [b]
        simp only [List.filter_cons, h2, if_true, List.getLast?_cons]
        cases (rs.filter (Record.allows jaildir)).getLast? <;> rfl
      · simp only [h2, Bool.false_eq_true, if_false] at h
        obtain ⟨a, b, c, d, e, f⟩ := ih _ _ h
        have h2' : r.allows jaildir = false := by simpa using h2
        refine ⟨by simp [a, h2'], ?_, c, d, e, f⟩
        rw [b]
        simp [List.filter_cons, h2']

end Execjail

namespace Execjail

theorem dropWhile_append_of_ne_nil (p : Char → Bool) (X R : Str) (h : X.dropWhile p ≠ []) :
    (X ++ R).dropWhile p = X.dropWhile p ++ R := by
  induction X with
  | nil => simp at h
  | cons a t ih =>
    by_cases ha : p a = true
    · simp only [List.cons_append, List.dropWhile_cons, ha, if_true] at h ⊢
      exact ih h
    · simp [ha]

theorem first_word_append_space (line extra : Str) (h : first_word line ≠ []) :
    first_word (line ++ ' ' :: extra) = first_word line
      ∧ after_first_word (line ++ ' ' :: extra) = after_first_word line ++ ' ' :: extra := by
  have hd : line.dropWhile isspace ≠ [] := fun h0 => h ((first_word_nil_iff line).mpr h0)
  have hstop : (' ' :: extra) = [] ∨
      ∃ d, (' ' :: extra).head? = some d ∧ (fun c => !isspace c) d = false :=
    Or.inr ⟨' ', rfl, by decide⟩
  obtain ⟨t1, t2⟩ := takeWhile_append_stop (fun c => !isspace c) (line.dropWhile isspace)
    (' ' :: extra) hstop
  unfold first_word after_first_word
  rw [dropWhile_append_of_ne_nil isspace line _ hd, t1, t2]
  exact ⟨rfl, rfl⟩

theorem record_of_line_extra (line extra : Str) (h : 2 ≤ (line_words line).length) :
    record_of_line (line ++ ' ' :: extra) = record_of_line line := by
  have h1 : first_word line ≠ [] := by
    intro h0
    rw [line_words_eq, if_pos h0] at h
    simp at h
  have h2 : first_word (after_first_word line) ≠ [] := by
    intro h0
    rw [line_words_eq, if_neg h1, line_words_eq (after_first_word line), if_pos h0] at h
    simp at h
  obtain ⟨a1, a2⟩ := first_word_append_space line extra h1
  obtain ⟨b1, _⟩ := first_word_append_space (after_first_word line) extra h2
  rw [record_of_line_eq, record_of_line_eq, a1, a2, b1]

theorem splitBy_no_sep (p : Char → Bool) (X : Str) (h : ∀ c ∈ X, p c = false) :
    splitBy p X = [X] := by
  induction X with
  | nil => rfl
  | cons a t ih =>
    have ha : p a = false := h a (by simp)
    simp only [splitBy, ha, Bool.false_eq_true, if_false]
    rw [ih (fun c hc => h c (by simp [hc]))]

theorem text_lines_line_in_text (pre post : Str)
    (hpre : pre = [] ∨ pre.getLast? = some '\n') (hpost : AtLineEnd post) :
    ∃ A B, ∀ Y : Str, (∀ c ∈ Y, c ≠ '\n') →
      text_lines (pre ++ Y ++ post) = A ++ [Y] ++ B := by
  have hsep : (fun c => c == '\n') '\n' = true := by decide
  have key : ∃ B, ∀ Y : Str, (∀ c ∈ Y, c ≠ '\n') → text_lines (Y ++ post) = [Y] ++ B := by
    rcases hpost with h | h
    · subst h
      refine ⟨[], fun Y hY => ?_⟩
      simp only [List.append_nil]
      exact splitBy_no_sep (fun c => c == '\n') Y (fun c hc => by simpa using hY c hc)
    · cases post with
      | nil => simp at h
      | cons a t =>
        simp only [List.head?_cons, Option.some.injEq] at h
        subst h
        refine ⟨text_lines t, fun Y hY => ?_⟩
        unfold text_lines
        rw [splitBy_append_sep (fun c => c == '\n') Y t '\n' hsep,
          splitBy_no_sep (fun c => c == '\n') Y (fun c hc => by simpa using hY c hc)]
  obtain ⟨B, hB⟩ := key
  rcases hpre with h | h
  · subst h
    exact ⟨[], B, fun Y hY => by simpa using hB Y hY⟩
  · have e : pre = pre.dropLast ++ ['\n'] :=
      (List.dropLast_append_getLast? '\n' (by simpa using h)).symm
    refine ⟨text_lines pre.dropLast, B, fun Y hY => ?_⟩
    have e2 : pre ++ Y ++ post = pre.dropLast ++ '\n' :: (Y ++ post) := by
      conv_lhs => rw [e]
      simp
    rw [e2]
    unfold text_lines
    rw [splitBy_append_sep (fun c => c == '\n') _ _ '\n' hsep]
    have := hB Y hY
    unfold text_lines at this
    rw [this]
    simp

theorem text_records_extra (pre line extra post : Str)
    (hpre : pre = [] ∨ pre.getLast? = some '\n') (hpost : AtLineEnd post)
    (hline : ∀ c ∈ line, c ≠ '\n') (hextra : ∀ c ∈ extra, c ≠ '\n')
    (hw : 2 ≤ (line_words line).length) :
    text_records (pre ++ (line ++ ' ' :: extra) ++ post) = text_records (pre ++ line ++ post) := by
  obtain ⟨A, B, h⟩ := text_lines_line_in_text pre post hpre hpost
  have hY : ∀ c ∈ line ++ ' ' :: extra, c ≠ '\n' := by
    intro c hc
    rcases List.mem_append.mp hc with h1 | h1
    · exact hline c h1
    · rcases List.mem_cons.mp h1 with h2 | h2
      · subst h2; decide
      · exact hextra c h2
  unfold text_records
  rw [h _ hY, h _ hline]
  simp [record_of_line_extra line extra hw]

end Execjail

namespace Execjail

/-- C4 (as amended): for every JAILDIR and every text of a consulted `JAIL61` of at most 8192
bytes (the walk reads no more of the file), with records the lines of the text and verb and path the first two
whitespace-separated words of a line: the walk refuses the jail iff some record is
`nojail` with no path, or `nojail P` with JAILDIR beginning with `P/`; otherwise
authorization is found iff some record is `allowjail P` with JAILDIR beginning with `P/`,
and `jailsuperdir` is then the `P/` of the last such record, which ends in `/` and is a
prefix of JAILDIR.  Words added after the second word of a record do not change the
outcome. -/
theorem jail61_outcome_spec (jaildir superdir text : Str) (st : WalkState)
    (hlen : text.length ≤ 8192) (hst : st.found_superdir = false) :
    ((∃ e, jail61_outcome jaildir superdir text st = .error e)
        ↔ ∃ r ∈ text_records text, r.refuses jaildir = true)
    ∧ (∀ st', jail61_outcome jaildir superdir text st = .ok st' →
        (st'.found_superdir = true ↔ ∃ r ∈ text_records text, r.allows jaildir = true)
        ∧ (∀ r, ((text_records text).filter (Record.allows jaildir)).getLast? = some r →
            st'.jailsuperdir = path_with_slash r.path
            ∧ st'.jailsuperdir.getLast? = some '/' ∧ st'.jailsuperdir <+: jaildir))
    ∧ (∀ pre line extra post, text = pre ++ (line ++ ' ' :: extra) ++ post →
        (pre = [] ∨ pre.getLast? = some '\n') → AtLineEnd post →
        (∀ c ∈ line, c ≠ '\n') → (∀ c ∈ extra, c ≠ '\n') → 2 ≤ (line_words line).length →
        jail61_outcome jaildir superdir (pre ++ line ++ post) st
          = jail61_outcome jaildir superdir text st) := by
  have htake : text.take 8192 = text := List.take_of_length_le hlen
  have hout : jail61_outcome jaildir superdir text st
      = apply_records jaildir superdir (text_records text) st := by
    unfold jail61_outcome
    rw [htake, jail61_parse_eq]
  refine ⟨?_, ?_, ?_⟩
  · rw [hout]
    exact apply_records_error_iff jaildir superdir _ st
  · intro st' h
    rw [hout] at h
    obtain ⟨a, b, _⟩ := apply_records_ok jaildir superdir _ st st' h
    refine ⟨?_, ?_⟩
    · rw [a, hst]
      simp
    · intro r hr
      rw [hr] at b
      simp only [] at b
      have hmem : r ∈ (text_records text).filter (Record.allows jaildir) :=
        List.mem_of_getLast?_eq_some hr
      have hall : r.allows jaildir = true := (List.mem_filter.mp hmem).2
      unfold Record.allows at hall
      simp only [Bool.and_eq_true, bne_iff_ne, ne_eq] at hall
      refine ⟨b, ?_, ?_⟩
      · rw [b]; exact path_with_slash_last r.path hall.1.2
      · rw [b]; exact List.isPrefixOf_iff_prefix.mp hall.2
  · intro pre line extra post htext hpre hpost hline hextra hw
    have hlen2 : (pre ++ line ++ post).length ≤ 8192 := by
      rw [htext] at hlen
      simp only [List.length_append, List.length_cons] at hlen ⊢
      omega
    rw [hout]
    unfold jail61_outcome
    rw [List.take_of_length_le hlen2, jail61_parse_eq, htext,
      text_records_extra pre line extra post hpre hpost hline hextra hw]

/-- C4 at `JAILDIR = /srv/jails/x` and a `JAIL61` with one `allowjail` record. -/
theorem jail61_outcome_spec_witness :
    "allowjail /srv/jails extra\n".data.length ≤ 8192 ∧ walk_init.found_superdir = false
    ∧ ((∃ e, jail61_outcome "/srv/jails/x".data "/srv".data
              "allowjail /srv/jails extra\n".data walk_init = .error e)
        ↔ ∃ r ∈ text_records "allowjail /srv/jails extra\n".data,
            r.refuses "/srv/jails/x".data = true) :=
  ⟨by decide, rfl,
    (jail61_outcome_spec "/srv/jails/x".data "/srv".data "allowjail /srv/jails extra\n".data
      walk_init (by decide) rfl).1⟩

theorem text_records_newlines (n : Nat) (t : Str) :
    text_records (List.replicate n '\n' ++ t)
      = List.replicate n { verb := [], path := [] } ++ text_records t := by
  induction n with
  | zero => rfl
  | succ n ih =>
    rw [List.replicate_succ, List.cons_append, text_records_newline, ih]
    rfl

theorem apply_records_empty (jaildir superdir : Str) (n : Nat) (rs : List Record)
    (st : WalkState) :
    apply_records jaildir superdir (List.replicate n { verb := [], path := [] } ++ rs) st
      = apply_records jaildir superdir rs st := by
  induction n with
  | zero => rfl
  | succ n ih =>
    rw [List.replicate_succ, List.cons_append, apply_records, jail61_record_empty]
    exact ih

/-- C4 as stated fails on a `JAIL61` longer than the 8192 bytes the walk reads: in
`long_jail61` the only record is `nojail /srv/jails/zz/`, which does not refuse
`/srv/jails/x`, but the read ends after `nojail /srv/jails/`, and the walk to `/srv/jails/x`
ends in the exit of "Jails are not allowed under /srv/jails/". -/
theorem long_jail61_cut_mid_record :
    long_jail61.length = 8196
    ∧ long_jail61.take 8192 = List.replicate 8174 '\n' ++ "nojail /srv/jails/".data
    ∧ jail61_outcome "/srv/jails/x".data "/srv".data long_jail61 walk_init
        = .error (.nojail_under "/srv".data "/srv/jails/".data)
    ∧ ∀ r ∈ text_records long_jail61, r.refuses "/srv/jails/x".data = false := by
  have htake : long_jail61.take 8192
      = List.replicate 8174 '\n' ++ "nojail /srv/jails/".data := by
    unfold long_jail61
    have hl : (List.replicate 8174 '\n').length ≤ 8192 := by
      rw [List.length_replicate]
      omega
    rw [List.take_append_eq_append_take, List.take_of_length_le hl, List.length_replicate]
    rfl
  refine ⟨?_, htake, ?_, ?_⟩
  · unfold long_jail61
    rw [List.length_append, List.length_replicate]
    rfl
  · unfold jail61_outcome
    rw [htake, jail61_parse_eq, text_records_newlines, apply_records_empty]
    decide
  · intro r hr
    unfold long_jail61 at hr
    rw [text_records_newlines] at hr
    rcases List.mem_append.mp hr with h | h
    · rw [List.eq_of_mem_replicate h]
      rfl
    · have hrec : text_records "nojail /srv/jails/zz/\n".data
          = [{ verb := "nojail".data, path := "/srv/jails/zz/".data },
             { verb := [], path := [] }] := by decide
      rw [hrec] at h
      simp only [List.mem_cons, List.mem_singleton, List.not_mem_nil, or_false] at h
      rcases h with rfl | rfl
      · decide
      · decide

end Execjail

namespace Execjail

/-! ## The policy walk -/

theorem walk_advance_bounds (jaildir : Str) (last_pos : Nat) (h : last_pos < jaildir.length) :
    last_pos < (walk_advance jaildir last_pos).2
      ∧ (walk_advance jaildir last_pos).2 ≤ jaildir.length := by
  unfold walk_advance
  simp only []
  have hsub : ∀ (p : Char → Bool) (n : Nat),
      ((jaildir.drop n).takeWhile p).length ≤ jaildir.length - n := by
    intro p n
    have := (List.takeWhile_sublist (l := jaildir.drop n) p).length_le
    simpa using this
  by_cases h0 : last_pos = 0
  · subst h0
    have := hsub (fun c => c == '/') 1
    simp only [beq_self_eq_true, if_true]
    omega
  · have hb : (last_pos == 0) = false := by simpa using h0
    simp only [hb, Bool.false_eq_true, if_false]
    have h1 := hsub (fun c => c != '/') last_pos
    have h2 := hsub (fun c => c == '/')
      (last_pos + ((jaildir.drop last_pos).takeWhile (fun c => c != '/')).length)
    refine ⟨?_, by omega⟩
    cases hd : jaildir.drop last_pos with
    | nil =>
      have := List.drop_eq_nil_iff.mp hd
      omega
    | cons c cs =>
      by_cases hc : c = '/'
      · subst hc
        simp [hd]
      · simp only [List.takeWhile_cons, bne_iff_ne, ne_eq, hc, not_false_eq_true, decide_True,
          if_true, List.length_cons]
        omega

/-- The loop over the components ends because `last_pos` reaches the length
of `jaildir`, never because the bound on the iterations is reached. -/
theorem walk_positions_fuel (jaildir : Str) : ∀ (fuel last_pos : Nat),
    last_pos ≤ jaildir.length → jaildir.length - last_pos ≤ fuel →
      walk_positions jaildir (fuel + 1) last_pos = walk_positions jaildir fuel last_pos := by
  intro fuel
  induction fuel with
  | zero =>
    intro last_pos h1 h2
    have : last_pos = jaildir.length := by omega
    simp [walk_positions, this]
  | succ fuel ih =>
    intro last_pos h1 h2
    rw [walk_positions, walk_positions]
    by_cases he : last_pos = jaildir.length
    · simp [he]
    · have hb : (last_pos == jaildir.length) = false := by simpa using he
      simp only [hb, Bool.false_eq_true, if_false]
      have hlt : last_pos < jaildir.length := by omega
      obtain ⟨b1, b2⟩ := walk_advance_bounds jaildir last_pos hlt
      rw [ih _ b2 (by omega)]

theorem jail61_untrusted_false (s : Stat) :
    jail61_untrusted s = false ↔
      s.st_uid = 0 ∧ (s.st_mode &&& S_IWGRP ≠ 0 → s.st_gid = 0) ∧ s.st_mode &&& S_IWOTH = 0 := by
  unfold jail61_untrusted ROOT
  simp only [Bool.or_eq_false_iff, bne_eq_false_iff_eq, Bool.and_eq_false_iff]
  constructor
  · rintro ⟨⟨h1, h2⟩, h3⟩
    refine ⟨h1, ?_, h3⟩
    intro hw
    rcases h2 with h | h
    · exact h
    · exact absurd h hw
  · rintro ⟨h1, h2, h3⟩
    refine ⟨⟨h1, ?_⟩, h3⟩
    by_cases hw : s.st_mode &&& S_IWGRP = 0
    · exact Or.inr hw
    · exact Or.inl (h2 hw)

theorem jail61_consult_some (W : World) (cmds : List Cmd) (superdir str : Str)
    (h : jail61_consult W cmds superdir = .ok (some str)) :
    W.open_jail61 cmds superdir = none
      ∧ ∃ s, W.fstat_jail61 cmds superdir = .ok s ∧ jail61_untrusted s = false := by
  unfold jail61_consult at h
  cases ho : W.open_jail61 cmds superdir with
  | some e =>
    rw [ho] at h
    simp only [] at h
    split at h <;> cases h
  | none =>
    rw [ho] at h
    simp only [] at h
    cases hf : W.fstat_jail61 cmds superdir with
    | error e => rw [hf] at h; cases h
    | ok s =>
      rw [hf] at h
      simp only [] at h
      cases hu : jail61_untrusted s with
      | true => rw [hu] at h; cases h
      | false => exact ⟨rfl, s, rfl, hu⟩

/-- What a successful iteration of the walk has checked, as long as no
authorization was found before it. -/
theorem walk_component_notfound (W : World) (doexec : Bool) (jaildir : Str)
    (last_pos next_pos : Nat) (st st' : WalkState)
    (hf : st.found_superdir = false) (hc : st.cmds = [])
    (h : walk_component W doexec jaildir last_pos next_pos st = .ok st') :
    (∃ s, W.fstat_dir [] (substr jaildir 0 next_pos) = .ok s ∧ S_ISDIR s.st_mode = true
        ∧ s.st_uid = 0)
    ∧ st'.cmds = []
    ∧ (st'.found_superdir = false
        ∨ (last_pos ≠ 0 ∧ ∃ str, jail61_consult W [] (substr jaildir 0 next_pos) = .ok (some str)
            ∧ ∃ r ∈ text_records str, r.allows jaildir = true)) := by
  unfold walk_component at h
  simp only [] at h
  have hopen : walk_open W doexec (substr jaildir 0 next_pos) st
      = (match W.openat_dir [] (substr jaildir 0 next_pos) with
          | none => .ok []
          | some e => .error (.open_failed (substr jaildir 0 next_pos) e)) := by
    unfold walk_open
    rw [hc, hf]
    cases W.openat_dir [] (substr jaildir 0 next_pos) <;> simp
  rw [hopen] at h
  cases ho : W.openat_dir [] (substr jaildir 0 next_pos) with
  | some e => rw [ho] at h; cases h
  | none =>
    rw [ho] at h
    simp only [] at h
    cases hs : W.fstat_dir [] (substr jaildir 0 next_pos) with
    | error e => rw [hs] at h; cases h
    | ok s =>
      rw [hs] at h
      simp only [] at h
      cases hd : S_ISDIR s.st_mode with
      | false => simp [hd] at h
      | true =>
        by_cases hu : s.st_uid = 0
        · have hu' : (s.st_uid != ROOT) = false := by simp [ROOT, hu]
          simp only [hd, hu', hf, Bool.not_true, Bool.false_eq_true, if_false, Bool.not_false,
            Bool.false_and, Bool.true_and] at h
          refine ⟨⟨s, rfl, hd, hu⟩, ?_⟩
          by_cases hp : ((substr jaildir 0 last_pos).length != 0) = true
          · have hlp : last_pos ≠ 0 := by
              rintro rfl
              simp [substr] at hp
            simp only [hp, if_true] at h
            cases hcons : jail61_consult W [] (substr jaildir 0 next_pos) with
            | error e => rw [hcons] at h; cases h
            | ok o =>
              rw [hcons] at h
              cases o with
              | none =>
                simp only [Except.ok.injEq] at h
                subst h
                refine ⟨?_, Or.inl ?_⟩
                · split <;> rfl
                · split <;> rfl
              | some str =>
                simp only [] at h
                rw [jail61_parse_eq] at h
                obtain ⟨a, _, _, _, e, _⟩ := apply_records_ok jaildir _ _ _ _ h
                refine ⟨e, ?_⟩
                simp only [hf, Bool.false_or] at a
                cases hany : (text_records str).any (Record.allows jaildir) with
                | false => left; rw [a, hany]
                | true =>
                  right
                  refine ⟨hlp, str, rfl, ?_⟩
                  obtain ⟨r, hr, hr2⟩ := List.any_eq_true.mp hany
                  exact ⟨r, hr, hr2⟩
          · simp only [hp, Bool.false_eq_true, if_false, Except.ok.injEq] at h
            subst h
            exact ⟨rfl, Or.inl rfl⟩
        · have hu' : (s.st_uid != ROOT) = true := by simp [ROOT, hu]
          simp [hd, hu', hf] at h

end Execjail

namespace Execjail

theorem walk_components_granting (W : World) (doexec : Bool) (jaildir : Str) :
    ∀ (ps : List (Nat × Nat)) (st st' : WalkState),
      st.found_superdir = false → st.cmds = [] →
      walk_components W doexec jaildir ps st = .ok st' → st'.found_superdir = true →
      ∃ pre g post, ps = pre ++ g :: post
        ∧ (∀ p ∈ pre ++ [g], ∃ s, W.fstat_dir [] (substr jaildir 0 p.2) = .ok s
              ∧ S_ISDIR s.st_mode = true ∧ s.st_uid = 0)
        ∧ g.1 ≠ 0
        ∧ ∃ str, jail61_consult W [] (substr jaildir 0 g.2) = .ok (some str)
              ∧ ∃ r ∈ text_records str, r.allows jaildir = true := by
  intro ps
  induction ps with
  | nil =>
    intro st st' hf _ h hf'
    simp only [walk_components, Except.ok.injEq] at h
    subst h
    rw [hf] at hf'
    cases hf'
  | cons p rest ih =>
    intro st st' hf hc h hf'
    obtain ⟨lp, np⟩ := p
    simp only [walk_components] at h
    cases hcomp : walk_component W doexec jaildir lp np st with
    | error e => rw [hcomp] at h; cases h
    | ok st1 =>
      rw [hcomp] at h
      simp only [] at h
      obtain ⟨hdir, hc1, hcase⟩ := walk_component_notfound W doexec jaildir lp np st st1 hf hc hcomp
      rcases hcase with hnf | ⟨hlp, hgrant⟩
      · obtain ⟨pre, g, post, e, hall, hg, hgr⟩ := ih st1 st' hnf hc1 h hf'
        refine ⟨(lp, np) :: pre, g, post, by simp [e], ?_, hg, hgr⟩
        intro q hq
        simp only [List.cons_append, List.mem_cons] at hq
        rcases hq with hq | hq
        · subst hq; exact hdir
        · exact hall q (by simpa using hq)
      · refine ⟨[], (lp, np), rest, rfl, ?_, hlp, hgrant⟩
        intro q hq
        simp only [List.nil_append, List.mem_singleton] at hq
        subst hq
        exact hdir

theorem policy_walk_ok (W : World) (doexec : Bool) (jaildir : Str) (st : WalkState)
    (h : policy_walk W doexec jaildir = .ok st) :
    walk_components W doexec jaildir (walk_positions jaildir jaildir.length 0) walk_init
        = .ok st ∧ st.found_superdir = true := by
  unfold policy_walk at h
  cases hw : walk_components W doexec jaildir (walk_positions jaildir jaildir.length 0)
      walk_init with
  | error e => rw [hw] at h; cases h
  | ok st1 =>
    rw [hw] at h
    simp only [] at h
    cases hf : st1.found_superdir with
    | false => simp [hf] at h
    | true =>
      simp only [hf, Bool.not_true, Bool.false_eq_true, if_false, Except.ok.injEq] at h
      subst h
      exact ⟨rfl, hf⟩

theorem jail61_consult_congr (W W' : World) (h : SameButUntrustedJail61 W W')
    (cmds : List Cmd) (p : Str) :
    jail61_consult W' cmds p = jail61_consult W cmds p
      ∧ jail61_warns W' cmds p = jail61_warns W cmds p := by
  obtain ⟨_, _, _, e4, e5, e6⟩ := h
  unfold jail61_consult jail61_warns
  rw [e4, e5]
  refine ⟨?_, rfl⟩
  cases W.open_jail61 cmds p with
  | some e => rfl
  | none =>
    simp only []
    cases hs : W.fstat_jail61 cmds p with
    | error e => rfl
    | ok s =>
      simp only []
      cases hu : jail61_untrusted s with
      | true => rfl
      | false =>
        simp only [Bool.false_eq_true, if_false]
        rw [e6 cmds p s hs hu]

theorem walk_component_congr (W W' : World) (h : SameButUntrustedJail61 W W')
    (doexec : Bool) (jaildir : Str) (lp np : Nat) (st : WalkState) :
    walk_component W' doexec jaildir lp np st = walk_component W doexec jaildir lp np st := by
  have hc := jail61_consult_congr W W' h
  obtain ⟨e1, e2, e3, _, _, _⟩ := h
  unfold walk_component walk_open
  simp only [e1, e2, e3, (hc _ _).1, (hc _ _).2]

theorem walk_components_congr (W W' : World) (h : SameButUntrustedJail61 W W')
    (doexec : Bool) (jaildir : Str) : ∀ (ps : List (Nat × Nat)) (st : WalkState),
    walk_components W' doexec jaildir ps st = walk_components W doexec jaildir ps st := by
  intro ps
  induction ps with
  | nil => intro st; rfl
  | cons p rest ih =>
    intro st
    obtain ⟨lp, np⟩ := p
    simp only [walk_components, walk_component_congr W W' h]
    cases walk_component W doexec jaildir lp np st with
    | error e => rfl
    | ok st1 => exact ih st1

end Execjail

namespace Execjail

/-- C3: if the policy walk succeeds, every path component from `/` down to and including
the directory whose `JAIL61` granted the authorization is a directory owned by uid 0, and
that `JAIL61` is owned by uid 0, not other-writable, and not group-writable unless its group
is gid 0; and the outcome of the walk does not depend on the content of a `JAIL61` that
fails this ownership and mode test. -/
theorem walk_ok_root_owned (W : World) (doexec : Bool) (jaildir : Str) :
    (∀ st, policy_walk W doexec jaildir = .ok st →
      ∃ pre g post, walk_positions jaildir jaildir.length 0 = pre ++ g :: post
        ∧ (∀ p ∈ pre ++ [g], ∃ s, W.fstat_dir [] (substr jaildir 0 p.2) = .ok s
              ∧ S_ISDIR s.st_mode = true ∧ s.st_uid = 0)
        ∧ (∃ str, jail61_consult W [] (substr jaildir 0 g.2) = .ok (some str)
              ∧ ∃ r ∈ text_records str, r.allows jaildir = true)
        ∧ (∃ s, W.fstat_jail61 [] (substr jaildir 0 g.2) = .ok s ∧ s.st_uid = 0
              ∧ s.st_mode &&& S_IWOTH = 0 ∧ (s.st_mode &&& S_IWGRP ≠ 0 → s.st_gid = 0)))
    ∧ (∀ W', SameButUntrustedJail61 W W' →
        policy_walk W' doexec jaildir = policy_walk W doexec jaildir) := by
  refine ⟨?_, ?_⟩
  · intro st h
    obtain ⟨hw, hf⟩ := policy_walk_ok W doexec jaildir st h
    obtain ⟨pre, g, post, e, hall, _, str, hstr, hr⟩ :=
      walk_components_granting W doexec jaildir _ walk_init st rfl rfl hw hf
    obtain ⟨_, s, hs, hu⟩ := jail61_consult_some W [] _ str hstr
    obtain ⟨u1, u2, u3⟩ := (jail61_untrusted_false s).mp hu
    exact ⟨pre, g, post, e, hall, ⟨str, hstr, hr⟩, s, hs, u1, u3, u2⟩
  · intro W' hsame
    unfold policy_walk
    rw [walk_components_congr W W' hsame]

/-- C3 on scenario 5: the walk to `/srv/jails/forbidden/x` succeeds, granted by `/srv/JAIL61`. -/
theorem walk_ok_root_owned_witness :
    ∃ st, policy_walk world_nojail_below true "/srv/jails/forbidden/x".data = .ok st
      ∧ ∃ pre g post,
        walk_positions "/srv/jails/forbidden/x".data "/srv/jails/forbidden/x".data.length 0
          = pre ++ g :: post
        ∧ (∀ p ∈ pre ++ [g], ∃ s,
              world_nojail_below.fstat_dir [] (substr "/srv/jails/forbidden/x".data 0 p.2) = .ok s
              ∧ S_ISDIR s.st_mode = true ∧ s.st_uid = 0) :=
  ⟨{ found_superdir := true, jailsuperdir := "/srv/jails/".data,
     jailparent := "/srv/jails/forbidden/".data, jailcomponent := "x".data,
     cmds := [], ignored := [] }, by decide,
   match (walk_ok_root_owned world_nojail_below true "/srv/jails/forbidden/x".data).1 _
      (by decide : policy_walk world_nojail_below true "/srv/jails/forbidden/x".data
        = .ok { found_superdir := true, jailsuperdir := "/srv/jails/".data,
                jailparent := "/srv/jails/forbidden/".data, jailcomponent := "x".data,
                cmds := [], ignored := [] }) with
   | ⟨pre, g, post, e, hall, _⟩ => ⟨pre, g, post, e, hall⟩⟩

/-- C2 on scenario 5 of the specification: `/srv/JAIL61` holds `allowjail /srv/jails/`, the
root-owned, non-writable `/srv/jails/forbidden/JAIL61` holds the record
`nojail /srv/jails/forbidden/`, which forbids `/srv/jails/forbidden/x`; the walk to
`/srv/jails/forbidden/x` nevertheless succeeds with `jailsuperdir = /srv/jails/`, because
no `JAIL61` is consulted once an `allowjail` has matched. -/
theorem walk_ignores_nojail_below :
    jail61_consult world_nojail_below [] "/srv".data = .ok (some "allowjail /srv/jails/\n".data)
    ∧ jail61_consult world_nojail_below [] "/srv/jails/forbidden".data
        = .ok (some "nojail /srv/jails/forbidden/\n".data)
    ∧ (∃ r ∈ text_records "nojail /srv/jails/forbidden/\n".data,
        r.refuses "/srv/jails/forbidden/x".data = true)
    ∧ policy_walk world_nojail_below true "/srv/jails/forbidden/x".data
        = .ok { found_superdir := true, jailsuperdir := "/srv/jails/".data,
                jailparent := "/srv/jails/forbidden/".data, jailcomponent := "x".data,
                cmds := [], ignored := [] } := by
  refine ⟨by decide, by decide, ?_, by decide⟩
  exact ⟨{ verb := "nojail".data, path := "/srv/jails/forbidden/".data }, by decide, by decide⟩

end Execjail

namespace Execjail

/-! ## Frame lemmas of the materializer -/

theorem Build.Extends.refl (W : World) (b : Build) : b.Extends W b :=
  ⟨rfl, fun _ h => h, [], by simp, by simp⟩

theorem Build.Extends.trans {W : World} {b b1 b2 : Build}
    (h1 : b.Extends W b1) (h2 : b1.Extends W b2) : b.Extends W b2 := by
  obtain ⟨m1, d1, n1, c1, r1⟩ := h1
  obtain ⟨m2, d2, n2, c2, r2⟩ := h2
  refine ⟨m2.trans m1, fun d hd => d2 d (d1 d hd), n1 ++ n2, by rw [c2, c1, List.append_assoc], ?_⟩
  intro c hc
  rcases List.mem_append.mp hc with h | h
  · exact r1 c h
  · have := r2 c h
    rwa [m1] at this

theorem ext_say {W : World} {b0 b : Build} (cfg : Config) (c : Cmd) (h : b0.Extends W b) :
    b0.Extends W (b.say cfg c) := by
  unfold Build.say
  split
  · exact h.trans ⟨rfl, fun _ h => h, [], by simp, by simp⟩
  · exact h

theorem ext_ask {W : World} {b0 b : Build} (q : Query) (h : b0.Extends W b) :
    b0.Extends W (b.ask q) :=
  h.trans ⟨rfl, fun _ h => h, [], by simp [Build.ask], by simp⟩

theorem ext_fail {W : World} {b0 b : Build} (fmt : String) (arg : Str) (h : b0.Extends W b) :
    b0.Extends W (perror_fail fmt arg b) :=
  h.trans ⟨rfl, fun _ h => h, [], by simp [perror_fail], by simp⟩

theorem ext_add_dst {W : World} {b0 b : Build} (d : Str) (h : b0.Extends W b) :
    b0.Extends W (b.add_dst d) :=
  h.trans ⟨rfl, fun _ h => List.mem_append_left _ h, [], by simp [Build.add_dst], by simp⟩

theorem ext_note_dir {W : World} {b0 b : Build} (d : Str) (h : b0.Extends W b) :
    b0.Extends W (b.note_dir d) :=
  h.trans ⟨rfl, fun _ h => h, [], by simp [Build.note_dir], by simp⟩

theorem ext_add_links {W : World} {b0 b : Build} (d e : Str) (h : b0.Extends W b) :
    b0.Extends W (b.add_links d e) :=
  h.trans ⟨rfl, fun _ h => h, [], by simp [Build.add_links], by simp⟩

theorem ext_record {W : World} {b0 b : Build} (c : Cmd) (hc : ReplayOk W b0.mount_table c)
    (h : b0.Extends W b) : b0.Extends W (b.record c) :=
  h.trans ⟨rfl, fun _ h => h, [c], rfl, by
    intro x hx
    rw [List.mem_singleton] at hx
    subst hx
    rw [h.1]
    exact hc⟩

theorem ext_issue {W : World} {b0 b : Build} (c : Cmd) (hc : ReplayOk W b0.mount_table c)
    (h : b0.Extends W b) : b0.Extends W (b.issue W c).2 :=
  ext_record c hc h

theorem ext_x_mkdir {W : World} {b0 b : Build} (cfg : Config) (p : Str) (m : Nat)
    (h : b0.Extends W b) : b0.Extends W (x_mkdir cfg W p m b).2 := by
  unfold x_mkdir
  simp only []
  split <;>
    repeat' (first | exact h | exact trivial | with_reducible (first | apply ext_say | apply ext_issue))

theorem ext_x_link {W : World} {b0 b : Build} (cfg : Config) (o n : Str)
    (h : b0.Extends W b) : b0.Extends W (x_link cfg W o n b).2 := by
  unfold x_link
  simp only []
  repeat' split
  all_goals try simp only []
  all_goals
    repeat' (first | exact h | exact trivial | with_reducible (first | apply ext_say | apply ext_issue))

theorem ext_x_chmod {W : World} {b0 b : Build} (cfg : Config) (p : Str) (m : Nat)
    (h : b0.Extends W b) : b0.Extends W (x_chmod cfg W p m b).2 := by
  unfold x_chmod
  simp only []
  repeat' split
  all_goals try simp only []
  all_goals
    repeat' (first | exact h | exact trivial | with_reducible (first | apply ext_say | apply ext_issue | apply ext_fail))

theorem ext_x_lchown {W : World} {b0 b : Build} (cfg : Config) (p : Str) (u g : Nat)
    (h : b0.Extends W b) : b0.Extends W (x_lchown cfg W p u g b).2 := by
  unfold x_lchown
  simp only []
  repeat' split
  all_goals try simp only []
  all_goals
    repeat' (first | exact h | exact trivial | with_reducible (first | apply ext_say | apply ext_issue | apply ext_fail))

theorem ext_handle_mount {W : World} {b0 b : Build} (cfg : Config) (ms : mountslot) (dst : Str)
    (hc : ReplayOk W b0.mount_table (mount_call ms dst)) (h : b0.Extends W b) :
    b0.Extends W (handle_mount cfg W ms dst b).2 := by
  unfold handle_mount
  simp only []
  repeat' split
  all_goals try simp only []
  all_goals
    repeat' (first | exact h | exact hc | with_reducible (first | apply ext_say | apply ext_issue | apply ext_fail))

theorem ext_xdev_superdirs {W : World} {b0 : Build} (cfg : Config) (lnk : Str) :
    ∀ (fuel start : Nat) (b : Build), b0.Extends W b →
      b0.Extends W (xdev_superdirs cfg W lnk fuel start b).2 := by
  intro fuel
  induction fuel with
  | zero => intro start b h; exact h
  | succ fuel ih =>
    intro start b h
    simp only [xdev_superdirs]
    repeat' split
    all_goals try simp only []
    all_goals
      repeat' (first | exact h | exact trivial | with_reducible (first | apply ih | apply ext_note_dir | apply ext_x_mkdir | apply ext_ask | apply ext_fail))

theorem ext_copy_for_xdev_link {W : World} {b0 b : Build} (cfg : Config) (src lnk : Str)
    (h : b0.Extends W b) : b0.Extends W (copy_for_xdev_link cfg W src lnk b).2 := by
  rw [copy_for_xdev_link]
  simp only []
  repeat' split
  all_goals try simp only []
  all_goals
    repeat' (first | exact h | exact trivial | with_reducible (first | apply ext_xdev_superdirs | apply ext_say | apply ext_record | apply ext_fail))

theorem ext_handle_xdev_link {W : World} {b0 b : Build} (cfg : Config) (src dst : Str)
    (st : Stat) (h : b0.Extends W b) :
    b0.Extends W (handle_xdev_link cfg W src dst st b).2 := by
  unfold handle_xdev_link
  simp only []
  repeat' split
  all_goals try simp only []
  all_goals
    repeat' (first | exact h | exact trivial | with_reducible (first | apply ext_x_link | apply ext_copy_for_xdev_link | apply ext_ask | apply ext_fail))

end Execjail

namespace Execjail

theorem ext_handle_mount_found {W : World} {b0 b : Build} (cfg : Config) (ms : mountslot)
    (key dst : Str) (hfind : map_find key b.mount_table = some ms) (hallowed : ms.allowed = true)
    (hdir : ∃ h s, W.lstat h key = .ok s ∧ S_ISDIR s.st_mode = true) (h : b0.Extends W b) :
    b0.Extends W (handle_mount cfg W ms dst b).2 := by
  apply ext_handle_mount cfg ms dst _ h
  rw [← h.1]
  exact ⟨key, ms, hfind, hallowed, rfl, hdir⟩

theorem ext_copy_finish {W : World} {b0 b : Build} (cfg : Config) (src dst : Str) (ss : Stat)
    (c : Created)
    (hdir : S_ISDIR c.ss_mode = true → ∃ h s, W.lstat h src = .ok s ∧ S_ISDIR s.st_mode = true)
    (h : b0.Extends W b) : b0.Extends W (copy_finish cfg W src dst ss c b).2 := by
  unfold copy_finish
  simp only []
  repeat' split
  all_goals try simp only []
  all_goals
    repeat' (first | exact h | assumption | exact hdir (by assumption) | with_reducible (first | apply ext_x_chmod | apply ext_x_lchown | apply ext_handle_mount_found cfg _ src))

theorem ext_handle_symlink_dst {W : World} {b0 b : Build} (cfg : Config)
    (recurse : Str → Str → Bool → Nat → Build → Ret × Build)
    (hrec : ∀ s d cp fl b, b0.Extends W b → b0.Extends W (recurse s d cp fl b).2)
    (src dst lnk : Str) (h : b0.Extends W b) :
    b0.Extends W (handle_symlink_dst recurse cfg src dst lnk b).2 := by
  unfold handle_symlink_dst
  simp only []
  repeat' split
  all_goals try simp only []
  all_goals
    repeat' (first | exact h | with_reducible (first | apply ext_add_links | apply hrec))

theorem S_ISDIR_masked (m : Nat) :
    S_ISDIR (m &&& (S_IFREG ||| S_IFCHR ||| S_IFBLK ||| S_IFIFO ||| S_IFSOCK
        ||| S_ISUID ||| S_ISGID ||| S_IRWXU ||| S_IRWXG ||| S_IRWXO)) = S_ISDIR m := by
  unfold S_ISDIR
  rw [Nat.land_assoc]
  have : (S_IFREG ||| S_IFCHR ||| S_IFBLK ||| S_IFIFO ||| S_IFSOCK
        ||| S_ISUID ||| S_ISGID ||| S_IRWXU ||| S_IRWXG ||| S_IRWXO) &&& S_IFMT = S_IFMT := by
    decide
  rw [this]

theorem ext_copy_body {W : World} {b0 b : Build} (cfg : Config) (jaildev : Nat)
    (recurse : Str → Str → Bool → Nat → Build → Ret × Build)
    (hrec : ∀ s d cp fl b, b0.Extends W b → b0.Extends W (recurse s d cp fl b).2)
    (src dst : Str) (flags : Nat) (h : b0.Extends W b) :
    b0.Extends W (copy_body recurse cfg W jaildev src dst flags b).2 := by
  unfold copy_body
  simp only []
  split
  · exact ext_fail _ _ (ext_ask _ h)
  · rename_i ss hss
    have hev : ∀ m, S_ISDIR m = S_ISDIR ss.st_mode → S_ISDIR m = true →
        ∃ h s, W.lstat h src = .ok s ∧ S_ISDIR s.st_mode = true :=
      fun m hm hd => ⟨_, ss, hss, by rw [← hm]; exact hd⟩
    have hfin : ∀ (c : Created) (b1 : Build), S_ISDIR c.ss_mode = S_ISDIR ss.st_mode →
        b0.Extends W b1 → b0.Extends W (copy_finish cfg W src dst ss c b1).2 :=
      fun c b1 hc hb => ext_copy_finish cfg src dst ss c (hev _ hc) hb
    repeat' split
    all_goals try simp only []
    all_goals
      repeat' (first | exact h | exact trivial | exact rfl | exact S_ISDIR_masked _ | with_reducible (first | apply hfin | apply ext_fail | apply ext_x_link | apply ext_handle_xdev_link | apply ext_x_mkdir | apply ext_handle_symlink_dst cfg recurse hrec | apply ext_issue | apply ext_say | apply ext_ask))

theorem ext_copy_parent {W : World} {b0 b : Build} (src dst : Str) (cp : Bool)
    (h : b0.Extends W b) : b0.Extends W (copy_parent W src dst cp b).2 := by
  unfold copy_parent
  simp only []
  repeat' split
  all_goals exact h

theorem ext_handle_copy {W : World} {b0 : Build} (cfg : Config) (jaildev : Nat) :
    ∀ (fuel : Nat) (src dst : Str) (cp : Bool) (flags : Nat) (b : Build),
      b0.Extends W b → b0.Extends W (handle_copy cfg W jaildev fuel src dst cp flags b).2 := by
  intro fuel
  induction fuel with
  | zero => intro src dst cp flags b h; exact h
  | succ fuel ih =>
    intro src dst cp flags b h
    simp only [handle_copy]
    repeat' split
    all_goals try simp only []
    all_goals
      repeat' (first | exact h | with_reducible (first | apply ext_copy_body cfg jaildev _ ih | apply ih | apply ext_copy_parent | apply ext_add_dst))

/-- Every call of `handle_copy` leaves the mount table alone, only adds to
the destination set, and issues no `mount` except the replay of an allowed
slot on a source that `lstat` has shown to be a directory. -/
theorem extends_handle_copy (W : World) (cfg : Config) (jaildev fuel : Nat) (src dst : Str)
    (cp : Bool) (flags : Nat) (b : Build) :
    b.Extends W (handle_copy cfg W jaildev fuel src dst cp flags b).2 :=
  ext_handle_copy cfg jaildev fuel src dst cp flags b (Build.Extends.refl W b)

end Execjail

namespace Execjail

/-! ## Mount replay and the destination set -/

theorem allow_mount_iff (dest : Str) (ms : mountslot) :
    allow_mount dest ms = true ↔ Whitelisted dest ms.type := by
  unfold allow_mount Whitelisted
  simp only [Bool.or_eq_true, Bool.and_eq_true, beq_iff_eq]
  constructor
  · rintro (((h | h) | h) | h)
    · exact Or.inl h
    · exact Or.inr (Or.inl h)
    · exact Or.inr (Or.inr (Or.inl h))
    · exact Or.inr (Or.inr (Or.inr h))
  · rintro (h | h | h | h)
    · exact Or.inl (Or.inl (Or.inl h))
    · exact Or.inl (Or.inl (Or.inr h))
    · exact Or.inl (Or.inr h)
    · exact Or.inr h

theorem mem_map_insert {α : Type} (k : Str) (v : α) : ∀ (t : List (Str × α)) (e : Str × α),
    e ∈ map_insert k v t → e = (k, v) ∨ e ∈ t := by
  intro t
  induction t with
  | nil =>
    intro e he
    simp only [map_insert, List.mem_singleton] at he
    exact Or.inl he
  | cons x rest ih =>
    intro e he
    obtain ⟨k1, v1⟩ := x
    simp only [map_insert] at he
    split at he
    · rcases List.mem_cons.mp he with h | h
      · exact Or.inl h
      · exact Or.inr h
    · split at he
      · rcases List.mem_cons.mp he with h | h
        · exact Or.inl h
        · exact Or.inr (List.mem_cons_of_mem _ h)
      · rcases List.mem_cons.mp he with h | h
        · exact Or.inr (by rw [h]; exact List.mem_cons_self _ _)
        · rcases ih e h with h1 | h1
          · exact Or.inl h1
          · exact Or.inr (List.mem_cons_of_mem _ h1)

theorem mountTableOk_insert (t : List (Str × mountslot)) (k : Str) (v : mountslot)
    (ht : MountTableOk t) (hv : v.allowed = allow_mount k v) :
    MountTableOk (map_insert k v t) := by
  intro e he
  rcases mem_map_insert k v t e he with h | h
  · rw [h]; exact hv
  · exact ht e h

theorem mountslot_of_allowed (me : mntent) :
    (mountslot_of me).allowed = allow_mount me.mnt_dir (mountslot_of me) := rfl

theorem mountTableOk_foldl (entries : List mntent) : ∀ (t : List (Str × mountslot)),
    MountTableOk t →
      MountTableOk (entries.foldl (fun t me => map_insert me.mnt_dir (mountslot_of me) t) t) := by
  induction entries with
  | nil => intro t ht; exact ht
  | cons me rest ih =>
    intro t ht
    simp only [List.foldl_cons]
    exact ih _ (mountTableOk_insert t _ _ ht (mountslot_of_allowed me))

theorem mountTableOk_populate (W : World) (b : Build) (h : MountTableOk b.mount_table) :
    MountTableOk (populate_mount_table W b).2.mount_table := by
  unfold populate_mount_table
  split
  · exact h
  · exact mountTableOk_foldl _ _ h

theorem map_find_mem {α : Type} (k : Str) : ∀ (t : List (Str × α)) (v : α),
    map_find k t = some v → (k, v) ∈ t := by
  intro t
  induction t with
  | nil => intro v h; cases h
  | cons e rest ih =>
    intro v h
    obtain ⟨k1, v1⟩ := e
    simp only [map_find] at h
    split at h
    · rename_i hk
      have hk1 : k = k1 := by simpa using hk
      cases h
      subst hk1
      exact List.mem_cons_self _ _
    · exact List.mem_cons_of_mem _ (ih v h)

/-- C8: `allow_mount(dest, ms)` is true exactly for the pairs (/proc, proc), (/sys, sysfs),
(/dev, udev) and (/dev/pts, devpts); `populate_mount_table` keeps every slot's `allowed`
equal to `allow_mount` of its key; and every `mount` that `handle_copy` issues replays a
slot of the mount snapshot with `allowed = true`, whose key is a source that `lstat` showed
to be a directory and is one of the four pairs: no other host mount is replayed. -/
theorem mount_replay_whitelisted :
    (∀ dest ms, allow_mount dest ms = true ↔ Whitelisted dest ms.type)
    ∧ MountTableOk Build.init.mount_table
    ∧ (∀ W b, MountTableOk b.mount_table →
        MountTableOk (populate_mount_table W b).2.mount_table)
    ∧ (∀ W cfg jaildev fuel src dst cp flags b, MountTableOk b.mount_table →
        ∃ new, (handle_copy cfg W jaildev fuel src dst cp flags b).2.cmds = b.cmds ++ new
          ∧ ∀ fs d ty o data, Cmd.mount fs d ty o data ∈ new →
              ∃ key ms, map_find key b.mount_table = some ms ∧ ms.allowed = true
                ∧ Whitelisted key ms.type
                ∧ Cmd.mount fs d ty o data = mount_call ms d
                ∧ ∃ h ss, W.lstat h key = .ok ss ∧ S_ISDIR ss.st_mode = true) := by
  refine ⟨allow_mount_iff, ?_, mountTableOk_populate, ?_⟩
  · intro e he
    cases he
  · intro W cfg jaildev fuel src dst cp flags b hok
    obtain ⟨_, _, new, hnew, hall⟩ := extends_handle_copy W cfg jaildev fuel src dst cp flags b
    refine ⟨new, hnew, ?_⟩
    intro fs d ty o data hmem
    obtain ⟨key, ms, hfind, hallowed, hcall, hdir⟩ := hall _ hmem
    refine ⟨key, ms, hfind, hallowed, ?_, hcall, hdir⟩
    have := hok (key, ms) (map_find_mem key _ ms hfind)
    simp only [] at this
    rw [hallowed] at this
    exact (allow_mount_iff key ms).mp this.symm

theorem handle_copy_extends_new (W : World) (cfg : Config) (jaildev fuel : Nat) (src dst : Str)
    (cp : Bool) (flags : Nat) (b : Build) (hnot : b.dst_table.elem dst = false) :
    (b.add_dst dst).Extends W (handle_copy cfg W jaildev (fuel + 1) src dst cp flags b).2 := by
  have h := Build.Extends.refl W (b.add_dst dst)
  have ih := @ext_handle_copy W (b.add_dst dst) cfg jaildev fuel
  simp only [handle_copy, hnot, Bool.false_eq_true, if_false]
  repeat' split
  all_goals try simp only []
  all_goals
    repeat' (first | exact h | with_reducible (first | apply ext_copy_body cfg jaildev _ ih | apply ih | apply ext_copy_parent))

/-- C10: when `dst` is already in the destination set, `handle_copy(src, dst, ...)` returns
1 at once and leaves the whole state as it is: no call is issued, no line is written, and the
destination set, the link table, the cache index and `exit_value` are unchanged; when `dst`
is not in the set, it is in the set after the call; so a second request for the same
destination, with any source and flags, changes nothing. -/
theorem handle_copy_once (W : World) (cfg : Config) (jaildev fuel : Nat) (src dst : Str)
    (cp : Bool) (flags : Nat) (b : Build) :
    (dst ∈ b.dst_table →
        handle_copy cfg W jaildev (fuel + 1) src dst cp flags b = (.done 1 none, b))
    ∧ (dst ∉ b.dst_table →
        dst ∈ (handle_copy cfg W jaildev (fuel + 1) src dst cp flags b).2.dst_table)
    ∧ (∀ fuel2 src2 cp2 flags2,
        handle_copy cfg W jaildev (fuel2 + 1) src2 dst cp2 flags2
            (handle_copy cfg W jaildev (fuel + 1) src dst cp flags b).2
          = (.done 1 none, (handle_copy cfg W jaildev (fuel + 1) src dst cp flags b).2)) := by
  have hin : ∀ (f : Nat) (s : Str) (c : Bool) (fl : Nat) (b1 : Build), dst ∈ b1.dst_table →
      handle_copy cfg W jaildev (f + 1) s dst c fl b1 = (.done 1 none, b1) := by
    intro f s c fl b1 hmem
    have he : b1.dst_table.elem dst = true := by simpa using hmem
    simp only [handle_copy, he, if_true]
  have hafter : dst ∈ (handle_copy cfg W jaildev (fuel + 1) src dst cp flags b).2.dst_table := by
    by_cases hmem : dst ∈ b.dst_table
    · rw [hin fuel src cp flags b hmem]
      exact hmem
    · have hnot : b.dst_table.elem dst = false := by simpa using hmem
      have hext := handle_copy_extends_new W cfg jaildev fuel src dst cp flags b hnot
      exact hext.2.1 dst (by simp [Build.add_dst])
  exact ⟨hin fuel src cp flags b, fun _ => hafter, fun f s c fl => hin f s c fl _ hafter⟩

end Execjail

namespace Execjail

/-! ## The manifest and dry-run -/

theorem charAt_append_last (ys : Str) (a : Char) :
    charAt (ys ++ [a]) ((ys ++ [a]).length - 1) = a := by
  unfold charAt
  simp [List.getD_eq_getElem?_getD]

theorem strstr_none_of_not_mem (s needle : Str) (c : Char) (hc : needle.head? = some c)
    (hs : c ∉ s) : strstr s needle = none := by
  cases h : strstr s needle with
  | none => rfl
  | some k =>
    exfalso
    obtain ⟨⟨t, ht⟩, _⟩ := strstr_some needle s k h
    cases needle with
    | nil => simp at hc
    | cons d rest =>
      simp only [List.head?_cons, Option.some.injEq] at hc
      subst hc
      have : d ∈ s.drop k := by rw [← ht]; simp
      exact hs (List.mem_of_mem_drop this)

theorem entry_action_plain (cursrcdir curdstdir body : Str) (hsp : ' ' ∉ body) :
    entry_action cursrcdir curdstdir body 0
      = (if body.head? = some '/' then LineAction.copy body (curdstdir ++ body) true 0
         else LineAction.copy (cursrcdir ++ body) (curdstdir ++ body) false 0) := by
  unfold entry_action
  rw [strstr_none_of_not_mem body " <- ".data ' ' rfl hsp]
  by_cases h : body.head? = some '/'
  · have := (charAt_zero_eq body '/' (by decide)).mpr h
    simp [this, h]
  · have : (charAt body 0 == '/') = false := by
      cases hb : (charAt body 0 == '/') with
      | false => rfl
      | true => exact absurd ((charAt_zero_eq body '/' (by decide)).mp hb) h
    simp [this, h]

/-- C7 (as amended): `construct_jail` applies no path validation to manifest entries.  Take a
manifest line as the C string it is read as (the bytes before its first NUL byte), less
trailing whitespace.  When that path has a `..` component (such as `a/../b`), holds no
whitespace and does not end in `:` or `]`, `check_filename` would reject the path, yet the
line makes `construct_jail` call `handle_copy`, with `src = cursrcdir + path` and
`dst = curdstdir + path` (with `src = path` and parent fill-in when the path begins
with `/`). -/
theorem dotdot_entry_materialized (dstroot cursrcdir curdstdir line body : Str)
    (allow_slash allow_absolute : Bool)
    (hline : (c_string line).rdropWhile isspace = body)
    (hdd : ['.', '.'] ∈ slashComponents body)
    (hns : ∀ c ∈ body, isspace c = false)
    (hcolon : body.getLast? ≠ some ':') (hbr : body.getLast? ≠ some ']') :
    check_filename body allow_slash allow_absolute = false
    ∧ parse_line dstroot cursrcdir curdstdir line
        = (if body.head? = some '/' then LineAction.copy body (curdstdir ++ body) true 0
           else LineAction.copy (cursrcdir ++ body) (curdstdir ++ body) false 0) := by
  refine ⟨?_, ?_⟩
  · cases hb : check_filename body allow_slash allow_absolute with
    | false => rfl
    | true =>
      exact absurd hdd ((check_filename_iff body allow_slash allow_absolute).mp hb).2.2.1
  · have hne : body ≠ [] := by
      rintro rfl
      revert hdd
      decide
    obtain ⟨ys, a, rfl⟩ : ∃ ys a, body = ys ++ [a] := by
      rcases List.eq_nil_or_concat body with h | ⟨L, b, h⟩
      · exact absurd h hne
      · exact ⟨L, b, by simpa using h⟩
    have hlast : charAt (ys ++ [a]) ((ys ++ [a]).length - 1) = a := charAt_append_last ys a
    have hc1 : a ≠ ':' := by
      intro h; apply hcolon; simp [h]
    have hc2 : a ≠ ']' := by
      intro h; apply hbr; simp [h]
    have hsp : ' ' ∉ ys ++ [a] := by
      intro h
      have := hns ' ' h
      revert this
      decide
    unfold parse_line
    simp only [hline, hlast]
    have hl : ((ys ++ [a]).length == 0) = false := by simp
    simp only [hl, Bool.false_eq_true, if_false, beq_iff_eq, hc1, hc2]
    exact entry_action_plain cursrcdir curdstdir (ys ++ [a]) hsp

/-- C7 at the entry `a/../b` below the directory line `usr:`. -/
theorem dotdot_entry_materialized_witness :
    check_filename "a/../b".data true false = false
    ∧ parse_line "/srv/jail".data "/usr/".data "/srv/jail/usr/".data ("a/../b".data ++ ['\n'])
        = (if "a/../b".data.head? = some '/'
           then LineAction.copy "a/../b".data ("/srv/jail/usr/".data ++ "a/../b".data) true 0
           else LineAction.copy ("/usr/".data ++ "a/../b".data)
             ("/srv/jail/usr/".data ++ "a/../b".data) false 0) :=
  dotdot_entry_materialized "/srv/jail".data "/usr/".data "/srv/jail/usr/".data
    ("a/../b".data ++ ['\n']) "a/../b".data true false (by decide) (by decide) (by decide)
    (by decide) (by decide)

/-- C7 as stated fails: the manifest `.:` then `a/../b` makes `construct_jail` call the
materializer on the entry, which runs `lstat` on the source `/a/../b` and records the
destination `/srv/jail/a/../b`. -/
theorem dotdot_entry_not_rejected :
    ['.', '.'] ∈ slashComponents "a/../b".data
    ∧ parse_line "/srv/jail".data "/".data "/srv/jail/".data "a/../b\n".data
        = LineAction.copy "/a/../b".data "/srv/jail/a/../b".data false 0
    ∧ (construct_jail plain_config world_no_policy "/srv/jail".data 1 ".:\na/../b\n".data 4
          Build.init).2.queries = [.lstat "/proc".data, .lstat "/a/../b".data]
    ∧ "/srv/jail/a/../b".data ∈
        (construct_jail plain_config world_no_policy "/srv/jail".data 1 ".:\na/../b\n".data 4
          Build.init).2.dst_table := by
  refine ⟨by decide, by decide, by decide, by decide⟩

/-- C6 on the manifest `foo` (a relative entry before any directory line) with
`JAILDIR = /srv/jail`: `curdstdir` starts as `dstroot` without a final `/` while `cursrcdir`
starts as `/`, so `handle_copy` is called with source `/foo` and destination `/srv/jailfoo`,
which does not begin with `/srv/jail/`. -/
theorem relative_entry_outside_jail :
    parse_line "/srv/jail".data "/".data "/srv/jail".data "foo\n".data
        = LineAction.copy "/foo".data "/srv/jailfoo".data false 0
    ∧ (construct_jail plain_config world_no_policy "/srv/jail".data 1 "foo\n".data 4
          Build.init).2.dst_table
        = ["/srv/jail/".data, "/srv/jail/proc".data, "/srv/jailfoo".data]
    ∧ ¬ ("/srv/jail/".data <+: "/srv/jailfoo".data) := by
  refine ⟨by decide, by decide, by decide⟩

/-- C9 on `execjail -n /srv/jails/new USER COMMAND` where `/srv/JAIL61` allows `/srv/jails/`
and `/srv/jails/new` does not exist: the policy walk, which never reads `dryrun`, creates the
missing directory with `mkdirat`. -/
theorem walk_mkdirat_in_dry_run :
    policy_walk world_new_jail true "/srv/jails/new".data
      = .ok { found_superdir := true, jailsuperdir := "/srv/jails/".data,
              jailparent := "/srv/jails/".data, jailcomponent := "new".data,
              cmds := [.mkdirat "/srv/jails/new".data 0o755], ignored := [] } := by
  decide

/-- C8 on a host with `/proc` mounted: `handle_copy` of `/proc` makes the directory and
replays the mount. -/
theorem mount_replay_whitelisted_witness :
    (handle_copy jail_config world_proc 1 4 "/proc".data "/srv/jail/proc".data true 0
        build_with_proc).2.cmds
      = [.mkdir "/srv/jail/proc".data 0o555, mount_call proc_slot "/srv/jail/proc".data]
    ∧ ∃ new, (handle_copy jail_config world_proc 1 4 "/proc".data "/srv/jail/proc".data true 0
          build_with_proc).2.cmds = build_with_proc.cmds ++ new
        ∧ ∀ fs d ty o data, Cmd.mount fs d ty o data ∈ new →
            ∃ key ms, map_find key build_with_proc.mount_table = some ms ∧ ms.allowed = true
              ∧ Whitelisted key ms.type
              ∧ Cmd.mount fs d ty o data = mount_call ms d
              ∧ ∃ h ss, world_proc.lstat h key = .ok ss ∧ S_ISDIR ss.st_mode = true :=
  ⟨by decide,
   mount_replay_whitelisted.2.2.2 world_proc jail_config 1 4 "/proc".data "/srv/jail/proc".data
     true 0 build_with_proc
     (mount_replay_whitelisted.2.2.1 world_proc Build.init mount_replay_whitelisted.2.1)⟩

/-- C10 on `/proc`: the second request for `/srv/jail/proc` returns 1 and changes nothing. -/
theorem handle_copy_once_witness :
    "/srv/jail/proc".data ∈ (handle_copy jail_config world_proc 1 4 "/proc".data
        "/srv/jail/proc".data true 0 build_with_proc).2.dst_table
    ∧ handle_copy jail_config world_proc 1 4 "/other".data "/srv/jail/proc".data false 1
          (handle_copy jail_config world_proc 1 4 "/proc".data "/srv/jail/proc".data true 0
            build_with_proc).2
        = (.done 1 none, (handle_copy jail_config world_proc 1 4 "/proc".data
            "/srv/jail/proc".data true 0 build_with_proc).2) :=
  ⟨(handle_copy_once world_proc jail_config 1 3 "/proc".data "/srv/jail/proc".data true 0
      build_with_proc).2.1 (by decide),
   (handle_copy_once world_proc jail_config 1 3 "/proc".data "/srv/jail/proc".data true 0
      build_with_proc).2.2 3 "/other".data false 1⟩

end Execjail

namespace Execjail

/-! ## The manifest parser -/

theorem rfindBelow_some_iff (s : Str) (c : Char) (n i : Nat) :
    rfindBelow s c n = some i
      ↔ i < n ∧ s.get? i = some c ∧ ∀ j, i < j → j < n → s.get? j ≠ some c := by
  induction n with
  | zero => simp [rfindBelow]
  | succ n ih =>
    unfold rfindBelow
    by_cases h : s.get? n = some c
    · rw [if_pos h]
      constructor
      · intro hi
        have hi : n = i := by simpa using hi
        subst hi
        exact ⟨Nat.lt_succ_self _, h, fun j h1 h2 => by omega⟩
      · rintro ⟨h1, h2, h3⟩
        by_cases hin : i = n
        · rw [hin]
        · exact absurd h (h3 n (by omega) (Nat.lt_succ_self _))
    · rw [if_neg h, ih]
      constructor
      · rintro ⟨h1, h2, h3⟩
        refine ⟨by omega, h2, fun j hj1 hj2 => ?_⟩
        by_cases hjn : j = n
        · rw [hjn]; exact h
        · exact h3 j hj1 (by omega)
      · rintro ⟨h1, h2, h3⟩
        have hin : i ≠ n := by
          rintro rfl
          exact h h2
        exact ⟨by omega, h2, fun j hj1 hj2 => h3 j hj1 (by omega)⟩

theorem rfindBelow_none_iff (s : Str) (c : Char) (n : Nat) :
    rfindBelow s c n = none ↔ ∀ j, j < n → s.get? j ≠ some c := by
  induction n with
  | zero => simp [rfindBelow]
  | succ n ih =>
    unfold rfindBelow
    by_cases h : s.get? n = some c
    · rw [if_pos h]
      simp only [reduceCtorEq, false_iff, not_forall]
      exact ⟨n, Nat.lt_succ_self _, fun hn => hn h⟩
    · rw [if_neg h, ih]
      constructor
      · intro h3 j hj
        by_cases hjn : j = n
        · rw [hjn]; exact h
        · exact h3 j (by omega)
      · intro h3 j hj
        exact h3 j (by omega)

theorem charAt_last_iff (s : Str) (c : Char) (hc : c ≠ Char.ofNat 0) :
    charAt s (s.length - 1) = c ↔ s.getLast? = some c := by
  rcases List.eq_nil_or_concat s with h | ⟨ys, a, h⟩
  · subst h
    simp only [charAt, List.length_nil, List.getLast?_nil, reduceCtorEq, iff_false]
    intro h0
    exact hc h0.symm
  · have hs : s = ys ++ [a] := by simpa using h
    subst hs
    rw [charAt_append_last]
    simp

theorem get?_append_cons_self (pre rest : Str) (x : Char) :
    (pre ++ x :: rest).get? pre.length = some x := by
  induction pre with
  | nil => rfl
  | cons a t ih => simpa using ih

theorem get?_append_cons_after (pre rest : Str) (x : Char) (j : Nat) (hj : pre.length < j) :
    (pre ++ x :: rest).get? j = rest.get? (j - pre.length - 1) := by
  induction pre generalizing j with
  | nil =>
    cases j with
    | zero => simp at hj
    | succ k => simp
  | cons a t ih =>
    cases j with
    | zero => simp at hj
    | succ k =>
      have hk : t.length < k := by simpa using hj
      have := ih k hk
      simp only [List.cons_append, List.get?_cons_succ, List.length_cons]
      rw [this]
      congr 1
      omega

/-- A line that is neither blank, nor a directory line, nor closed by `]` is
an entry without flags. -/
theorem parse_line_plain (dstroot cursrcdir curdstdir line : Str)
    (hne : (c_string line).rdropWhile isspace ≠ [])
    (hcolon : ((c_string line).rdropWhile isspace).getLast? ≠ some ':')
    (hbr : ((c_string line).rdropWhile isspace).getLast? ≠ some ']') :
    parse_line dstroot cursrcdir curdstdir line
      = entry_action cursrcdir curdstdir ((c_string line).rdropWhile isspace) 0 := by
  unfold parse_line
  generalize (c_string line).rdropWhile isspace = buf at hne hcolon hbr ⊢
  have hl : (buf.length == 0) = false := by
    cases buf with
    | nil => exact absurd rfl hne
    | cons a t => rfl
  have h1 : (charAt buf (buf.length - 1) == ':') = false := by
    rw [beq_eq_false_iff_ne]
    intro h
    exact hcolon ((charAt_last_iff buf ':' (by decide)).mp h)
  have h2 : (charAt buf (buf.length - 1) == ']') = false := by
    rw [beq_eq_false_iff_ne]
    intro h
    exact hbr ((charAt_last_iff buf ']' (by decide)).mp h)
  simp only [hl, h1, h2, Bool.false_eq_true, if_false]

/-- A line closed by `]` in which no `[` occurs is skipped. -/
theorem parse_line_unopened (dstroot cursrcdir curdstdir line : Str)
    (hbr : ((c_string line).rdropWhile isspace).getLast? = some ']')
    (hopen : '[' ∉ (c_string line).rdropWhile isspace) :
    parse_line dstroot cursrcdir curdstdir line = .skip := by
  unfold parse_line
  generalize (c_string line).rdropWhile isspace = buf at hbr hopen ⊢
  have hl : (buf.length == 0) = false := by
    cases buf with
    | nil => simp at hbr
    | cons a t => rfl
  have hlast : charAt buf (buf.length - 1) = ']' := (charAt_last_iff buf ']' (by decide)).mpr hbr
  have hnone : rfindBelow buf '[' (buf.length - 1) = none := by
    rw [rfindBelow_none_iff]
    intro j _ hj
    exact hopen (List.get?_mem hj)
  simp only [hl, hlast, hnone, Bool.false_eq_true, if_false]
  simp

/-- A line closed by a bracketed list is the entry before the list, less its
trailing whitespace; the list decides the flags only. -/
theorem parse_line_flagged (dstroot cursrcdir curdstdir line pre fl : Str)
    (hbuf : (c_string line).rdropWhile isspace = pre ++ '[' :: fl ++ [']'])
    (hfl : '[' ∉ fl) :
    ∃ flags, (flags = 0 ∨ flags = FLAG_CP)
      ∧ parse_line dstroot cursrcdir curdstdir line
        = entry_action cursrcdir curdstdir (pre.rdropWhile isspace) flags := by
  unfold parse_line
  rw [hbuf]
  have hl : ((pre ++ '[' :: fl ++ [']']).length == 0) = false := by simp
  have hlast : charAt (pre ++ '[' :: fl ++ [']']) ((pre ++ '[' :: fl ++ [']']).length - 1) = ']' := by
    have := charAt_append_last (pre ++ '[' :: fl) ']'
    simpa using this
  have hfind : rfindBelow (pre ++ '[' :: fl ++ [']']) '['
      ((pre ++ '[' :: fl ++ [']']).length - 1) = some pre.length := by
    rw [rfindBelow_some_iff]
    refine ⟨by simp, ?_, ?_⟩
    · rw [List.append_assoc, List.cons_append]
      exact get?_append_cons_self pre (fl ++ [']']) '['
    · intro j hj1 hj2 hj
      have hj3 : j - pre.length - 1 < fl.length := by
        simp at hj2; omega
      rw [List.append_assoc, List.cons_append, get?_append_cons_after pre _ '[' j hj1,
        List.get?_eq_getElem?, List.getElem?_append_left hj3, ← List.get?_eq_getElem?] at hj
      exact hfl (List.get?_mem hj)
  have htake : (pre ++ '[' :: fl ++ [']']).take pre.length = pre := by
    rw [List.append_assoc, List.take_left]
  simp only [hl, hlast, hfind, htake, Bool.false_eq_true, if_false]
  have hc : (']' == ':') = false := by decide
  simp only [hc, Bool.false_eq_true, if_false, beq_self_eq_true, if_true]
  split
  · split
    · exact ⟨FLAG_CP, Or.inr rfl, rfl⟩
    · exact ⟨0, Or.inl rfl, rfl⟩
  · exact ⟨0, Or.inl rfl, rfl⟩

end Execjail

namespace Execjail

theorem strstr_eq_none_iff (s needle : Str) : strstr s needle = none ↔ ¬ needle <:+: s := by
  constructor
  · intro h hin
    obtain ⟨a, b, hab⟩ := hin
    apply strstr_none needle s h a.length
    refine ⟨b, ?_⟩
    rw [← hab, List.append_assoc, List.drop_left]
  · intro h
    cases hs : strstr s needle with
    | none => rfl
    | some k =>
      exfalso
      obtain ⟨⟨t, ht⟩, _⟩ := strstr_some needle s k hs
      apply h
      refine ⟨s.take k, t, ?_⟩
      rw [List.append_assoc, ht, List.take_append_drop]

theorem entry_action_noarrow (cursrcdir curdstdir body : Str) (flags : Nat)
    (harrow : ¬ " <- ".data <:+: body) :
    entry_action cursrcdir curdstdir body flags
      = .copy (if body.head? = some '/' then body else cursrcdir ++ body) (curdstdir ++ body)
          (body.head? == some '/') flags := by
  unfold entry_action
  rw [(strstr_eq_none_iff body " <- ".data).mpr harrow]
  by_cases h : body.head? = some '/'
  · have := (charAt_zero_eq body '/' (by decide)).mpr h
    simp [this, h]
  · have : (charAt body 0 == '/') = false := by
      cases hb : (charAt body 0 == '/') with
      | false => rfl
      | true => exact absurd ((charAt_zero_eq body '/' (by decide)).mp hb) h
    simp [this, h]

end Execjail

namespace Execjail

theorem construct_jail_lines_copy (cfg : Config) (W : World) (jaildev fuel : Nat)
    (line : Str) (rest : List Str) (cursrcdir curdstdir : Str) (b : Build)
    (src dst : Str) (check_parents : Bool) (flags : Nat)
    (h : parse_line cfg.dstroot cursrcdir curdstdir line = .copy src dst check_parents flags) :
    construct_jail_lines cfg W jaildev fuel (line :: rest) cursrcdir curdstdir b
      = (match (handle_copy cfg W jaildev fuel src dst check_parents flags b).1 with
         | .out_of_fuel =>
           (.out_of_fuel, (handle_copy cfg W jaildev fuel src dst check_parents flags b).2)
         | .done _ _ =>
           construct_jail_lines cfg W jaildev fuel rest cursrcdir curdstdir
             (handle_copy cfg W jaildev fuel src dst check_parents flags b).2) := by
  rw [construct_jail_lines]
  simp only [h]

/-- C12 (as amended): take a manifest line as the C string it is read as (the bytes before
its first NUL byte) and strip its trailing whitespace.  If what is left is not empty, does not end in `:` or `]` and holds no ` <- `, it is the entry body, with
no flags; if it ends in a bracketed list (`[`, characters other than `[`, `]`), the entry body
is what precedes the list, less trailing whitespace, and the line is treated the same way when
that body holds no ` <- `.  In both cases `construct_jail` calls `handle_copy` once, with
`src = body`, `dst = curdstdir + body` and `check_parents` set when the body begins with `/`,
and with `src = cursrcdir + body`, `dst = curdstdir + body` and `check_parents` clear
otherwise; the current directories are unchanged afterwards.  A line that ends in `]` but holds
no `[` is skipped. -/
theorem plain_entry_call :
    (∀ dstroot cursrcdir curdstdir line body : Str,
        (c_string line).rdropWhile isspace = body → body ≠ [] → body.getLast? ≠ some ':' →
        body.getLast? ≠ some ']' → ¬ " <- ".data <:+: body →
        parse_line dstroot cursrcdir curdstdir line
          = .copy (if body.head? = some '/' then body else cursrcdir ++ body)
              (curdstdir ++ body) (body.head? == some '/') 0)
    ∧ (∀ dstroot cursrcdir curdstdir line pre fl body : Str,
        (c_string line).rdropWhile isspace = pre ++ '[' :: fl ++ [']'] → '[' ∉ fl →
        pre.rdropWhile isspace = body → ¬ " <- ".data <:+: body →
        ∃ flags, parse_line dstroot cursrcdir curdstdir line
          = .copy (if body.head? = some '/' then body else cursrcdir ++ body)
              (curdstdir ++ body) (body.head? == some '/') flags)
    ∧ (∀ dstroot cursrcdir curdstdir line : Str,
        ((c_string line).rdropWhile isspace).getLast? = some ']' →
        '[' ∉ (c_string line).rdropWhile isspace →
        parse_line dstroot cursrcdir curdstdir line = .skip)
    ∧ (∀ (cfg : Config) (W : World) (jaildev fuel : Nat) (line : Str) (rest : List Str)
        (cursrcdir curdstdir : Str) (b : Build) (src dst : Str) (check_parents : Bool)
        (flags : Nat),
        parse_line cfg.dstroot cursrcdir curdstdir line = .copy src dst check_parents flags →
        construct_jail_lines cfg W jaildev fuel (line :: rest) cursrcdir curdstdir b
          = (match (handle_copy cfg W jaildev fuel src dst check_parents flags b).1 with
             | .out_of_fuel =>
               (.out_of_fuel, (handle_copy cfg W jaildev fuel src dst check_parents flags b).2)
             | .done _ _ =>
               construct_jail_lines cfg W jaildev fuel rest cursrcdir curdstdir
                 (handle_copy cfg W jaildev fuel src dst check_parents flags b).2)) := by
  refine ⟨?_, ?_, ?_, ?_⟩
  · intro dstroot cursrcdir curdstdir line body hbody hne hcolon hbr harrow
    subst hbody
    rw [parse_line_plain dstroot cursrcdir curdstdir line hne hcolon hbr]
    exact entry_action_noarrow cursrcdir curdstdir _ 0 harrow
  · intro dstroot cursrcdir curdstdir line pre fl body hbuf hfl hbody harrow
    subst hbody
    obtain ⟨flags, _, hp⟩ := parse_line_flagged dstroot cursrcdir curdstdir line pre fl hbuf hfl
    exact ⟨flags, by rw [hp]; exact entry_action_noarrow cursrcdir curdstdir _ flags harrow⟩
  · intro dstroot cursrcdir curdstdir line hbr hopen
    exact parse_line_unopened dstroot cursrcdir curdstdir line hbr hopen
  · intro cfg W jaildev fuel line rest cursrcdir curdstdir b src dst check_parents flags h
    exact construct_jail_lines_copy cfg W jaildev fuel line rest cursrcdir curdstdir b src dst
      check_parents flags h

/-- C12 on the lines `bin/ls` and `/bin/ls [cp]` below the directory line `usr:`. -/
theorem plain_entry_call_witness :
    parse_line "/srv/jail".data "/usr/".data "/srv/jail/usr/".data "bin/ls \n".data
        = .copy (if "bin/ls".data.head? = some '/' then "bin/ls".data
                 else "/usr/".data ++ "bin/ls".data)
            ("/srv/jail/usr/".data ++ "bin/ls".data) ("bin/ls".data.head? == some '/') 0
    ∧ ∃ flags, parse_line "/srv/jail".data "/usr/".data "/srv/jail/usr/".data
          "/bin/ls [cp]\n".data
        = .copy (if "/bin/ls".data.head? = some '/' then "/bin/ls".data
                 else "/usr/".data ++ "/bin/ls".data)
            ("/srv/jail/usr/".data ++ "/bin/ls".data) ("/bin/ls".data.head? == some '/') flags :=
  ⟨plain_entry_call.1 "/srv/jail".data "/usr/".data "/srv/jail/usr/".data "bin/ls \n".data
      "bin/ls".data (by decide) (by decide) (by decide) (by decide) (by decide),
   plain_entry_call.2.1 "/srv/jail".data "/usr/".data "/srv/jail/usr/".data "/bin/ls [cp]\n".data
      "/bin/ls ".data "cp".data "/bin/ls".data (by decide) (by decide) (by decide) (by decide)⟩

/-- C12 as stated fails on the line `foo]`: it is no directory line and holds no ` <- `, and
there is no flag list to strip, yet `construct_jail` skips it: below `usr:` no destination is
recorded and no `lstat` is made for it.  It also fails on a line with a NUL byte: of `ab`,
NUL, `cd` only `ab` is seen, and the source handed to `handle_copy` is `/usr/ab`. -/
theorem unopened_bracket_line_skipped :
    ("foo]\n".data.rdropWhile isspace).getLast? ≠ some ':'
    ∧ ¬ " <- ".data <:+: "foo]\n".data.rdropWhile isspace
    ∧ parse_line "/srv/jail".data "/usr/".data "/srv/jail/usr/".data "foo]\n".data = .skip
    ∧ (construct_jail plain_config world_no_policy "/srv/jail".data 1 "usr:\nfoo]\n".data 4
          Build.init).2.dst_table = ["/srv/jail/".data, "/srv/jail/proc".data]
    ∧ (construct_jail plain_config world_no_policy "/srv/jail".data 1 "usr:\nfoo]\n".data 4
          Build.init).2.queries = [.lstat "/proc".data]
    ∧ parse_line "/srv/jail".data "/usr/".data "/srv/jail/usr/".data
          ("ab".data ++ Char.ofNat 0 :: "cd\n".data)
        = .copy "/usr/ab".data "/srv/jail/usr/ab".data false 0 := by
  refine ⟨by decide, by decide, by decide, by decide, by decide, by decide⟩

/-- C14 on the line `f [xcp,cp]` below the directory line `usr:`: the second token is `cp`, yet
`handle_copy` is called without `FLAG_CP`, because only the first occurrence of `cp` after the
`[` is examined, and that one lies inside `xcp`.  With `/usr/f` a regular file on the device
of the jail, the file is hard-linked.  The lines `f [cp]` and `f [cp,xcp]` do set the flag. -/
theorem cp_flag_missed_after_substring :
    parse_line "/srv/jail".data "/usr/".data "/srv/jail/usr/".data "f [xcp,cp]\n".data
        = .copy "/usr/f".data "/srv/jail/usr/f".data false 0
    ∧ parse_line "/srv/jail".data "/usr/".data "/srv/jail/usr/".data "f [cp,xcp]\n".data
        = .copy "/usr/f".data "/srv/jail/usr/f".data false FLAG_CP
    ∧ parse_line "/srv/jail".data "/usr/".data "/srv/jail/usr/".data "f [cp]\n".data
        = .copy "/usr/f".data "/srv/jail/usr/f".data false FLAG_CP
    ∧ Cmd.link "/usr/f".data "/srv/jail/usr/f".data ∈
        (construct_jail plain_config world_usr_f "/srv/jail".data 1 "usr:\nf [xcp,cp]\n".data 4
          Build.init).2.cmds
    ∧ Cmd.link "/usr/f".data "/srv/jail/usr/f".data ∉
        (construct_jail plain_config world_usr_f "/srv/jail".data 1 "usr:\nf [cp]\n".data 4
          Build.init).2.cmds := by
  refine ⟨by decide, by decide, by decide, by decide, by decide⟩

end Execjail

namespace Execjail

/-! ## Directory lines -/

theorem charAt_concat_last (s : Str) (a : Char) : charAt (s ++ [a]) s.length = a := by
  have := charAt_append_last s a
  simpa using this

theorem charAt_concat_lt (s : Str) (a : Char) (i : Nat) (hi : i < s.length) :
    charAt (s ++ [a]) i = charAt s i := by
  unfold charAt
  rw [List.getD_eq_getElem?_getD, List.getD_eq_getElem?_getD, List.getElem?_append_left hi]

/-- The loop that strips doubled slashes leaves one `/` where the string ended in several. -/
theorem strip_double_slash_eq : ∀ (fuel : Nat) (s : Str), s.length ≤ fuel →
    strip_double_slash fuel s
      = if s.getLast? = some '/' then s.rdropWhile (fun c => c == '/') ++ ['/'] else s := by
  intro fuel
  induction fuel with
  | zero =>
    intro s hs
    have : s = [] := List.length_eq_zero.mp (Nat.le_zero.mp hs)
    subst this
    rfl
  | succ fuel ih =>
    intro s hs
    rw [strip_double_slash]
    rcases List.eq_nil_or_concat s with h | ⟨t, a, h⟩
    · subst h
      rfl
    · have hsa : s = t ++ [a] := by simpa using h
      subst hsa
      by_cases ha : a = '/'
      · subst ha
        rcases List.eq_nil_or_concat t with h2 | ⟨u, c, h2⟩
        · subst h2
          rfl
        · have htc : t = u ++ [c] := by simpa using h2
          subst htc
          have e1 : charAt (u ++ [c] ++ ['/']) ((u ++ [c] ++ ['/']).length - 1) = '/' :=
            charAt_append_last _ _
          have e2 : charAt (u ++ [c] ++ ['/']) ((u ++ [c] ++ ['/']).length - 2) = c := by
            have : (u ++ [c] ++ ['/']).length - 2 = u.length := by simp
            rw [this, charAt_concat_lt _ _ _ (by simp), charAt_concat_last]
          have e3 : substr (u ++ [c] ++ ['/']) 0 ((u ++ [c] ++ ['/']).length - 1) = u ++ [c] := by
            unfold substr
            have : (u ++ [c] ++ ['/']).length - 1 = (u ++ [c]).length := by simp
            rw [List.drop_zero, this, List.take_left]
          have e4 : decide ((u ++ [c] ++ ['/']).length > 1) = true := by simp
          have e5 : (u ++ [c] ++ ['/']).getLast? = some '/' := by simp
          rw [e1, e2, e3, e4, if_pos e5, List.rdropWhile_concat_pos _ _ _ (by simp)]
          by_cases hc : c = '/'
          · subst hc
            have hcond : (true && ('/' == '/') && ('/' == '/')) = true := by decide
            rw [if_pos hcond, ih (u ++ ['/']) (by simp at hs ⊢; omega),
              if_pos (by simp)]
          · have hcond : ¬ ((true && ('/' == '/') && (c == '/')) = true) := by simpa using hc
            rw [if_neg hcond, List.rdropWhile_concat_neg _ _ _ (by simpa using hc)]
      · have e1 : charAt (t ++ [a]) ((t ++ [a]).length - 1) = a := charAt_append_last _ _
        have hcond : ¬ ((decide ((t ++ [a]).length > 1) && (a == '/')
            && (charAt (t ++ [a]) ((t ++ [a]).length - 2) == '/')) = true) := by
          simp [ha]
        have e5 : ¬ ((t ++ [a]).getLast? = some '/') := by simpa using ha
        rw [e1, if_neg hcond, if_neg e5]

/-- The directory a directory line sets: the text before the `:` (less a leading `.` before
`/`, and `/` for the line `.:`), with `/` put in front when it does not begin with one, and
its trailing slashes replaced by a single one. -/
theorem dir_line_src_eq (P : Str) :
    dir_line_src (P ++ [':']) (P ++ [':']).length
      = (let d0 : Str :=
          if P = ['.'] then ['/']
          else if ['.', '/'] <+: P then P.drop 1
          else P
         let d1 := if d0.head? = some '/' then d0 else '/' :: d0
         d1.rdropWhile (fun c => c == '/') ++ ['/']) := by
  unfold dir_line_src
  have hd0 : (if ((P ++ [':']).length == 2 && charAt (P ++ [':']) 0 == '.') = true then "/".data
      else if (decide ((P ++ [':']).length > 2) && charAt (P ++ [':']) 0 == '.'
          && charAt (P ++ [':']) 1 == '/') = true
        then substr (P ++ [':']) 1 ((P ++ [':']).length - 2)
        else substr (P ++ [':']) 0 ((P ++ [':']).length - 1))
      = (if P = ['.'] then ['/'] else if ['.', '/'] <+: P then P.drop 1 else P) := by
    match P with
    | [] => rfl
    | [a] =>
      by_cases ha : a = '.'
      · subst ha; rfl
      · have h1 : ([a] : Str) ≠ ['.'] := by simpa using ha
        have h2 : ¬ (['.', '/'] <+: [a]) := by
          intro h
          have := h.length_le
          simp at this
        rw [if_neg h1, if_neg h2]
        simp [charAt, ha, substr]
    | a :: b :: rest =>
      have h1 : (a :: b :: rest : Str) ≠ ['.'] := by simp
      rw [if_neg h1]
      have hpre : (['.', '/'] <+: a :: b :: rest) ↔ (a = '.' ∧ b = '/') := by
        constructor
        · rintro ⟨t, ht⟩
          simp at ht
          exact ⟨ht.1.symm, ht.2.1.symm⟩
        · rintro ⟨rfl, rfl⟩
          exact ⟨rest, rfl⟩
      have hs1 : substr ((a :: b :: rest) ++ [':']) 1 (((a :: b :: rest) ++ [':']).length - 2)
          = b :: rest := by
        unfold substr
        have : ((a :: b :: rest) ++ [':']).length - 2 = (b :: rest).length := by simp
        rw [this]
        simp
      have hs0 : substr ((a :: b :: rest) ++ [':']) 0 (((a :: b :: rest) ++ [':']).length - 1)
          = a :: b :: rest := by
        unfold substr
        have : ((a :: b :: rest) ++ [':']).length - 1 = (a :: b :: rest).length := by simp
        rw [this, List.drop_zero, List.take_left]
      have c1 : ¬ ((((a :: b :: rest) ++ [':']).length == 2
          && charAt ((a :: b :: rest) ++ [':']) 0 == '.') = true) := by simp
      rw [hs1, hs0, if_neg c1]
      by_cases hab : a = '.' ∧ b = '/'
      · have c2 : (decide (((a :: b :: rest) ++ [':']).length > 2)
            && charAt ((a :: b :: rest) ++ [':']) 0 == '.'
            && charAt ((a :: b :: rest) ++ [':']) 1 == '/') = true := by
          obtain ⟨rfl, rfl⟩ := hab
          simp [charAt]
        rw [if_pos c2, if_pos (hpre.mpr hab)]
        rfl
      · have c2 : ¬ ((decide (((a :: b :: rest) ++ [':']).length > 2)
            && charAt ((a :: b :: rest) ++ [':']) 0 == '.'
            && charAt ((a :: b :: rest) ++ [':']) 1 == '/') = true) := by
          simp only [charAt, List.cons_append, List.getD_cons_zero, List.getD_cons_succ,
            Bool.and_eq_true, beq_iff_eq, not_and]
          intro h0 h1
          exact hab ⟨h0.2, h1⟩
        rw [if_neg c2, if_neg (mt hpre.mp hab)]
  simp only [hd0]
  generalize (if P = ['.'] then ['/'] else if ['.', '/'] <+: P then P.drop 1 else P) = d0
  have hd1 : (if (charAt d0 0 != '/') = true then '/' :: d0 else d0)
      = (if d0.head? = some '/' then d0 else '/' :: d0) := by
    by_cases h : d0.head? = some '/'
    · have h0 : charAt d0 0 = '/' := by
        simpa using (charAt_zero_eq d0 '/' (by decide)).mpr h
      have hc : ¬ ((charAt d0 0 != '/') = true) := by simp [h0]
      rw [if_neg hc, if_pos h]
    · have hc : (charAt d0 0 != '/') = true := by
        rw [bne_iff_ne]
        intro h0
        exact h ((charAt_zero_eq d0 '/' (by decide)).mp (by simp [h0]))
      rw [if_pos hc, if_neg h]
  simp only [hd1]
  generalize (if d0.head? = some '/' then d0 else '/' :: d0) = d1
  rw [strip_double_slash_eq d1.length d1 (Nat.le_refl _)]
  by_cases hl : d1.getLast? = some '/'
  · rw [if_pos hl]
    have hc : ¬ ((charAt (d1.rdropWhile (fun c => c == '/') ++ ['/'])
        ((d1.rdropWhile (fun c => c == '/') ++ ['/']).length - 1) != '/') = true) := by
      rw [charAt_append_last]
      decide
    rw [if_neg hc]
  · rw [if_neg hl]
    have h1 : (charAt d1 (d1.length - 1) != '/') = true := by
      rw [bne_iff_ne]
      intro h
      exact hl ((charAt_last_iff d1 '/' (by decide)).mp h)
    rw [if_pos h1]
    congr 1
    rcases List.eq_nil_or_concat d1 with h | ⟨t, a, h⟩
    · subst h; rfl
    · have hd : d1 = t ++ [a] := by simpa using h
      subst hd
      have ha : a ≠ '/' := by
        intro h2
        apply hl
        simp [h2]
      rw [List.rdropWhile_concat_neg]
      simpa using ha

end Execjail

namespace Execjail

theorem rdropWhile_slash_self (x : Str) (hlast : x.getLast? ≠ some '/') :
    x.rdropWhile (fun c => c == '/') = x := by
  rw [List.rdropWhile_eq_self_iff]
  intro hl
  simp only [beq_iff_eq]
  intro h
  apply hlast
  rw [List.getLast?_eq_getLast _ hl, h]

theorem parse_line_dir (dstroot cursrcdir curdstdir line P : Str)
    (hline : (c_string line).rdropWhile isspace = P ++ [':']) :
    parse_line dstroot cursrcdir curdstdir line
      = .setdir (dir_line_src (P ++ [':']) (P ++ [':']).length)
          (dstroot ++ dir_line_src (P ++ [':']) (P ++ [':']).length) := by
  unfold parse_line
  rw [hline]
  have hl : ¬ (((P ++ [':']).length == 0) = true) := by simp
  have hlast : (charAt (P ++ [':']) ((P ++ [':']).length - 1) == ':') = true := by
    rw [charAt_append_last]
    rfl
  simp only [if_neg hl, if_pos hlast]

theorem dstroot_of_eq (jaildir : Str) (h : jaildir.getLast? ≠ some '/') :
    dstroot_of jaildir = jaildir := by
  cases jaildir with
  | nil => rfl
  | cons c rest =>
    show c :: rest.rdropWhile (fun x => x == '/') = c :: rest
    congr 1
    apply rdropWhile_slash_self
    intro h2
    apply h
    cases rest with
    | nil => simp at h2
    | cons d r => simpa using h2

/-- C15 (as amended): for a manifest line that, taken as the C string it is read as (the bytes
before its first NUL byte), is `P:` once trailing whitespace is stripped,
`construct_jail` calls no `handle_copy` and goes on to the next line with a new `cursrcdir`
that begins with `/` and ends with exactly one `/`, and with `curdstdir = dstroot + cursrcdir`,
where `dstroot` is the jail directory (less trailing slashes, so `JAILDIR` itself when it has
none).  For `P` of the form `/x` or `./x`, or of the form `x` (not itself `.` or of the form
`./y`, which the other cases cover), with `x` not empty and without leading or trailing `/`,
`cursrcdir` is `/x/`; the line `.:` sets `cursrcdir` to `/`. -/
theorem directory_line_sets_dirs (cfg : Config) (W : World) (jaildev fuel : Nat) (line P : Str)
    (rest : List Str) (cursrcdir curdstdir : Str) (b : Build)
    (hline : (c_string line).rdropWhile isspace = P ++ [':']) :
    ∃ d : Str,
      parse_line cfg.dstroot cursrcdir curdstdir line = .setdir d (cfg.dstroot ++ d)
      ∧ construct_jail_lines cfg W jaildev fuel (line :: rest) cursrcdir curdstdir b
          = construct_jail_lines cfg W jaildev fuel rest d (cfg.dstroot ++ d) b
      ∧ d.head? = some '/' ∧ d.getLast? = some '/' ∧ ¬ ['/', '/'] <:+ d
      ∧ (P = ['.'] → d = ['/'])
      ∧ (∀ x : Str, x ≠ [] → x.head? ≠ some '/' → x.getLast? ≠ some '/' →
          (P = '/' :: x ∨ P = '.' :: '/' :: x ∨ (P = x ∧ x ≠ ['.'] ∧ ¬ ['.', '/'] <+: x)) →
          d = '/' :: x ++ ['/'])
      ∧ ∀ jaildir : Str, jaildir.getLast? ≠ some '/' → dstroot_of jaildir = jaildir := by
  have hp := parse_line_dir cfg.dstroot cursrcdir curdstdir line P hline
  refine ⟨dir_line_src (P ++ [':']) (P ++ [':']).length, hp, ?_, ?_⟩
  · rw [construct_jail_lines]
    simp only [hp]
  rw [dir_line_src_eq]
  simp only []
  generalize hd0 : (if P = ['.'] then ['/'] else if ['.', '/'] <+: P then P.drop 1 else P) = d0
  generalize hd1 : (if d0.head? = some '/' then d0 else '/' :: d0) = d1
  have hhead : d1.head? = some '/' := by
    rw [← hd1]
    by_cases h : d0.head? = some '/'
    · rw [if_pos h]; exact h
    · rw [if_neg h]; rfl
  have hform : ∀ x : Str, x ≠ [] → x.getLast? ≠ some '/' → d1 = '/' :: x →
      d1.rdropWhile (fun c => c == '/') ++ ['/'] = '/' :: x ++ ['/'] := by
    intro x hx hlast h1
    rw [h1]
    congr 1
    apply rdropWhile_slash_self
    intro h2
    apply hlast
    cases x with
    | nil => exact absurd rfl hx
    | cons a t => simpa using h2
  refine ⟨?_, by simp, ?_, ?_, ?_, dstroot_of_eq⟩
  · obtain ⟨t, ht⟩ := List.rdropWhile_prefix (fun c => c == '/') d1
    cases hr : d1.rdropWhile (fun c => c == '/') with
    | nil => rfl
    | cons a r =>
      rw [hr] at ht
      rw [← ht] at hhead
      simpa using hhead
  · rintro ⟨t, ht⟩
    have h2 : d1.rdropWhile (fun c => c == '/') = t ++ ['/'] := by
      have : t ++ ['/', '/'] = (t ++ ['/']) ++ ['/'] := by simp
      rw [this] at ht
      exact (List.append_cancel_right ht).symm
    have hne : d1.rdropWhile (fun c => c == '/') ≠ [] := by
      rw [h2]; simp
    have := List.rdropWhile_last_not (fun c => c == '/') d1 hne
    apply this
    simp only [h2, List.getLast_append_singleton, beq_self_eq_true]
  · intro hP
    subst hP
    simp only [if_true] at hd0
    subst hd0
    simp only [List.head?_cons, if_true] at hd1
    subst hd1
    rfl
  · intro x hx hxhead hxlast hP
    apply hform x hx hxlast
    rcases hP with rfl | rfl | ⟨rfl, hdot, hdotslash⟩
    · have e1 : ('/' :: x : Str) ≠ ['.'] := by simp
      have e2 : ¬ (['.', '/'] <+: '/' :: x) := by
        rintro ⟨t, ht⟩
        simp at ht
      rw [if_neg e1, if_neg e2] at hd0
      subst hd0
      simpa using hd1.symm
    · have e1 : ('.' :: '/' :: x : Str) ≠ ['.'] := by simp
      have e2 : ['.', '/'] <+: '.' :: '/' :: x := ⟨x, rfl⟩
      rw [if_neg e1, if_pos e2] at hd0
      subst hd0
      simpa using hd1.symm
    · rw [if_neg hdot, if_neg hdotslash] at hd0
      subst hd0
      rw [if_neg hxhead] at hd1
      exact hd1.symm

/-- C15 on the line `./usr/lib:` read with `dstroot = /srv/jail`. -/
theorem directory_line_sets_dirs_witness :
    ∃ d : Str,
      parse_line jail_config.dstroot "/".data "/srv/jail".data "./usr/lib: \n".data
        = .setdir d (jail_config.dstroot ++ d)
      ∧ construct_jail_lines jail_config world_no_policy 1 4 ("./usr/lib: \n".data :: [])
            "/".data "/srv/jail".data Build.init
          = construct_jail_lines jail_config world_no_policy 1 4 [] d (jail_config.dstroot ++ d)
              Build.init
      ∧ d.head? = some '/' ∧ d.getLast? = some '/' ∧ ¬ ['/', '/'] <:+ d
      ∧ ("./usr/lib".data = ['.'] → d = ['/'])
      ∧ (∀ x : Str, x ≠ [] → x.head? ≠ some '/' → x.getLast? ≠ some '/' →
          ("./usr/lib".data = '/' :: x ∨ "./usr/lib".data = '.' :: '/' :: x
            ∨ ("./usr/lib".data = x ∧ x ≠ ['.'] ∧ ¬ ['.', '/'] <+: x)) →
          d = '/' :: x ++ ['/'])
      ∧ ∀ jaildir : Str, jaildir.getLast? ≠ some '/' → dstroot_of jaildir = jaildir :=
  directory_line_sets_dirs jail_config world_no_policy 1 4 "./usr/lib: \n".data "./usr/lib".data
    [] "/".data "/srv/jail".data Build.init (by decide)

/-- C15 as stated fails on a line with a NUL byte before the colon.  The line `x`, NUL, `y:`
ends in `:` once trailing whitespace is stripped, but `strlen` ends it at the NUL byte, so it
is read as the entry `x`: below `usr:` the materializer is called on `/usr/x`, and the entry
`f` of the next line is still taken from `/usr/`. -/
theorem nul_before_colon_is_entry :
    (("x".data ++ Char.ofNat 0 :: "y:\n".data).rdropWhile isspace).getLast? = some ':'
    ∧ c_string ("x".data ++ Char.ofNat 0 :: "y:\n".data) = "x".data
    ∧ fgets BUFSIZ ("x".data ++ Char.ofNat 0 :: "y:\nf\n".data)
        = some ("x".data ++ Char.ofNat 0 :: "y:\n".data, "f\n".data)
    ∧ parse_line "/srv/jail".data "/usr/".data "/srv/jail/usr/".data
          ("x".data ++ Char.ofNat 0 :: "y:\n".data)
        = .copy "/usr/x".data "/srv/jail/usr/x".data false 0
    ∧ (construct_jail plain_config world_no_policy "/srv/jail".data 1
          ("usr:\nx".data ++ Char.ofNat 0 :: "y:\nf\n".data) 4 Build.init).2.queries
        = [.lstat "/proc".data, .lstat "/usr/x".data, .lstat "/usr/f".data] := by
  refine ⟨by decide, by decide, by decide, by decide, by decide⟩

end Execjail

namespace Execjail

/-! ## The dispatch of `handle_copy` on the type of the source -/

theorem S_ISDIR_of_S_ISREG (m : Nat) (h : S_ISREG m = true) : S_ISDIR m = false := by
  unfold S_ISREG at h
  unfold S_ISDIR
  rw [beq_iff_eq] at h
  rw [h]
  decide

theorem copy_finish_same (cfg : Config) (W : World) (src dst : Str) (ss : Stat) (b : Build)
    (hdir : S_ISDIR ss.st_mode = false) :
    copy_finish cfg W src dst ss ⟨ss.st_mode, ss.st_uid, ss.st_gid, ss.st_mode⟩ b = (0, b) := by
  unfold copy_finish
  simp [hdir]

theorem handle_copy_no_parents (cfg : Config) (W : World) (jaildev fuel : Nat) (src dst : Str)
    (flags : Nat) (b : Build) (hnew : dst ∉ b.dst_table) :
    handle_copy cfg W jaildev (fuel + 1) src dst false flags b
      = copy_body (handle_copy cfg W jaildev fuel) cfg W jaildev src dst flags (b.add_dst dst) := by
  rw [handle_copy]
  have h1 : ¬ (b.dst_table.elem dst = true) := by simpa using hnew
  rw [if_neg h1]
  simp [copy_parent]

/-- C17 on the FIFO `/run/fifo`: `handle_copy` returns 1 with the message
`/run/fifo: Odd file type` and issues no `mknod`, although `dev_name` has a case for FIFOs
and the mode mask of the device branch keeps `S_IFIFO`; a character device takes the `mknod`
branch. -/
theorem fifo_is_odd_file_type :
    S_ISFIFO (stat_of S_IFIFO 1).st_mode = true
    ∧ handle_copy plain_config (host_world [("/run/fifo".data, stat_of S_IFIFO 1)] [] []) 1 4
        "/run/fifo".data "/srv/jail/run/fifo".data false 0 Build.init
      = (.done 1 (some (S_IFIFO ||| 0o644)),
         { Build.init with
             dst_table := ["/srv/jail/run/fifo".data]
             queries := [.lstat "/run/fifo".data]
             errors := [("%s: Odd file type\n", "/run/fifo".data)]
             exit_value := 1 })
    ∧ handle_copy plain_config (host_world [("/dev/null".data, stat_of S_IFCHR 1)] [] []) 1 4
        "/dev/null".data "/srv/jail/dev/null".data false 0 Build.init
      = (.done 0 (some (S_IFCHR ||| 0o644)),
         { Build.init with
             dst_table := ["/srv/jail/dev/null".data]
             queries := [.lstat "/dev/null".data]
             cmds := [.mknod "/srv/jail/dev/null".data (S_IFCHR ||| 0o644) 0] }) := by
  refine ⟨by decide, by decide, by decide⟩

end Execjail

namespace Execjail

/-! ## Teardown -/

theorem under_jail_iff (jaildir key : Str) : under_jail jaildir key = true ↔ jaildir <+: key := by
  unfold under_jail
  rw [Bool.and_eq_true, decide_eq_true_iff, beq_iff_eq]
  constructor
  · rintro ⟨_, h⟩
    exact List.prefix_iff_eq_take.mpr h.symm
  · intro h
    exact ⟨h.length_le, (List.prefix_iff_eq_take.mp h).symm⟩

theorem umount_all_spec (cfg : Config) (W : World) (jaildir : Str) :
    ∀ (t : List (Str × mountslot)) (b b1 : Build), umount_all cfg W jaildir t b = some b1 →
      b1.cmds = b.cmds ++ (if cfg.dryrun then [] else (mounts_under jaildir t).map Cmd.umount)
      ∧ b1.umount_table = b.umount_table ++ (if cfg.dryrun then mounts_under jaildir t else [])
      ∧ b1.mount_table = b.mount_table := by
  intro t
  induction t with
  | nil =>
    intro b b1 h
    simp only [umount_all, Option.some.injEq] at h
    subst h
    simp [mounts_under]
  | cons e rest ih =>
    intro b b1 h
    rw [umount_all] at h
    by_cases hu : under_jail jaildir e.1 = true
    · rw [if_pos hu] at h
      have hm : mounts_under jaildir (e :: rest) = e.1 :: mounts_under jaildir rest := by
        simp [mounts_under, List.filter_cons, hu]
      cases hd : cfg.dryrun with
      | true =>
        have hh : handle_umount cfg W e.1 b = some ((b.say cfg (.umount e.1)).note_umount e.1) := by
          simp [handle_umount, hd]
        rw [hh] at h
        obtain ⟨h1, h2, h3⟩ := ih _ _ h
        rw [hd] at h1 h2
        refine ⟨?_, ?_, ?_⟩
        · rw [h1]
          simp only [Build.say, Build.note_umount]
          split <;> simp
        · rw [h2, hm]
          simp only [Build.say, Build.note_umount]
          split <;> simp
        · rw [h3]
          simp only [Build.say, Build.note_umount]
          split <;> rfl
      | false =>
        cases hr : W.run (b.say cfg (.umount e.1)).cmds (.umount e.1) with
        | some err =>
          simp [handle_umount, hd, Build.issue, hr] at h
        | none =>
          have hh : handle_umount cfg W e.1 b
              = some ((b.say cfg (.umount e.1)).issue W (.umount e.1)).2 := by
            simp [handle_umount, hd, Build.issue, hr]
          rw [hh] at h
          obtain ⟨h1, h2, h3⟩ := ih _ _ h
          rw [hd] at h1 h2
          refine ⟨?_, ?_, ?_⟩
          · rw [h1, hm]
            simp only [Build.say, Build.issue]
            split <;> simp
          · rw [h2]
            simp only [Build.say, Build.issue]
            split <;> simp
          · rw [h3]
            simp only [Build.say, Build.issue]
            split <;> rfl
    · rw [if_neg hu] at h
      have hm : mounts_under jaildir (e :: rest) = mounts_under jaildir rest := by
        simp [mounts_under, List.filter_cons, hu]
      rw [hm]
      exact ih _ _ h

theorem umount_all_some (cfg : Config) (W : World) (jaildir : Str)
    (hok : cfg.dryrun = true ∨ ∀ h d, W.run h (.umount d) = none) :
    ∀ (t : List (Str × mountslot)) (b : Build), ∃ b1, umount_all cfg W jaildir t b = some b1 := by
  intro t
  induction t with
  | nil => intro b; exact ⟨b, rfl⟩
  | cons e rest ih =>
    intro b
    rw [umount_all]
    by_cases hu : under_jail jaildir e.1 = true
    · rw [if_pos hu]
      rcases hok with hd | hrun
      · have hh : handle_umount cfg W e.1 b = some ((b.say cfg (.umount e.1)).note_umount e.1) := by
          simp [handle_umount, hd]
        rw [hh]
        exact ih _
      · cases hd : cfg.dryrun with
        | true =>
          have hh : handle_umount cfg W e.1 b
              = some ((b.say cfg (.umount e.1)).note_umount e.1) := by
            simp [handle_umount, hd]
          rw [hh]
          exact ih _
        | false =>
          have hh : handle_umount cfg W e.1 b
              = some ((b.say cfg (.umount e.1)).issue W (.umount e.1)).2 := by
            simp [handle_umount, hd, Build.issue, hrun]
          rw [hh]
          exact ih _
    · rw [if_neg hu]
      exact ih _

/-- C18 (as amended): in the teardown, `handle_umount` is called for exactly the mountpoints of
the snapshot whose path begins with `JAILDIR/`, in key order.  In a real run a `umount` is
issued for each of them (a failure ends the program) and nothing is recorded in the unmount
record; in a dry run no `umount` is issued and each of them is recorded in the unmount
record.  The teardown gets through when it is a dry run or every `umount` succeeds. -/
theorem teardown_umounts_spec (cfg : Config) (W : World) (jaildir : Str) (b b1 : Build)
    (h : teardown_umounts cfg W jaildir b = some b1) :
    b1.cmds = b.cmds ++ (if cfg.dryrun then []
        else (mounts_under (teardown_jaildir jaildir)
          (populate_mount_table W b).2.mount_table).map Cmd.umount)
    ∧ b1.umount_table = b.umount_table ++ (if cfg.dryrun
        then mounts_under (teardown_jaildir jaildir) (populate_mount_table W b).2.mount_table
        else [])
    ∧ (∀ key, key ∈ mounts_under (teardown_jaildir jaildir)
          (populate_mount_table W b).2.mount_table
        ↔ (∃ ms, (key, ms) ∈ (populate_mount_table W b).2.mount_table)
          ∧ teardown_jaildir jaildir <+: key)
    ∧ (jaildir.getLast? ≠ some '/' → teardown_jaildir jaildir = jaildir ++ ['/'])
    ∧ ((cfg.dryrun = true ∨ ∀ hist d, W.run hist (.umount d) = none) →
        ∀ b0, ∃ b2, teardown_umounts cfg W jaildir b0 = some b2) := by
  unfold teardown_umounts at h
  obtain ⟨h1, h2, _⟩ := umount_all_spec cfg W _ _ _ _ h
  have hq : (populate_mount_table W b).2.cmds = b.cmds
      ∧ (populate_mount_table W b).2.umount_table = b.umount_table := by
    unfold populate_mount_table
    split <;> exact ⟨rfl, rfl⟩
  refine ⟨by rw [h1, hq.1], by rw [h2, hq.2], ?_, ?_, ?_⟩
  · intro key
    simp only [mounts_under, List.mem_filter, List.mem_map, under_jail_iff]
    constructor
    · rintro ⟨⟨e, he, rfl⟩, hp⟩
      exact ⟨⟨e.2, he⟩, hp⟩
    · rintro ⟨⟨ms, hm⟩, hp⟩
      exact ⟨⟨(key, ms), hm, rfl⟩, hp⟩
  · intro hl
    unfold teardown_jaildir
    have : (charAt jaildir (jaildir.length - 1) != '/') = true := by
      rw [bne_iff_ne]
      intro hc
      exact hl ((charAt_last_iff jaildir '/' (by decide)).mp hc)
    rw [if_pos this]
  · intro hok b0
    unfold teardown_umounts
    exact umount_all_some cfg W _ hok _ _

/-- C18 in a dry run on the host with `/srv/jail/proc` mounted. -/
theorem teardown_umounts_spec_witness :
    (teardown_umounts dryrun_config world_jail_mounted "/srv/jail".data Build.init).isSome = true
    ∧ ∀ b1, teardown_umounts dryrun_config world_jail_mounted "/srv/jail".data Build.init
        = some b1 →
      b1.cmds = Build.init.cmds ++ (if dryrun_config.dryrun then []
        else (mounts_under (teardown_jaildir "/srv/jail".data)
          (populate_mount_table world_jail_mounted Build.init).2.mount_table).map Cmd.umount)
      ∧ b1.umount_table = Build.init.umount_table ++ (if dryrun_config.dryrun
        then mounts_under (teardown_jaildir "/srv/jail".data)
          (populate_mount_table world_jail_mounted Build.init).2.mount_table
        else []) :=
  ⟨by decide, fun b1 h =>
    ⟨(teardown_umounts_spec dryrun_config world_jail_mounted "/srv/jail".data Build.init b1 h).1,
     (teardown_umounts_spec dryrun_config world_jail_mounted "/srv/jail".data Build.init b1
        h).2.1⟩⟩

/-- C18 as stated fails in a real run on the host with `/srv/jail/proc` mounted: the teardown of
`/srv/jail` issues `umount /srv/jail/proc` (and leaves `/srv/jailhouse` and `/proc` alone), but
the unmount record stays empty. -/
theorem umount_not_recorded_in_real_run :
    (teardown_umounts plain_config world_jail_mounted "/srv/jail".data Build.init).map
        (fun b => (b.cmds, b.umount_table))
      = some ([.umount "/srv/jail/proc".data], [])
    ∧ (teardown_umounts dryrun_config world_jail_mounted "/srv/jail".data Build.init).map
        (fun b => (b.cmds, b.umount_table))
      = some ([], ["/srv/jail/proc".data]) := by
  refine ⟨by decide, by decide⟩

end Execjail

namespace Execjail

/-! ## The target of a symbolic link -/

theorem strRfind_cut (s : Str) (h : s.length ≠ 1) :
    strRfind s '/' (size_sub s.length 2) = rfindBelow s '/' (s.length - 1) := by
  unfold strRfind size_sub
  congr 1
  by_cases h2 : 2 ≤ s.length
  · rw [if_pos h2]
    omega
  · rw [if_neg h2]
    have : s.length = 0 := by omega
    rw [this]
    simp

theorem get?_append_right_add (pre s : Str) (j : Nat) :
    (pre ++ s).get? (pre.length + j) = s.get? j := by
  rw [List.get?_eq_getElem?, List.get?_eq_getElem?, List.getElem?_append_right (by omega)]
  congr 1
  omega

theorem rfindBelow_append (pre s : Str) (c : Char) (n i : Nat)
    (h : rfindBelow s c n = some i) :
    rfindBelow (pre ++ s) c (pre.length + n) = some (pre.length + i) := by
  rw [rfindBelow_some_iff] at h ⊢
  obtain ⟨h1, h2, h3⟩ := h
  refine ⟨by omega, by rw [get?_append_right_add]; exact h2, ?_⟩
  intro j hj1 hj2
  have : j = pre.length + (j - pre.length) := by omega
  rw [this, get?_append_right_add]
  exact h3 _ (by omega) (by omega)

theorem updir_cond (lnk : Str) :
    (decide (lnk.length > 3) && charAt lnk 0 == '.' && charAt lnk 1 == '.'
        && charAt lnk 2 == '/') = true
      ↔ ∃ c rest, lnk = '.' :: '.' :: '/' :: c :: rest := by
  constructor
  · intro h
    match lnk, h with
    | [], h => simp at h
    | [_], h => simp at h
    | [_, _], h => simp at h
    | [_, _, _], h => simp at h
    | a :: b :: c :: d :: rest, h =>
      simp only [charAt, List.getD_cons_zero, List.getD_cons_succ, Bool.and_eq_true,
        beq_iff_eq] at h
      obtain ⟨⟨⟨_, rfl⟩, rfl⟩, rfl⟩ := h
      exact ⟨d, rest, rfl⟩
  · rintro ⟨c, rest, rfl⟩
    simp [charAt]

theorem strip_updirs_cons (c : Char) (rest : Str) :
    strip_updirs ('.' :: '.' :: '/' :: c :: rest)
      = ((strip_updirs (c :: rest)).1 + 1, (strip_updirs (c :: rest)).2) := by
  rw [strip_updirs]

theorem strip_updirs_other (lnk : Str) (h : ¬ ∃ c rest, lnk = '.' :: '.' :: '/' :: c :: rest) :
    strip_updirs lnk = (0, lnk) := by
  unfold strip_updirs
  split
  · rename_i c rest
    exact absurd ⟨c, rest, rfl⟩ h
  · rfl

theorem strip_updirs_le (lnk : Str) : 3 * (strip_updirs lnk).1 + (strip_updirs lnk).2.length
    = lnk.length := by
  induction lnk using strip_updirs.induct with
  | case1 c rest ih =>
    rw [strip_updirs_cons]
    simp only [List.length_cons] at ih ⊢
    omega
  | case2 lnk h =>
    rw [strip_updirs_other lnk (fun ⟨c, rest, he⟩ => h c rest he)]
    simp

/-- The loop of `handle_symlink_dst` on a link materialized at `dstroot + src` cuts the source
back once and once more for each counted `../`; its bound on the iterations is never reached. -/
theorem symlink_climb_eq (dstroot : Str) : ∀ (fuel : Nat) (src lnk : Str),
    (strip_updirs lnk).1 < fuel →
    symlink_climb dstroot fuel src (dstroot ++ src) lnk
      = (cut_times ((strip_updirs lnk).1 + 1) src).map
          (fun s1 => (s1, dstroot ++ s1, (strip_updirs lnk).2)) := by
  intro fuel
  induction fuel with
  | zero => intro src lnk h; omega
  | succ fuel ih =>
    intro src lnk hfuel
    rw [symlink_climb, cut_times, parent_cut]
    by_cases h1 : src.length = 1
    · have : (src.length == 1) = true := by simp [h1]
      simp [this]
    · have hb : (src.length == 1) = false := by simp [h1]
      simp only [hb, Bool.false_eq_true, if_false]
      rw [strRfind_cut src h1]
      cases hr : rfindBelow src '/' (src.length - 1) with
      | none => simp
      | some i =>
        have hi := ((rfindBelow_some_iff src '/' _ i).mp hr).1
        have hdl : (dstroot ++ src).length ≠ 1 := by
          rw [List.length_append]; omega
        have hdr : rfindBelow (dstroot ++ src) '/' ((dstroot ++ src).length - 1)
            = some (dstroot.length + i) := by
          have := rfindBelow_append dstroot src '/' _ i hr
          have e : (dstroot ++ src).length - 1 = dstroot.length + (src.length - 1) := by
            rw [List.length_append]; omega
          rw [e]; exact this
        rw [strRfind_cut _ hdl, hdr]
        have hlt : ¬ (dstroot.length + i < dstroot.length) := by omega
        have hs1 : substr src 0 (i + 1) = src.take (i + 1) := by simp [substr]
        have hd1 : substr (dstroot ++ src) 0 (dstroot.length + i + 1)
            = dstroot ++ src.take (i + 1) := by
          simp only [substr, List.drop_zero]
          rw [Nat.add_assoc, List.take_append]
        simp only [hlt, if_false, hs1, hd1, Option.map_some', Option.some_bind]
        by_cases hu : ∃ c rest, lnk = '.' :: '.' :: '/' :: c :: rest
        · rw [if_pos ((updir_cond lnk).mpr hu)]
          obtain ⟨c, rest, rfl⟩ := hu
          rw [strip_updirs_cons] at hfuel ⊢
          have hdrop : substrFrom ('.' :: '.' :: '/' :: c :: rest) 3 = c :: rest := rfl
          rw [hdrop, ih (src.take (i + 1)) (c :: rest) (by simp only at hfuel; omega)]
        · rw [if_neg (mt (updir_cond lnk).mp hu), strip_updirs_other lnk hu]
          rfl

theorem symlink_target_eq (dstroot src lnk : Str) :
    symlink_target dstroot src (dstroot ++ src) lnk = jail_view_target dstroot src lnk := by
  unfold symlink_target jail_view_target
  by_cases h : lnk.head? = some '/'
  · rw [if_pos ((charAt_zero_eq lnk '/' (by decide)).mpr h), if_pos h]
  · rw [if_neg (mt (charAt_zero_eq lnk '/' (by decide)).mp h), if_neg h,
      symlink_climb_eq dstroot (lnk.length + 1) src lnk (by have := strip_updirs_le lnk; omega)]
    cases cut_times ((strip_updirs lnk).1 + 1) src with
    | none => rfl
    | some s1 => simp

end Execjail

namespace Execjail

theorem parent_cut_head (s s1 : Str) (h : parent_cut s = some s1) : s1.head? = s.head? := by
  unfold parent_cut at h
  split at h
  · cases h
  · cases hr : rfindBelow s '/' (s.length - 1) with
    | none => rw [hr] at h; cases h
    | some i =>
      rw [hr] at h
      simp only [Option.map_some', Option.some.injEq] at h
      subst h
      cases s with
      | nil => rfl
      | cons a t => rfl

theorem cut_times_head : ∀ (n : Nat) (s s1 : Str), cut_times n s = some s1 →
    s1.head? = s.head? := by
  intro n
  induction n with
  | zero =>
    intro s s1 h
    simp only [cut_times, Option.some.injEq] at h
    rw [h]
  | succ n ih =>
    intro s s1 h
    rw [cut_times] at h
    cases hp : parent_cut s with
    | none => rw [hp] at h; cases h
    | some s2 =>
      rw [hp, Option.some_bind] at h
      rw [ih s2 s1 h, parent_cut_head s s2 hp]

theorem prefix_slash_of_head (dstroot x : Str) (h : x.head? = some '/') :
    dstroot ++ ['/'] <+: dstroot ++ x := by
  cases x with
  | nil => cases h
  | cons a t =>
    simp only [List.head?_cons, Option.some.injEq] at h
    subst h
    exact ⟨t, by simp⟩

theorem proc_test_iff (dstroot x : Str) :
    (substr (dstroot ++ x) dstroot.length 6 != "/proc/".data) = true
      ↔ ¬ dstroot ++ "/proc/".data <+: dstroot ++ x := by
  have hs : substr (dstroot ++ x) dstroot.length 6 = x.take 6 := by
    unfold substr
    rw [List.drop_left]
  rw [hs, bne_iff_ne, List.prefix_append_right_inj, List.prefix_iff_eq_take]
  have : ("/proc/".data).length = 6 := rfl
  rw [this]
  exact ⟨fun h h2 => h h2.symm, fun h h2 => h h2.symm⟩

/-- C19 (as amended): for a symbolic link materialized at `dst = JAILDIR + src` with text
`lnk`, `handle_symlink_dst` works out the pair `(src', dst')` so: a text that begins with `/`
gives `(lnk, JAILDIR + lnk)`; otherwise `src` and `dst` are cut back to the parent directory
once, and once more for each leading `../` of `lnk` followed by at least one more character,
and what remains of `lnk` is appended to both; when a cut is not possible (the path is `/` or
has no `/` before its last character) there is no pair and no recursion.  In every case
`dst' = JAILDIR + src'`; when `src` is absolute (or `lnk` is), `dst'` begins with
`JAILDIR + /`.  `handle_copy` is called for the pair, with `check_parents` set and no flags,
unless `dst'` begins with `JAILDIR + /proc/`. -/
theorem symlink_target_spec (dstroot src lnk : Str) :
    symlink_target dstroot src (dstroot ++ src) lnk = jail_view_target dstroot src lnk
    ∧ (∀ t, symlink_target dstroot src (dstroot ++ src) lnk = some t →
        t.2 = dstroot ++ t.1
        ∧ ((src.head? = some '/' ∨ lnk.head? = some '/') → dstroot ++ ['/'] <+: t.2))
    ∧ (∀ (recurse : Str → Str → Bool → Nat → Build → Ret × Build) (cfg : Config) (b : Build),
        cfg.dstroot = dstroot →
        (∀ t, symlink_target dstroot src (dstroot ++ src) lnk = some t →
          ¬ dstroot ++ "/proc/".data <+: t.2 →
          handle_symlink_dst recurse cfg src (dstroot ++ src) lnk b
            = (match (recurse t.1 t.2 true 0 b).1 with
               | .out_of_fuel => (.out_of_fuel, (recurse t.1 t.2 true 0 b).2)
               | .done rv srcmode =>
                 if rv == 0 && S_ISDIR (srcmode.getD 0)
                 then (.done 0 none, (recurse t.1 t.2 true 0 b).2.add_links t.2 (dstroot ++ src))
                 else (.done 0 none, (recurse t.1 t.2 true 0 b).2)))
        ∧ ((symlink_target dstroot src (dstroot ++ src) lnk = none
            ∨ ∃ t, symlink_target dstroot src (dstroot ++ src) lnk = some t
                ∧ dstroot ++ "/proc/".data <+: t.2) →
          handle_symlink_dst recurse cfg src (dstroot ++ src) lnk b = (.done 0 none, b))) := by
  have hpair : ∀ t, symlink_target dstroot src (dstroot ++ src) lnk = some t →
      t.2 = dstroot ++ t.1
      ∧ ((src.head? = some '/' ∨ lnk.head? = some '/') → dstroot ++ ['/'] <+: t.2) := by
    intro t ht
    rw [symlink_target_eq] at ht
    unfold jail_view_target at ht
    by_cases h : lnk.head? = some '/'
    · rw [if_pos h] at ht
      cases ht
      exact ⟨rfl, fun _ => prefix_slash_of_head dstroot lnk h⟩
    · rw [if_neg h] at ht
      cases hc : cut_times ((strip_updirs lnk).1 + 1) src with
      | none => rw [hc] at ht; cases ht
      | some s1 =>
        rw [hc] at ht
        cases ht
        refine ⟨rfl, fun habs => ?_⟩
        rcases habs with hs | hl
        · apply prefix_slash_of_head
          have h1 := cut_times_head _ src s1 hc
          rw [hs] at h1
          cases s1 with
          | nil => cases h1
          | cons a r => simpa using h1
        · exact absurd hl h
  refine ⟨symlink_target_eq dstroot src lnk, hpair, ?_⟩
  intro recurse cfg b hcfg
  subst hcfg
  constructor
  · intro t ht hproc
    have h2 := (hpair t ht).1
    unfold handle_symlink_dst
    rw [ht]
    have hne : (substr t.2 cfg.dstroot.length 6 != "/proc/".data) = true := by
      rw [h2, proc_test_iff, ← h2]
      exact hproc
    simp only [hne, if_true]
  · intro hno
    unfold handle_symlink_dst
    rcases hno with hn | ⟨t, ht, hproc⟩
    · rw [hn]
    · have h2 := (hpair t ht).1
      rw [ht]
      have hne : ¬ ((substr t.2 cfg.dstroot.length 6 != "/proc/".data) = true) := by
        rw [h2, proc_test_iff, ← h2]
        exact fun h => h hproc
      simp only [hne, if_false]
      rfl

/-- C19 on the link `/usr/lib/a/b -> ../../x` in the jail `/srv/jail`. -/
theorem symlink_target_spec_witness :
    symlink_target "/srv/jail".data "/usr/lib/a/b".data ("/srv/jail".data ++ "/usr/lib/a/b".data)
        "../../x".data
      = some ("/usr/x".data, "/srv/jail/usr/x".data)
    ∧ "/srv/jail/usr/x".data = "/srv/jail".data ++ "/usr/x".data
    ∧ "/srv/jail".data ++ ['/'] <+: "/srv/jail/usr/x".data :=
  ⟨by decide,
   ((symlink_target_spec "/srv/jail".data "/usr/lib/a/b".data "../../x".data).2.1
      ("/usr/x".data, "/srv/jail/usr/x".data) (by decide)).1,
   ((symlink_target_spec "/srv/jail".data "/usr/lib/a/b".data "../../x".data).2.1
      ("/usr/x".data, "/srv/jail/usr/x".data) (by decide)).2 (Or.inl (by decide))⟩

/-- C19 as stated fails for a relative source.  The manifest line `a/b <- a/b` read before any
directory line gives `src = a/b` and `dst = /srv/jaila/b = JAILDIR + src`; with `a/b` a
symbolic link to `x` the recursion pair is `(a/x, /srv/jaila/x)`, whose destination does not
begin with `/srv/jail/`, and `handle_copy` is called for it. -/
theorem relative_symlink_source_leaves_jail :
    "/srv/jaila/b".data = "/srv/jail".data ++ "a/b".data
    ∧ symlink_target "/srv/jail".data "a/b".data "/srv/jaila/b".data "x".data
        = some ("a/x".data, "/srv/jaila/x".data)
    ∧ ¬ ("/srv/jail".data ++ ['/'] <+: "/srv/jaila/x".data)
    ∧ parse_line "/srv/jail".data "/".data "/srv/jail".data "a/b <- a/b\n".data
        = .copy "a/b".data "/srv/jaila/b".data false 0
    ∧ (construct_jail plain_config
          (host_world [("a/b".data, stat_of S_IFLNK 1)] [("a/b".data, "x".data)] [])
          "/srv/jail".data 1 "a/b <- a/b\n".data 6 Build.init).2.dst_table
        = ["/srv/jail/".data, "/srv/jail/proc".data, "/srv/jaila/b".data, "/srv/jaila/x".data,
           "/srv/jaila".data] := by
  refine ⟨by decide, by decide, by decide, by decide, by decide⟩

end Execjail

namespace Execjail

/-! ## The table of directory symbolic links -/

theorem lnk_say (cfg : Config) (c : Cmd) (b : Build) : (b.say cfg c).lnk_table = b.lnk_table := by
  unfold Build.say
  split <;> rfl

theorem lnk_x_mkdir (cfg : Config) (W : World) (p : Str) (m : Nat) (b : Build) :
    (x_mkdir cfg W p m b).2.lnk_table = b.lnk_table := by
  unfold x_mkdir
  simp only []
  split <;> simp only [Build.issue, lnk_say]

theorem lnk_x_link (cfg : Config) (W : World) (o n : Str) (b : Build) :
    (x_link cfg W o n b).2.lnk_table = b.lnk_table := by
  unfold x_link
  simp only []
  repeat' split
  all_goals simp only [Build.issue, lnk_say]

theorem lnk_x_chmod (cfg : Config) (W : World) (p : Str) (m : Nat) (b : Build) :
    (x_chmod cfg W p m b).2.lnk_table = b.lnk_table := by
  unfold x_chmod
  simp only []
  repeat' split
  all_goals simp only [Build.issue, perror_fail, lnk_say]

theorem lnk_x_lchown (cfg : Config) (W : World) (p : Str) (u g : Nat) (b : Build) :
    (x_lchown cfg W p u g b).2.lnk_table = b.lnk_table := by
  unfold x_lchown
  simp only []
  repeat' split
  all_goals simp only [Build.issue, perror_fail, lnk_say]

theorem lnk_handle_mount (cfg : Config) (W : World) (ms : mountslot) (dst : Str) (b : Build) :
    (handle_mount cfg W ms dst b).2.lnk_table = b.lnk_table := by
  unfold handle_mount
  simp only []
  repeat' split
  all_goals simp only [Build.issue, perror_fail, lnk_say]

theorem lnk_xdev_superdirs (cfg : Config) (W : World) (lnk : Str) :
    ∀ (fuel start : Nat) (b : Build),
      (xdev_superdirs cfg W lnk fuel start b).2.lnk_table = b.lnk_table := by
  intro fuel
  induction fuel with
  | zero => intro start b; rfl
  | succ fuel ih =>
    intro start b
    simp only [xdev_superdirs]
    repeat' split
    all_goals simp only [ih, perror_fail, Build.note_dir, Build.ask, lnk_x_mkdir]

theorem lnk_copy_for_xdev_link (cfg : Config) (W : World) (src lnk : Str) (b : Build) :
    (copy_for_xdev_link cfg W src lnk b).2.lnk_table = b.lnk_table := by
  rw [copy_for_xdev_link]
  simp only []
  repeat' split
  all_goals simp only [perror_fail, Build.record, lnk_say, lnk_xdev_superdirs]

theorem lnk_handle_xdev_link (cfg : Config) (W : World) (src dst : Str) (st : Stat) (b : Build) :
    (handle_xdev_link cfg W src dst st b).2.lnk_table = b.lnk_table := by
  unfold handle_xdev_link
  simp only []
  repeat' split
  all_goals simp only [perror_fail, Build.ask, lnk_x_link, lnk_copy_for_xdev_link]

theorem lnk_copy_finish (cfg : Config) (W : World) (src dst : Str) (ss : Stat) (c : Created)
    (b : Build) : (copy_finish cfg W src dst ss c b).2.lnk_table = b.lnk_table := by
  unfold copy_finish
  simp only []
  repeat' split
  all_goals simp only [lnk_x_chmod, lnk_x_lchown, lnk_handle_mount]

theorem lnk_copy_parent (W : World) (src dst : Str) (cp : Bool) (b : Build) :
    (copy_parent W src dst cp b).2.lnk_table = b.lnk_table := by
  unfold copy_parent
  simp only []
  repeat' split
  all_goals rfl

end Execjail

namespace Execjail

theorem linksSymmetric_add (L : List (Str × Str)) (a b : Str) (h : LinksSymmetric L) :
    LinksSymmetric (L ++ [(a, b), (b, a)]) := by
  intro x y hxy
  simp only [List.mem_append, List.mem_cons, Prod.mk.injEq, List.mem_singleton, List.not_mem_nil,
    or_false] at hxy ⊢
  rcases hxy with h1 | ⟨rfl, rfl⟩ | ⟨rfl, rfl⟩
  · exact Or.inl (h x y h1)
  · exact Or.inr (Or.inr ⟨rfl, rfl⟩)
  · exact Or.inr (Or.inl ⟨rfl, rfl⟩)

theorem sym_handle_symlink_dst (cfg : Config)
    (recurse : Str → Str → Bool → Nat → Build → Ret × Build)
    (hrec : ∀ s d cp fl b, LinksSymmetric b.lnk_table →
      LinksSymmetric (recurse s d cp fl b).2.lnk_table)
    (src dst lnk : Str) (b : Build) (h : LinksSymmetric b.lnk_table) :
    LinksSymmetric (handle_symlink_dst recurse cfg src dst lnk b).2.lnk_table := by
  unfold handle_symlink_dst
  simp only []
  repeat' split
  all_goals try simp only []
  all_goals first
    | exact h
    | exact hrec _ _ _ _ _ h
    | exact linksSymmetric_add _ _ _ (hrec _ _ _ _ _ h)

theorem sym_copy_body (cfg : Config) (W : World) (jaildev : Nat)
    (recurse : Str → Str → Bool → Nat → Build → Ret × Build)
    (hrec : ∀ s d cp fl b, LinksSymmetric b.lnk_table →
      LinksSymmetric (recurse s d cp fl b).2.lnk_table)
    (src dst : Str) (flags : Nat) (b : Build) (h : LinksSymmetric b.lnk_table) :
    LinksSymmetric (copy_body recurse cfg W jaildev src dst flags b).2.lnk_table := by
  have hsl : ∀ text b1, b1.lnk_table = b.lnk_table →
      LinksSymmetric (handle_symlink_dst recurse cfg src dst text b1).2.lnk_table :=
    fun text b1 h1 => sym_handle_symlink_dst cfg recurse hrec src dst text b1 (by rw [h1]; exact h)
  unfold copy_body
  simp only []
  repeat' split
  all_goals try simp only [lnk_copy_finish]
  all_goals first
    | exact h
    | (simp only [perror_fail, Build.ask, Build.issue, lnk_say, lnk_x_link, lnk_handle_xdev_link,
        lnk_x_mkdir]; exact h)
    | (apply hsl; simp only [perror_fail, Build.ask, Build.issue, lnk_say])

theorem sym_handle_copy (cfg : Config) (W : World) (jaildev : Nat) :
    ∀ (fuel : Nat) (src dst : Str) (cp : Bool) (flags : Nat) (b : Build),
      LinksSymmetric b.lnk_table →
      LinksSymmetric (handle_copy cfg W jaildev fuel src dst cp flags b).2.lnk_table := by
  intro fuel
  induction fuel with
  | zero => intro src dst cp flags b h; exact h
  | succ fuel ih =>
    intro src dst cp flags b h
    have hp : LinksSymmetric (copy_parent W src dst cp (b.add_dst dst)).2.lnk_table := by
      rw [lnk_copy_parent]; exact h
    simp only [handle_copy]
    repeat' split
    all_goals try simp only []
    all_goals first
      | exact h
      | exact ih _ _ _ _ _ hp
      | exact sym_copy_body cfg W jaildev _ ih _ _ _ _ hp
      | exact sym_copy_body cfg W jaildev _ ih _ _ _ _ (ih _ _ _ _ _ hp)

end Execjail

namespace Execjail

theorem lnk_populate_mount_table (W : World) (b : Build) :
    (populate_mount_table W b).2.lnk_table = b.lnk_table := by
  unfold populate_mount_table
  split <;> rfl

theorem sym_construct_jail_lines (cfg : Config) (W : World) (jaildev fuel : Nat) :
    ∀ (lines : List Str) (cursrcdir curdstdir : Str) (b : Build),
      LinksSymmetric b.lnk_table →
      LinksSymmetric (construct_jail_lines cfg W jaildev fuel lines cursrcdir curdstdir
        b).2.lnk_table := by
  intro lines
  induction lines with
  | nil => intro cursrcdir curdstdir b h; exact h
  | cons line rest ih =>
    intro cursrcdir curdstdir b h
    rw [construct_jail_lines]
    split
    · exact ih _ _ _ h
    · exact ih _ _ _ h
    · rename_i src dst cp flags _
      have hc := sym_handle_copy cfg W jaildev fuel src dst cp flags b h
      simp only []
      cases hr : (handle_copy cfg W jaildev fuel src dst cp flags b).1 with
      | out_of_fuel => exact hc
      | done r m => exact ih _ _ _ hc

theorem sym_construct_jail_mounts (cfg : Config) (W : World) (jaildev fuel : Nat) (b : Build)
    (h : LinksSymmetric b.lnk_table) :
    LinksSymmetric (construct_jail_mounts cfg W jaildev fuel b).2.lnk_table := by
  unfold construct_jail_mounts
  simp only []
  repeat' split
  all_goals try simp only []
  all_goals first
    | exact sym_handle_copy cfg W jaildev fuel _ _ _ _ _ h
    | exact sym_handle_copy cfg W jaildev fuel _ _ _ _ _
        (sym_handle_copy cfg W jaildev fuel _ _ _ _ _ h)
    | exact sym_handle_copy cfg W jaildev fuel _ _ _ _ _
        (sym_handle_copy cfg W jaildev fuel _ _ _ _ _
          (sym_handle_copy cfg W jaildev fuel _ _ _ _ _ h))

theorem sym_construct_jail (cfg0 : Config) (W : World) (jaildir : Str) (jaildev : Nat)
    (stdin : Str) (fuel : Nat) (b : Build) (h : LinksSymmetric b.lnk_table) :
    LinksSymmetric (construct_jail cfg0 W jaildir jaildev stdin fuel b).2.lnk_table := by
  have h4 : ∀ cfg : Config, LinksSymmetric (populate_mount_table W
      ((x_lchown cfg W cfg.dstroot 0 0 (x_chmod cfg W cfg.dstroot 0o755 b).2).2.add_dst
        (cfg.dstroot ++ "/".data))).2.lnk_table := by
    intro cfg
    rw [lnk_populate_mount_table]
    simp only [Build.add_dst, lnk_x_lchown, lnk_x_chmod]
    exact h
  unfold construct_jail
  simp only []
  repeat' split
  all_goals try simp only []
  all_goals first
    | (simp only [lnk_x_lchown, lnk_x_chmod]; exact h)
    | exact sym_construct_jail_mounts _ W jaildev fuel _ (h4 _)
    | exact sym_construct_jail_lines _ W jaildev fuel _ _ _ _
        (sym_construct_jail_mounts _ W jaildev fuel _ (h4 _))

/-- C20 (as amended): when `handle_symlink_dst` makes its recursive call of `handle_copy` for
the target pair `(src', t)` of a link materialized at `dst` (`t` not under `/proc/`), and that
call returns 0 for a source that is a directory, the table `L` holds both `(t, dst)` and
`(dst, t)` once `handle_symlink_dst` returns; when the call returns another value (as it does
when `t` is already in the destination set) `L` is what the call left.  `L` is symmetric
whenever a call of `handle_copy` returns, if it was when the call began, and so it is when
`construct_jail` returns. -/
theorem symlink_links_recorded :
    (∀ (recurse : Str → Str → Bool → Nat → Build → Ret × Build) (cfg : Config)
        (src dst lnk : Str) (b : Build) (t : Str × Str),
        symlink_target cfg.dstroot src dst lnk = some t →
        substr t.2 cfg.dstroot.length 6 ≠ "/proc/".data →
        (∀ m, (recurse t.1 t.2 true 0 b).1 = .done 0 (some m) → S_ISDIR m = true →
          (handle_symlink_dst recurse cfg src dst lnk b).2.lnk_table
            = (recurse t.1 t.2 true 0 b).2.lnk_table ++ [(t.2, dst), (dst, t.2)])
        ∧ (∀ rv m, (recurse t.1 t.2 true 0 b).1 = .done rv m → rv ≠ 0 →
          (handle_symlink_dst recurse cfg src dst lnk b).2.lnk_table
            = (recurse t.1 t.2 true 0 b).2.lnk_table))
    ∧ (∀ (cfg : Config) (W : World) (jaildev fuel : Nat) (src dst : Str) (cp : Bool)
        (flags : Nat) (b : Build), LinksSymmetric b.lnk_table →
        LinksSymmetric (handle_copy cfg W jaildev fuel src dst cp flags b).2.lnk_table)
    ∧ (∀ (cfg0 : Config) (W : World) (jaildir : Str) (jaildev : Nat) (stdin : Str)
        (fuel : Nat),
        LinksSymmetric (construct_jail cfg0 W jaildir jaildev stdin fuel Build.init).2.lnk_table)
    := by
  refine ⟨?_, ?_, ?_⟩
  · intro recurse cfg src dst lnk b t ht hproc
    have hne : (substr t.2 cfg.dstroot.length 6 != "/proc/".data) = true := by
      rw [bne_iff_ne]; exact hproc
    constructor
    · intro m hr hdir
      unfold handle_symlink_dst
      simp only [ht, hne, if_true, hr, Option.getD_some, hdir, beq_self_eq_true, Bool.and_self]
      rfl
    · intro rv m hr hrv
      unfold handle_symlink_dst
      have : (rv == 0) = false := by simpa using hrv
      simp only [ht, hne, if_true, hr, this, Bool.false_and, Bool.false_eq_true, if_false]
  · intro cfg W jaildev fuel src dst cp flags b h
    exact sym_handle_copy cfg W jaildev fuel src dst cp flags b h
  · intro cfg0 W jaildir jaildev stdin fuel
    apply sym_construct_jail
    intro a b hab
    cases hab

/-- C20 on the link `/bin -> usr/bin`: materialized first, both pairs are recorded. -/
theorem symlink_links_recorded_witness :
    (handle_copy jail_config world_bin_link 1 6 "/bin".data "/srv/jail/bin".data true 0
        Build.init).2.lnk_table
      = [("/srv/jail/usr/bin".data, "/srv/jail/bin".data),
         ("/srv/jail/bin".data, "/srv/jail/usr/bin".data)]
    ∧ LinksSymmetric (handle_copy jail_config world_bin_link 1 6 "/bin".data
        "/srv/jail/bin".data true 0 Build.init).2.lnk_table :=
  ⟨by decide,
   symlink_links_recorded.2.1 jail_config world_bin_link 1 6 "/bin".data "/srv/jail/bin".data
     true 0 Build.init (by intro a b hab; cases hab)⟩

/-- C20 as stated fails when the target of the link is already in the destination set: with
the manifest `/usr/bin` then `/bin`, where `/bin -> usr/bin` and `/usr/bin` is a directory,
the link is made at `/srv/jail/bin` but the recursive call for `/srv/jail/usr/bin` returns 1 at
once and `L` stays empty.  In the other order both pairs are recorded. -/
theorem link_to_known_directory_not_recorded :
    Cmd.symlink "usr/bin".data "/srv/jail/bin".data ∈
        (construct_jail plain_config world_bin_link "/srv/jail".data 1 "/usr/bin\n/bin\n".data 6
          Build.init).2.cmds
    ∧ Cmd.mkdir "/srv/jail/usr/bin".data 0o644 ∈
        (construct_jail plain_config world_bin_link "/srv/jail".data 1 "/usr/bin\n/bin\n".data 6
          Build.init).2.cmds
    ∧ (construct_jail plain_config world_bin_link "/srv/jail".data 1 "/usr/bin\n/bin\n".data 6
          Build.init).2.lnk_table = []
    ∧ (construct_jail plain_config world_bin_link "/srv/jail".data 1 "/bin\n/usr/bin\n".data 6
          Build.init).2.lnk_table
        = [("/srv/jail/usr/bin".data, "/srv/jail/bin".data),
           ("/srv/jail/bin".data, "/srv/jail/usr/bin".data)] := by
  refine ⟨by decide, by decide, by decide, by decide⟩

end Execjail

namespace Execjail

/-! ## Termination of `handle_copy` -/

theorem missing_mono (C D D1 : List Str) (h : ∀ d ∈ D, d ∈ D1) : missing C D1 ≤ missing C D := by
  unfold missing
  apply List.countP_mono_left
  intro x _ hx
  simp only [List.elem_eq_mem, Bool.not_eq_true', decide_eq_false_iff_not] at hx ⊢
  exact fun hm => hx (h x hm)

theorem missing_add (C D : List Str) (d : Str) (hC : d ∈ C) (hD : d ∉ D) :
    missing C (D ++ [d]) < missing C D := by
  unfold missing
  induction C with
  | nil => cases hC
  | cons c rest ih =>
    have hle : List.countP (fun x => !(D ++ [d]).elem x) rest
        ≤ List.countP (fun x => !D.elem x) rest :=
      missing_mono rest D (D ++ [d]) (fun x hx => List.mem_append_left _ hx)
    by_cases hcd : c = d
    · subst hcd
      rw [List.countP_cons_of_neg, List.countP_cons_of_pos]
      · omega
      · simpa using hD
      · simp
    · have hr : d ∈ rest := by
        rcases List.mem_cons.mp hC with h | h
        · exact absurd h.symm hcd
        · exact h
      have := ih hr
      by_cases hcD : c ∈ D
      · rw [List.countP_cons_of_neg, List.countP_cons_of_neg]
        · exact this
        · simpa using hcD
        · simp [hcD]
      · rw [List.countP_cons_of_pos, List.countP_cons_of_pos]
        · omega
        · simpa using hcD
        · simp [hcD, hcd]

theorem callOk_mem_destinations (dstroot : Str) (S T : List Str) (src0 dst0 src dst : Str)
    (h : CallOk dstroot S T src0 dst0 src dst) :
    dst ∈ link_destinations dstroot S T src0 dst0 := by
  obtain ⟨⟨p, q, rfl, ⟨s, hs, hp⟩, hq⟩, B, t, rfl, hB, ht⟩ := h
  unfold link_destinations link_sources
  simp only [List.mem_flatMap, List.mem_append, List.mem_inits, List.mem_map, List.mem_cons,
    List.mem_tails]
  refine ⟨B, hB, t, ⟨p ++ q, ⟨p, ⟨s, ?_, hp⟩, q, ?_, rfl⟩, ht⟩, rfl⟩
  · simpa using hs
  · rcases hq with rfl | ⟨x, hx, a, b, hab⟩
    · exact Or.inl rfl
    · right
      refine ⟨q ++ b, ⟨x, hx, ⟨a, by rw [← hab]; simp⟩⟩, ⟨b, rfl⟩⟩

theorem callOk_start (dstroot : Str) (S T : List Str) (src0 dst0 : Str) :
    CallOk dstroot S T src0 dst0 src0 dst0 :=
  ⟨⟨src0, [], by simp, ⟨src0, by simp, List.prefix_refl _⟩, Or.inl rfl⟩,
   dst0, [], by simp, Or.inl (List.prefix_refl _), List.nil_suffix⟩

end Execjail

namespace Execjail

theorem get?_append_left_lt (pre s : Str) (j : Nat) (h : j < pre.length) :
    (pre ++ s).get? j = pre.get? j := by
  rw [List.get?_eq_getElem?, List.get?_eq_getElem?, List.getElem?_append_left h]

theorem take_succ_of_get? (l : Str) (i : Nat) (c : Char) (h : l.get? i = some c) :
    l.take (i + 1) = l.take i ++ [c] := by
  rw [List.take_succ, ← List.get?_eq_getElem?, h]
  rfl

/-- Cutting a source and a destination that end alike back to their parent directories leaves
a source and a destination that end alike. -/
theorem cut_sync (src dst B t : Str) (i j : Nat) (hdst : dst = B ++ t) (ht : t <:+ src)
    (hi : rfindBelow src '/' (src.length - 1) = some i)
    (hj : strRfind dst '/' (size_sub dst.length 2) = some j) :
    ∃ B1 t1, dst.take (j + 1) = B1 ++ t1 ∧ B1 <+: B ∧ t1 <:+ src.take (i + 1) := by
  obtain ⟨X, hX⟩ := ht
  subst hdst
  subst hX
  rw [rfindBelow_some_iff] at hi
  unfold strRfind at hj
  rw [rfindBelow_some_iff] at hj
  obtain ⟨hi1, hi2, hi3⟩ := hi
  obtain ⟨hj1, hj2, hj3⟩ := hj
  simp only [List.length_append] at hi1 hj1 hj3 hi3
  by_cases hc : j + 1 ≤ B.length
  · refine ⟨(B ++ t).take (j + 1), [], by simp, ?_, List.nil_suffix⟩
    rw [List.take_append_of_le_length hc]
    exact List.take_prefix _ _
  · have hjB : B.length ≤ j := by omega
    have hjt : j - B.length < t.length := by
      have : j < B.length + t.length := by
        have := Nat.min_le_right (size_sub (B.length + t.length) 2 + 1) (B.length + t.length)
        omega
      omega
    have hjeq : j = B.length + (j - B.length) := by omega
    have htj : t.get? (j - B.length) = some '/' := by
      rw [hjeq, get?_append_right_add] at hj2
      exact hj2
    by_cases h2 : j - B.length + 1 < t.length
    · have hsz : min (size_sub (B.length + t.length) 2 + 1) (B.length + t.length)
          = B.length + t.length - 1 := by
        unfold size_sub
        rw [if_pos (by omega)]
        omega
      rw [hsz] at hj3
      have hieq : i = X.length + (j - B.length) := by
        rcases Nat.lt_trichotomy i (X.length + (j - B.length)) with h | h | h
        · exfalso
          apply hi3 (X.length + (j - B.length)) h (by omega)
          rw [get?_append_right_add]
          exact htj
        · exact h
        · exfalso
          apply hj3 (B.length + (i - X.length)) (by omega) (by omega)
          rw [get?_append_right_add]
          have : i = X.length + (i - X.length) := by omega
          rw [this, get?_append_right_add] at hi2
          exact hi2
      have eB : B.take (j + 1) = B := List.take_of_length_le (by omega)
      have eX : X.take (X.length + (j - B.length) + 1) = X := List.take_of_length_le (by omega)
      have ej : j + 1 - B.length = j - B.length + 1 := by omega
      have ei : X.length + (j - B.length) + 1 - X.length = j - B.length + 1 := by omega
      refine ⟨B, t.take (j - B.length + 1), ?_, List.prefix_refl _, ?_⟩
      · rw [List.take_append_eq_append_take, eB, ej]
      · refine ⟨X, ?_⟩
        rw [hieq, List.take_append_eq_append_take, eX, ei]
    · have hlast : j + 1 = B.length + t.length := by omega
      have hn : B.length + t.length = 1 := by
        by_contra hne
        have : size_sub (B.length + t.length) 2 + 1 = B.length + t.length - 1 := by
          unfold size_sub
          rw [if_pos (by omega)]
          omega
        rw [this] at hj1
        have := Nat.min_le_left (B.length + t.length - 1) (B.length + t.length)
        omega
      have hB : B = [] := List.length_eq_zero.mp (by omega)
      subst hB
      have ht1 : t = ['/'] := by
        match t, hjt, htj, hn with
        | [c], _, htj, _ =>
          have : j = 0 := by simp at hlast; omega
          subst this
          simp at htj
          rw [htj]
      subst ht1
      have hiX : i < X.length := by simp at hi1; omega
      refine ⟨[], ['/'], by simp at hlast; subst hlast; rfl, List.prefix_refl _, ?_⟩
      rw [get?_append_left_lt _ _ _ hiX] at hi2
      rw [List.take_append_of_le_length (by omega), take_succ_of_get? X i '/' hi2]
      exact ⟨X.take i, rfl⟩

/-- The sources a call can lead to are closed under taking prefixes. -/
theorem srcOk_take (S T : List Str) (src0 src : Str) (m : Nat)
    (h : ∃ p q, src = p ++ q ∧ (∃ s ∈ src0 :: S, p <+: s) ∧ (q = [] ∨ ∃ t ∈ T, q <:+: t)) :
    ∃ p q, src.take m = p ++ q ∧ (∃ s ∈ src0 :: S, p <+: s) ∧ (q = [] ∨ ∃ t ∈ T, q <:+: t) := by
  obtain ⟨p, q, rfl, ⟨s, hs, hp⟩, hq⟩ := h
  refine ⟨p.take m, q.take (m - p.length), List.take_append_eq_append_take,
    ⟨s, hs, (List.take_prefix _ _).trans hp⟩, ?_⟩
  rcases hq with rfl | ⟨t, ht, hqt⟩
  · left; simp
  · right
    exact ⟨t, ht, (List.take_prefix _ _).isInfix.trans hqt⟩

theorem callOk_parent (dstroot : Str) (S T : List Str) (src0 dst0 src dst sp dp u : Str)
    (hsrc : src = sp ++ u) (hdst : dst = dp ++ u)
    (h : CallOk dstroot S T src0 dst0 src dst) : CallOk dstroot S T src0 dst0 sp dp := by
  obtain ⟨hs, B, t, hBt, hB, ht⟩ := h
  constructor
  · have := srcOk_take S T src0 src sp.length hs
    rw [hsrc, List.take_left] at this
    exact this
  · have hu : u <:+ dst := ⟨dp, hdst.symm⟩
    have ht2 : t <:+ dst := ⟨B, hBt.symm⟩
    by_cases hlen : u.length ≤ t.length
    · obtain ⟨t1, ht1⟩ := List.suffix_of_suffix_length_le hu ht2 hlen
      obtain ⟨X, hX⟩ := ht
      refine ⟨B, t1, ?_, hB, X, ?_⟩
      · apply (List.append_left_inj u).mp
        rw [← hdst, hBt, ← ht1, List.append_assoc]
      · apply (List.append_left_inj u).mp
        rw [← hsrc, ← hX, ← ht1, List.append_assoc]
    · obtain ⟨Y, hY⟩ := List.suffix_of_suffix_length_le ht2 hu (by omega)
      refine ⟨dp, [], by simp, ?_, List.nil_suffix⟩
      have : dp <+: B := by
        refine ⟨Y, ?_⟩
        apply (List.append_left_inj t).mp
        rw [List.append_assoc, hY, ← hdst, hBt]
      rcases hB with h1 | h1
      · exact Or.inl (this.trans h1)
      · exact Or.inr (this.trans h1)

end Execjail

namespace Execjail

theorem symlink_climb_inv (dstroot : Str) : ∀ (fuel : Nat) (src dst lnk s1 d1 l1 : Str),
    symlink_climb dstroot fuel src dst lnk = some (s1, d1, l1) →
    ∀ B t, dst = B ++ t → t <:+ src →
      s1 <+: src ∧ l1 <:+ lnk ∧ ∃ B1 t1, d1 = B1 ++ t1 ∧ B1 <+: B ∧ t1 <:+ s1 := by
  intro fuel
  induction fuel with
  | zero => intro src dst lnk s1 d1 l1 h; cases h
  | succ fuel ih =>
    intro src dst lnk s1 d1 l1 h B t hdst ht
    rw [symlink_climb] at h
    by_cases h1 : src.length = 1
    · have : (src.length == 1) = true := by simp [h1]
      rw [if_pos this] at h
      cases h
    · have hb : ¬ ((src.length == 1) = true) := by simp [h1]
      rw [if_neg hb, strRfind_cut src h1] at h
      cases hi : rfindBelow src '/' (src.length - 1) with
      | none => rw [hi] at h; cases h
      | some i =>
        cases hj : strRfind dst '/' (size_sub dst.length 2) with
        | none => rw [hi, hj] at h; cases h
        | some j =>
          rw [hi, hj] at h
          simp only [] at h
          obtain ⟨B1, t1, hd1, hB1, ht1⟩ := cut_sync src dst B t i j hdst ht hi hj
          have hs1 : substr src 0 (i + 1) = src.take (i + 1) := by simp [substr]
          have hd1' : substr dst 0 (j + 1) = dst.take (j + 1) := by simp [substr]
          rw [hs1, hd1'] at h
          split at h
          · cases h
          · split at h
            · obtain ⟨h2, h3, B2, t2, h4, h5, h6⟩ :=
                ih _ _ _ _ _ _ h B1 t1 hd1 ht1
              exact ⟨h2.trans (List.take_prefix _ _), h3.trans (List.drop_suffix _ _),
                B2, t2, h4, h5.trans hB1, h6⟩
            · simp only [Option.some.injEq, Prod.mk.injEq] at h
              obtain ⟨rfl, rfl, rfl⟩ := h
              exact ⟨List.take_prefix _ _, List.suffix_refl _, B1, t1, hd1, hB1, ht1⟩

theorem callOk_target (dstroot : Str) (S T : List Str) (src0 dst0 src dst lnk : Str)
    (t : Str × Str) (h : CallOk dstroot S T src0 dst0 src dst) (hS : src ∈ S) (hT : lnk ∈ T)
    (ht : symlink_target dstroot src dst lnk = some t) :
    CallOk dstroot S T src0 dst0 t.1 t.2 := by
  unfold symlink_target at ht
  split at ht
  · cases ht
    exact ⟨⟨[], lnk, rfl, ⟨src0, by simp, List.nil_prefix⟩, Or.inr ⟨lnk, hT, List.infix_refl _⟩⟩,
      dstroot, lnk, rfl, Or.inr (List.prefix_refl _), List.suffix_refl _⟩
  · cases hc : symlink_climb dstroot (lnk.length + 1) src dst lnk with
    | none => rw [hc] at ht; cases ht
    | some r =>
      obtain ⟨s1, d1, l1⟩ := r
      rw [hc] at ht
      cases ht
      obtain ⟨_, B, u, hBu, hB, hu⟩ := h
      obtain ⟨h2, h3, B1, t1, h4, h5, ⟨X, hX⟩⟩ :=
        symlink_climb_inv dstroot _ src dst lnk s1 d1 l1 hc B u hBu hu
      refine ⟨⟨s1, l1, rfl, ⟨src, List.mem_cons_of_mem _ hS, h2⟩, Or.inr ⟨lnk, hT, h3.isInfix⟩⟩,
        B1, t1 ++ l1, by simp only [h4, List.append_assoc], ?_, X, ?_⟩
      · rcases hB with h1 | h1
        · exact Or.inl (h5.trans h1)
        · exact Or.inr (h5.trans h1)
      · simp only [← hX, List.append_assoc]

theorem copy_parent_some (W : World) (src dst : Str) (cp : Bool) (b : Build) (parent : Str × Str)
    (h : (copy_parent W src dst cp b).1 = some parent) :
    ∃ u, src = parent.1 ++ u ∧ dst = parent.2 ++ u := by
  unfold copy_parent at h
  simp only [] at h
  repeat' split at h
  all_goals try cases h
  rename_i k _ _ hcond _ _ _ _
  rw [Bool.and_eq_true, beq_iff_eq] at hcond
  obtain ⟨_, heq⟩ := hcond
  unfold substrFrom at heq
  refine ⟨src.drop (src.length - (dst.length - k)), ?_, ?_⟩
  · simp only [substr, List.drop_zero]
    exact (List.take_append_drop _ _).symm
  · simp only [substr, List.drop_zero]
    rw [heq]
    exact (List.take_append_drop _ _).symm

theorem dst_copy_parent (W : World) (src dst : Str) (cp : Bool) (b : Build) :
    (copy_parent W src dst cp b).2.dst_table = b.dst_table := by
  unfold copy_parent
  simp only []
  repeat' split
  all_goals rfl

theorem dst_say (cfg : Config) (c : Cmd) (b : Build) : (b.say cfg c).dst_table = b.dst_table := by
  unfold Build.say
  split <;> rfl

theorem term_handle_symlink_dst (recurse : Str → Str → Bool → Nat → Build → Ret × Build)
    (cfg : Config) (src dst lnk : Str) (b : Build)
    (h : ∀ t, symlink_target cfg.dstroot src dst lnk = some t →
      (recurse t.1 t.2 true 0 b).1 ≠ .out_of_fuel) :
    (handle_symlink_dst recurse cfg src dst lnk b).1 ≠ .out_of_fuel := by
  unfold handle_symlink_dst
  split
  · intro hc; cases hc
  · rename_i t ht
    split
    · simp only []
      cases hr : (recurse t.1 t.2 true 0 b).1 with
      | out_of_fuel => exact absurd hr (h t ht)
      | done rv m =>
        simp only []
        split <;> (intro hc; cases hc)
    · intro hc; cases hc

end Execjail

namespace Execjail

/-- The body of `handle_copy` returns when the calls it makes for the targets of symbolic links
return. -/
theorem term_copy_body (recurse : Str → Str → Bool → Nat → Build → Ret × Build)
    (cfg : Config) (W : World) (jaildev : Nat) (src dst : Str) (flags : Nat) (b : Build)
    (h : ∀ text b1, (∃ hist ss, W.lstat hist src = .ok ss ∧ S_ISLNK ss.st_mode = true) →
        (∃ hist, W.readlink hist src = .ok text) → b1.dst_table = b.dst_table →
        ∀ t, symlink_target cfg.dstroot src dst text = some t →
          (recurse t.1 t.2 true 0 b1).1 ≠ .out_of_fuel) :
    (copy_body recurse cfg W jaildev src dst flags b).1 ≠ .out_of_fuel := by
  unfold copy_body
  simp only []
  repeat' split
  all_goals try (intro hc; cases hc; done)
  all_goals
    exfalso
    refine term_handle_symlink_dst recurse cfg src dst _ _
      (fun t ht => h _ _ ⟨_, _, by assumption, by assumption⟩ ⟨_, by assumption⟩ ?_ t ht)
      (by assumption)
    split <;> simp only [Build.issue, dst_say, Build.ask]

/-- With more destinations still missing than the bound on the depth of the
recursion, `handle_copy` returns. -/
theorem term_handle_copy (cfg : Config) (W : World) (jaildev : Nat) (S T : List Str)
    (src0 dst0 : Str) (hfin : FiniteLinks W S T) :
    ∀ (fuel : Nat) (src dst : Str) (cp : Bool) (flags : Nat) (b : Build),
      CallOk cfg.dstroot S T src0 dst0 src dst →
      missing (link_destinations cfg.dstroot S T src0 dst0) b.dst_table < fuel →
      (handle_copy cfg W jaildev fuel src dst cp flags b).1 ≠ .out_of_fuel := by
  intro fuel
  induction fuel with
  | zero => intro src dst cp flags b _ h; omega
  | succ fuel ih =>
    intro src dst cp flags b hok hfuel
    rw [handle_copy]
    by_cases hin : b.dst_table.elem dst = true
    · rw [if_pos hin]
      intro hc; cases hc
    · rw [if_neg hin]
      have hnot : dst ∉ b.dst_table := by simpa using hin
      have hadd : missing (link_destinations cfg.dstroot S T src0 dst0) (b.add_dst dst).dst_table
          < fuel := by
        have := missing_add (link_destinations cfg.dstroot S T src0 dst0) b.dst_table dst
          (callOk_mem_destinations _ _ _ _ _ _ _ hok) hnot
        simp only [Build.add_dst]
        omega
      have hbody : ∀ b2 : Build,
          missing (link_destinations cfg.dstroot S T src0 dst0) b2.dst_table < fuel →
          (copy_body (handle_copy cfg W jaildev fuel) cfg W jaildev src dst flags b2).1
            ≠ .out_of_fuel := by
        intro b2 hb2
        apply term_copy_body
        intro text b1 ⟨hist, ss, hss, hlnk⟩ ⟨hist2, htext⟩ hb1 t ht
        apply ih
        · exact callOk_target _ S T src0 dst0 src dst text t hok (hfin.1 _ _ _ hss hlnk)
            (hfin.2 _ _ _ htext) ht
        · rw [hb1]; exact hb2
      have hp2 : missing (link_destinations cfg.dstroot S T src0 dst0)
          (copy_parent W src dst cp (b.add_dst dst)).2.dst_table < fuel := by
        rw [dst_copy_parent]; exact hadd
      simp only []
      cases hp : (copy_parent W src dst cp (b.add_dst dst)).1 with
      | none =>
        simp only []
        exact hbody _ hp2
      | some parent =>
        simp only []
        obtain ⟨u, hu1, hu2⟩ := copy_parent_some W src dst cp _ parent hp
        have hpar := ih parent.1 parent.2 true 0 _
          (callOk_parent _ S T src0 dst0 src dst parent.1 parent.2 u hu1 hu2 hok) hp2
        cases hr : (handle_copy cfg W jaildev fuel parent.1 parent.2 true 0
            (copy_parent W src dst cp (b.add_dst dst)).2).1 with
        | out_of_fuel => exact absurd hr hpar
        | done rv m =>
          simp only []
          apply hbody
          have hext := extends_handle_copy W cfg jaildev fuel parent.1 parent.2 true 0
            (copy_parent W src dst cp (b.add_dst dst)).2
          have := missing_mono (link_destinations cfg.dstroot S T src0 dst0) _ _ hext.2.1
          omega

end Execjail

namespace Execjail

/-! ## The result does not depend on the bound, once it is large enough -/

theorem stable_handle_symlink_dst (rec1 rec2 : Str → Str → Bool → Nat → Build → Ret × Build)
    (hrec : ∀ s d c f b, (rec1 s d c f b).1 ≠ .out_of_fuel → rec2 s d c f b = rec1 s d c f b)
    (cfg : Config) (src dst lnk : Str) (b : Build) :
    handle_symlink_dst rec2 cfg src dst lnk b = handle_symlink_dst rec1 cfg src dst lnk b
      ∨ (handle_symlink_dst rec1 cfg src dst lnk b).1 = .out_of_fuel := by
  unfold handle_symlink_dst
  split
  · exact Or.inl rfl
  · rename_i t ht
    simp only []
    split
    · cases hr : (rec1 t.1 t.2 true 0 b).1 with
      | out_of_fuel => exact Or.inr rfl
      | done rv m =>
        left
        rw [hrec t.1 t.2 true 0 b (by rw [hr]; intro hc; cases hc), hr]
    · exact Or.inl rfl

theorem stable_copy_body (rec1 rec2 : Str → Str → Bool → Nat → Build → Ret × Build)
    (hrec : ∀ s d c f b, (rec1 s d c f b).1 ≠ .out_of_fuel → rec2 s d c f b = rec1 s d c f b)
    (cfg : Config) (W : World) (jaildev : Nat) (src dst : Str) (flags : Nat) (b : Build) :
    copy_body rec2 cfg W jaildev src dst flags b = copy_body rec1 cfg W jaildev src dst flags b
      ∨ (copy_body rec1 cfg W jaildev src dst flags b).1 = .out_of_fuel := by
  have hs := stable_handle_symlink_dst rec1 rec2 hrec cfg src dst
  unfold copy_body
  simp only []
  cases W.lstat (b.ask (.lstat src)).cmds src with
  | error e => exact Or.inl rfl
  | ok ss =>
    simp only []
    by_cases c1 : (S_ISREG ss.st_mode && !cfg.copy_samedev && (flags &&& FLAG_CP) == 0
        && ss.st_dev == jaildev) = true
    · rw [if_pos c1, if_pos c1]; exact Or.inl rfl
    rw [if_neg c1, if_neg c1]
    by_cases c2 : (S_ISREG ss.st_mode || (S_ISLNK ss.st_mode && (flags &&& FLAG_CP) != 0)) = true
    · rw [if_pos c2, if_pos c2]; exact Or.inl rfl
    rw [if_neg c2, if_neg c2]
    by_cases c3 : S_ISDIR ss.st_mode = true
    · rw [if_pos c3, if_pos c3]; exact Or.inl rfl
    rw [if_neg c3, if_neg c3]
    by_cases c4 : (S_ISCHR ss.st_mode || S_ISBLK ss.st_mode) = true
    · rw [if_pos c4, if_pos c4]; exact Or.inl rfl
    rw [if_neg c4, if_neg c4]
    by_cases c5 : S_ISLNK ss.st_mode = true
    · rw [if_pos c5, if_pos c5]
      cases W.readlink ((b.ask (.lstat src)).ask (.readlink src)).cmds src with
      | error e => exact Or.inl rfl
      | ok text =>
        simp only []
        by_cases c6 : text.length ≥ 4096
        · rw [if_pos c6, if_pos c6]; exact Or.inl rfl
        rw [if_neg c6, if_neg c6]
        generalize (if cfg.dryrun = true
          then (none, ((b.ask (.lstat src)).ask (.readlink src)).say cfg (.symlink text dst))
          else (((b.ask (.lstat src)).ask (.readlink src)).say cfg (.symlink text dst)).issue W
            (.symlink text dst)) = r
        cases r.1 with
        | some e => exact Or.inl rfl
        | none =>
          simp only []
          rcases hs text r.2 with e | e
          · rw [e]; exact Or.inl rfl
          · right
            rw [e]
    · rw [if_neg c5, if_neg c5]; exact Or.inl rfl

theorem stable_handle_copy (cfg : Config) (W : World) (jaildev : Nat) :
    ∀ (fuel : Nat) (src dst : Str) (cp : Bool) (flags : Nat) (b : Build),
      (handle_copy cfg W jaildev fuel src dst cp flags b).1 ≠ .out_of_fuel →
      handle_copy cfg W jaildev (fuel + 1) src dst cp flags b
        = handle_copy cfg W jaildev fuel src dst cp flags b := by
  intro fuel
  induction fuel with
  | zero =>
    intro src dst cp flags b h
    exact absurd rfl h
  | succ fuel ih =>
    intro src dst cp flags b h
    rw [handle_copy] at h
    conv_lhs => rw [handle_copy]
    conv_rhs => rw [handle_copy]
    by_cases hin : b.dst_table.elem dst = true
    · rw [if_pos hin]; rw [if_pos hin]
    · rw [if_neg hin] at h ⊢
      rw [if_neg hin]
      simp only [] at h ⊢
      cases hp : (copy_parent W src dst cp (b.add_dst dst)).1 with
      | none =>
        rw [hp] at h
        simp only [] at h ⊢
        rcases stable_copy_body (handle_copy cfg W jaildev fuel)
          (handle_copy cfg W jaildev (fuel + 1)) ih cfg W jaildev src dst flags
          (copy_parent W src dst cp (b.add_dst dst)).2 with e | e
        · exact e
        · exact absurd e h
      | some parent =>
        rw [hp] at h
        simp only [] at h ⊢
        cases hr : (handle_copy cfg W jaildev fuel parent.1 parent.2 true 0
            (copy_parent W src dst cp (b.add_dst dst)).2).1 with
        | out_of_fuel =>
          rw [hr] at h
          exact absurd rfl h
        | done rv m =>
          rw [hr] at h
          simp only [] at h
          have e1 := ih parent.1 parent.2 true 0 (copy_parent W src dst cp (b.add_dst dst)).2
            (by rw [hr]; intro hc; cases hc)
          rw [e1, hr]
          simp only []
          rcases stable_copy_body (handle_copy cfg W jaildev fuel)
            (handle_copy cfg W jaildev (fuel + 1)) ih cfg W jaildev src dst flags
            (handle_copy cfg W jaildev fuel parent.1 parent.2 true 0
              (copy_parent W src dst cp (b.add_dst dst)).2).2 with e | e
          · exact e
          · exact absurd e h

theorem stable_handle_copy_le (cfg : Config) (W : World) (jaildev : Nat) (src dst : Str)
    (cp : Bool) (flags : Nat) (b : Build) (n : Nat)
    (h : (handle_copy cfg W jaildev n src dst cp flags b).1 ≠ .out_of_fuel) :
    ∀ fuel, n ≤ fuel → handle_copy cfg W jaildev fuel src dst cp flags b
      = handle_copy cfg W jaildev n src dst cp flags b := by
  intro fuel hle
  induction fuel with
  | zero =>
    have : n = 0 := by omega
    subst this
    rfl
  | succ k ih =>
    by_cases hk : n ≤ k
    · have e := ih hk
      rw [← e]
      apply stable_handle_copy
      rw [e]
      exact h
    · have : n = k + 1 := by omega
      subst this
      rfl

end Execjail

namespace Execjail

/-! ## The bounds on the loops inside `handle_copy` are never reached -/

theorem symlink_climb_fuel (dstroot : Str) : ∀ (fuel : Nat) (src dst lnk : Str),
    (strip_updirs lnk).1 < fuel →
    symlink_climb dstroot (fuel + 1) src dst lnk = symlink_climb dstroot fuel src dst lnk := by
  intro fuel
  induction fuel with
  | zero => intro src dst lnk h; omega
  | succ fuel ih =>
    intro src dst lnk h
    conv_lhs => rw [symlink_climb]
    conv_rhs => rw [symlink_climb]
    split
    · rfl
    · split
      · split
        · rfl
        · split
          · rename_i hu
            obtain ⟨c, rest, rfl⟩ := (updir_cond lnk).mp hu
            rw [strip_updirs_cons] at h
            have hdrop : substrFrom ('.' :: '.' :: '/' :: c :: rest) 3 = c :: rest := rfl
            rw [hdrop]
            exact ih _ _ _ (by simp only at h; omega)
          · rfl
      · rfl

theorem strFind_bounds (s : Str) (c : Char) (pos p : Nat) (h : strFind s c pos = some p) :
    pos ≤ p ∧ p < s.length := by
  unfold strFind at h
  cases hi : (s.drop pos).indexOf? c with
  | none => rw [hi] at h; cases h
  | some k =>
    rw [hi] at h
    simp only [Option.some.injEq] at h
    subst h
    have hk : k < (s.drop pos).length := by
      rw [List.indexOf?, List.findIdx?_eq_some_iff_findIdx_eq] at hi
      exact hi.1
    rw [List.length_drop] at hk
    omega

theorem strFind_none_of_le (s : Str) (c : Char) (pos : Nat) (h : s.length ≤ pos) :
    strFind s c pos = none := by
  unfold strFind
  rw [List.drop_of_length_le h]
  rfl

theorem xdev_superdirs_fuel (cfg : Config) (W : World) (lnk : Str) :
    ∀ (fuel start : Nat) (b : Build), lnk.length ≤ fuel + start →
      xdev_superdirs cfg W lnk (fuel + 1) start b = xdev_superdirs cfg W lnk fuel start b := by
  intro fuel
  induction fuel with
  | zero =>
    intro start b h
    conv_lhs => rw [xdev_superdirs, strFind_none_of_le lnk '/' start (by omega)]
    rfl
  | succ fuel ih =>
    intro start b h
    conv_lhs => rw [xdev_superdirs]
    conv_rhs => rw [xdev_superdirs]
    cases hf : strFind lnk '/' start with
    | none => rfl
    | some p =>
      have hp := strFind_bounds lnk '/' start p hf
      have hi : ∀ b1, xdev_superdirs cfg W lnk (fuel + 1) (p + 1) b1
          = xdev_superdirs cfg W lnk fuel (p + 1) b1 := fun b1 => ih (p + 1) b1 (by omega)
      simp only [hi]

theorem x_link_eexist_ok_loop_fuel (b : Build) (dst : Str) :
    ∀ (fuel npos : Nat), npos ≤ fuel →
      x_link_eexist_ok_loop b dst (fuel + 1) npos = x_link_eexist_ok_loop b dst fuel npos := by
  intro fuel
  induction fuel with
  | zero =>
    intro npos h
    have : npos = 0 := by omega
    subst this
    rfl
  | succ fuel ih =>
    intro npos h
    conv_lhs => rw [x_link_eexist_ok_loop]
    conv_rhs => rw [x_link_eexist_ok_loop]
    split
    · rfl
    · rename_i hn
      cases hr : strRfind dst '/' (npos - 1) with
      | none => rfl
      | some slash =>
        have hs : slash < npos := by
          unfold strRfind at hr
          have := ((rfindBelow_some_iff dst '/' _ slash).mp hr).1
          have := Nat.min_le_left (npos - 1 + 1) dst.length
          have : npos ≠ 0 := by simpa using hn
          omega
        simp only []
        rw [ih slash (by omega)]

theorem lookup_mem_keys {α : Type} (l : List (Str × α)) (k : Str) (v : α)
    (h : l.lookup k = some v) : k ∈ l.map Prod.fst := by
  induction l with
  | nil => cases h
  | cons e rest ih =>
    obtain ⟨k1, v1⟩ := e
    cases hk : (k == k1) with
    | true =>
      have : k = k1 := by simpa using hk
      subst this
      exact List.mem_map.mpr ⟨(k, v1), List.mem_cons_self _ _, rfl⟩
    | false =>
      simp only [List.lookup, hk] at h
      simp only [List.map_cons, List.mem_cons]
      exact Or.inr (ih h)

theorem lookup_mem_values {α : Type} (l : List (Str × α)) (k : Str) (v : α)
    (h : l.lookup k = some v) : v ∈ l.map Prod.snd := by
  induction l with
  | nil => cases h
  | cons e rest ih =>
    obtain ⟨k1, v1⟩ := e
    cases hk : (k == k1) with
    | true =>
      simp only [List.lookup, hk, Option.some.injEq] at h
      subst h
      exact List.mem_map.mpr ⟨(k1, v1), List.mem_cons_self _ _, rfl⟩
    | false =>
      simp only [List.lookup, hk] at h
      simp only [List.map_cons, List.mem_cons]
      exact Or.inr (ih h)

theorem finiteLinks_host_world (files : List (Str × Stat)) (links : List (Str × Str))
    (mounted : List mntent) :
    FiniteLinks (host_world files links mounted) (files.map Prod.fst) (links.map Prod.snd) := by
  constructor
  · intro h p st hst _
    simp only [host_world] at hst
    cases hl : files.lookup p with
    | none => rw [hl] at hst; cases hst
    | some v => exact lookup_mem_keys files p v hl
  · intro h p text ht
    simp only [host_world] at ht
    cases hl : links.lookup p with
    | none => rw [hl] at ht; cases ht
    | some v =>
      rw [hl] at ht
      simp only [Except.ok.injEq] at ht
      subst ht
      exact lookup_mem_values links p v hl

/-- C11: on a host with finitely many names of symbolic links (`S`) and finitely many link texts
(`T`), every call of `handle_copy` returns: with a bound on the depth of its recursion (by
parent fill-in and through `handle_symlink_dst`) above the number of destinations it can lead
to that are not yet in the destination set, the bound is not reached, and a larger bound gives
the same result.  The depth is so bounded because each call that goes on records its
destination before it recurses. -/
theorem handle_copy_terminates (cfg : Config) (W : World) (jaildev : Nat) (S T : List Str)
    (hfin : FiniteLinks W S T) (src dst : Str) (check_parents : Bool) (flags : Nat) (b : Build) :
    ∀ fuel, missing (link_destinations cfg.dstroot S T src dst) b.dst_table < fuel →
      (handle_copy cfg W jaildev fuel src dst check_parents flags b).1 ≠ .out_of_fuel
      ∧ handle_copy cfg W jaildev fuel src dst check_parents flags b
        = handle_copy cfg W jaildev
            (missing (link_destinations cfg.dstroot S T src dst) b.dst_table + 1)
            src dst check_parents flags b := by
  intro fuel hfuel
  have h0 := term_handle_copy cfg W jaildev S T src dst hfin
    (missing (link_destinations cfg.dstroot S T src dst) b.dst_table + 1) src dst check_parents
    flags b (callOk_start _ _ _ _ _) (Nat.lt_succ_self _)
  have e := stable_handle_copy_le cfg W jaildev src dst check_parents flags b _ h0 fuel
    (by omega)
  exact ⟨by rw [e]; exact h0, e⟩

/-- C11 on the host where `/bin` is a symbolic link to `usr/bin`. -/
theorem handle_copy_terminates_witness :
    FiniteLinks world_bin_link ["/bin".data, "/usr".data, "/usr/bin".data, "/usr/bin/sh".data,
        "/bin/sh".data] ["usr/bin".data]
    ∧ (handle_copy jail_config world_bin_link 1 6 "/bin/sh".data "/srv/jail/bin/sh".data true 0
        Build.init).1 = .done 0 (some (S_IFREG ||| 0o644))
    ∧ ∀ fuel, missing (link_destinations jail_config.dstroot
          ["/bin".data, "/usr".data, "/usr/bin".data, "/usr/bin/sh".data, "/bin/sh".data]
          ["usr/bin".data] "/bin/sh".data "/srv/jail/bin/sh".data) Build.init.dst_table < fuel →
        (handle_copy jail_config world_bin_link 1 fuel "/bin/sh".data "/srv/jail/bin/sh".data
          true 0 Build.init).1 ≠ .out_of_fuel :=
  ⟨finiteLinks_host_world _ _ _, by decide,
   fun fuel h => (handle_copy_terminates jail_config world_bin_link 1 _ _
     (finiteLinks_host_world _ _ _) "/bin/sh".data "/srv/jail/bin/sh".data true 0 Build.init
     fuel h).1⟩

end Execjail

namespace Execjail

/-! ## The link-equivalence test -/

theorem strRfind_lt (s : Str) (c : Char) (npos slash : Nat) (hn : npos ≠ 0)
    (h : strRfind s c (npos - 1) = some slash) : slash < npos := by
  unfold strRfind at h
  have h1 := ((rfindBelow_some_iff s c _ slash).mp h).1
  have h2 := Nat.min_le_left (npos - 1 + 1) s.length
  omega

theorem x_link_eexist_ok_loop_iff (b : Build) (dst : Str) :
    ∀ (fuel npos : Nat), npos < fuel →
      (x_link_eexist_ok_loop b dst fuel npos = true
        ↔ ∃ slash, slash < npos ∧ dst.get? slash = some '/'
            ∧ ∃ e ∈ b.lnk_table, e.1 = dst.take slash ∧ e.2 ++ dst.drop slash ∈ b.dst_table) := by
  intro fuel
  induction fuel with
  | zero => intro npos h; omega
  | succ fuel ih =>
    intro npos h
    rw [x_link_eexist_ok_loop]
    by_cases hn : npos = 0
    · subst hn
      simp
    · have hn1 : (npos == 0) = false := by simpa using hn
      rw [hn1]
      simp only [Bool.false_eq_true, if_false]
      cases hr : strRfind dst '/' (npos - 1) with
      | none =>
        simp only [Bool.false_eq_true, false_iff, not_exists, not_and]
        intro slash hs hg
        unfold strRfind at hr
        have h0 := (rfindBelow_none_iff dst '/' _).mp hr slash
        have hlen : slash < dst.length := by
          by_contra hc
          rw [List.get?_eq_none.mpr (by omega)] at hg
          cases hg
        exact absurd hg (h0 (by omega))
      | some slash =>
        have hlt := strRfind_lt dst '/' npos slash hn hr
        unfold strRfind at hr
        obtain ⟨h1, h2, h3⟩ := (rfindBelow_some_iff dst '/' _ slash).mp hr
        simp only [substr, substrFrom, List.drop_zero]
        by_cases ha : (b.lnk_table.any (fun e =>
            e.1 == dst.take slash && b.dst_table.elem (e.2 ++ dst.drop slash))) = true
        · rw [if_pos ha]
          simp only [true_iff]
          obtain ⟨e, he, hp⟩ := List.any_eq_true.mp ha
          rw [Bool.and_eq_true, beq_iff_eq, List.elem_eq_mem, decide_eq_true_iff] at hp
          exact ⟨slash, hlt, h2, e, he, hp.1, hp.2⟩
        · rw [if_neg ha, ih slash (by omega)]
          constructor
          · rintro ⟨s1, hs1, rest⟩
            exact ⟨s1, by omega, rest⟩
          · rintro ⟨s1, hs1, hg, e, he, hp1, hp2⟩
            have hlen : s1 < dst.length := by
              by_contra hc
              rw [List.get?_eq_none.mpr (by omega)] at hg
              cases hg
            rcases Nat.lt_trichotomy s1 slash with hlt1 | heq | hgt
            · exact ⟨s1, hlt1, hg, e, he, hp1, hp2⟩
            · subst heq
              exfalso
              apply ha
              apply List.any_eq_true.mpr
              refine ⟨e, he, ?_⟩
              rw [Bool.and_eq_true, beq_iff_eq, List.elem_eq_mem, decide_eq_true_iff]
              exact ⟨hp1, hp2⟩
            · exact absurd hg (h3 s1 hgt (by omega))

theorem split_at_slash_iff (p a r : Str) :
    (p = a ++ r ∧ r.head? = some '/')
      ↔ (p.get? a.length = some '/' ∧ a = p.take a.length ∧ r = p.drop a.length) := by
  constructor
  · rintro ⟨rfl, hr⟩
    cases r with
    | nil => simp at hr
    | cons c rest =>
      simp only [List.head?_cons, Option.some.injEq] at hr
      subst hr
      exact ⟨get?_append_cons_self a rest '/', by simp, by simp⟩
  · rintro ⟨hg, ha, hr⟩
    refine ⟨?_, ?_⟩
    · rw [ha, hr]
      simp
    · rw [hr]
      have hlen : a.length < p.length := by
        by_contra hc
        rw [List.get?_eq_none.mpr (by omega)] at hg
        cases hg
      rw [List.drop_eq_getElem_cons hlen, List.head?_cons]
      rw [List.get?_eq_getElem? , List.getElem?_eq_getElem hlen] at hg
      exact hg

theorem say_cmds (cfg : Config) (c : Cmd) (b : Build) : (b.say cfg c).cmds = b.cmds := by
  unfold Build.say
  split <;> rfl

theorem say_tables (cfg : Config) (c : Cmd) (b : Build) :
    (b.say cfg c).dst_table = b.dst_table ∧ (b.say cfg c).lnk_table = b.lnk_table := by
  unfold Build.say
  split <;> exact ⟨rfl, rfl⟩

theorem x_link_eexist_ok_tables (b b1 : Build) (p : Str) (hd : b1.dst_table = b.dst_table)
    (hl : b1.lnk_table = b.lnk_table) : x_link_eexist_ok b1 p = x_link_eexist_ok b p := by
  unfold x_link_eexist_ok
  generalize p.length + 2 = fuel
  generalize p.length + 1 = npos
  induction fuel generalizing npos with
  | zero => rfl
  | succ fuel ih =>
    rw [x_link_eexist_ok_loop, x_link_eexist_ok_loop, hd, hl]
    split
    · rfl
    · cases strRfind p '/' (npos - 1) with
      | none => rfl
      | some slash =>
        simp only []
        rw [ih slash]

/-- C21: the loop of `x_link_eexist_ok(p)` moves to a strictly smaller position in each
round, so it ends, and any bound on the number of rounds above `p.length + 1` gives the same
answer.  The answer is true exactly when `p = a ++ r` with `r` beginning at a `/` of `p` and
`L` holds a pair `(a, l)` with `l ++ r` in `D`.  When the `link` call of `x_link` fails with
error `e`, `x_link` returns success exactly when `e` is `EEXIST` and `x_link_eexist_ok(p)`
holds, and the failure value -1 otherwise. -/
theorem x_link_eexist_ok_spec (b : Build) (p : Str) :
    (∀ npos slash, npos ≠ 0 → strRfind p '/' (npos - 1) = some slash → slash < npos)
    ∧ (∀ fuel, p.length + 1 < fuel →
        x_link_eexist_ok_loop b p fuel (p.length + 1) = x_link_eexist_ok b p)
    ∧ (x_link_eexist_ok b p = true ↔
        ∃ a r l, p = a ++ r ∧ r.head? = some '/' ∧ (a, l) ∈ b.lnk_table ∧ l ++ r ∈ b.dst_table)
    ∧ (∀ (cfg : Config) (W : World) (oldpath : Str) (e : Nat), cfg.dryrun = false →
        W.run b.cmds (.link oldpath p) = some e →
          ((x_link cfg W oldpath p b).1 = true ↔ e = EEXIST ∧ x_link_eexist_ok b p = true)) := by
  refine ⟨fun npos slash hn h => strRfind_lt p '/' npos slash hn h, ?_, ?_, ?_⟩
  · intro fuel hf
    unfold x_link_eexist_ok
    apply Bool.eq_iff_iff.mpr
    rw [x_link_eexist_ok_loop_iff b p fuel _ hf, x_link_eexist_ok_loop_iff b p _ _ (by omega)]
  · unfold x_link_eexist_ok
    rw [x_link_eexist_ok_loop_iff b p _ _ (by omega)]
    constructor
    · rintro ⟨slash, _, hg, e, he, h1, h2⟩
      refine ⟨p.take slash, p.drop slash, e.2, ?_, ?_, ?_, h2⟩
      · simp
      · have hlen : slash < p.length := by
          by_contra hc
          rw [List.get?_eq_none.mpr (by omega)] at hg
          cases hg
        rw [List.drop_eq_getElem_cons hlen, List.head?_cons]
        rw [List.get?_eq_getElem?, List.getElem?_eq_getElem hlen] at hg
        exact hg
      · rw [← h1]
        exact he
    · rintro ⟨a, r, l, hp, hr, hl, hd⟩
      obtain ⟨hg, ha, hr1⟩ := (split_at_slash_iff p a r).mp ⟨hp, hr⟩
      have hlen : a.length < p.length := by
        by_contra hc
        rw [List.get?_eq_none.mpr (by omega)] at hg
        cases hg
      refine ⟨a.length, by omega, hg, (a, l), hl, ha, ?_⟩
      rw [← hr1]
      exact hd
  · intro cfg W oldpath e hdry hrun
    have hrun1 : W.run (b.say cfg (.link oldpath p)).cmds (.link oldpath p) = some e := by
      rw [say_cmds]
      exact hrun
    have hok : x_link_eexist_ok
        { b.say cfg (.link oldpath p) with
          cmds := (b.say cfg (.link oldpath p)).cmds ++ [.link oldpath p] } p
        = x_link_eexist_ok b p :=
      x_link_eexist_ok_tables b _ p (say_tables cfg _ b).1 (say_tables cfg _ b).2
    simp only [x_link, hdry, Bool.false_eq_true, if_false, Build.issue, hrun1, hok]
    by_cases he : e = EEXIST
    · subst he
      cases x_link_eexist_ok b p <;> simp
    · have : (e != EEXIST) = true := by simpa using he
      simp [this, he]

/-- C21 at work: `/jail/bin/sh` splits into `/jail/bin` and `/sh`, the pair of `/jail/bin`
and `/jail/usr/bin` is in `L` and `/jail/usr/bin/sh` is in `D`, so the test holds and a
`link` that fails with `EEXIST` is taken as done. -/
theorem x_link_eexist_ok_spec_witness :
    x_link_eexist_ok build_bin_link "/jail/bin/sh".data = true
    ∧ (x_link plain_config world_link_eexist "/usr/bin/sh".data "/jail/bin/sh".data
        build_bin_link).1 = true :=
  have h := x_link_eexist_ok_spec build_bin_link "/jail/bin/sh".data
  have h1 : x_link_eexist_ok build_bin_link "/jail/bin/sh".data = true :=
    h.2.2.1.mpr ⟨"/jail/bin".data, "/sh".data, "/jail/usr/bin".data,
      by decide, by decide, by decide, by decide⟩
  ⟨h1, (h.2.2.2 plain_config world_link_eexist "/usr/bin/sh".data EEXIST (by decide)
    (by decide)).mpr ⟨rfl, h1⟩⟩

end Execjail

namespace Execjail

/-! ## Regular files: direct link, link through the cache, or failure -/

theorem x_link_eq (cfg : Config) (W : World) (oldpath newpath : Str) (b : Build) :
    x_link cfg W oldpath newpath b
      = (cfg.dryrun || W.run b.cmds (.link oldpath newpath) == none
          || (W.run b.cmds (.link oldpath newpath) == some EEXIST
              && x_link_eexist_ok b newpath),
         if cfg.dryrun then b.say cfg (.link oldpath newpath)
         else (b.say cfg (.link oldpath newpath)).record (.link oldpath newpath)) := by
  have hr2 : x_link_eexist_ok
      ((b.say cfg (.link oldpath newpath)).issue W (.link oldpath newpath)).2 newpath
      = x_link_eexist_ok b newpath :=
    x_link_eexist_ok_tables b _ newpath (say_tables cfg _ b).1 (say_tables cfg _ b).2
  have hr1 : ((b.say cfg (.link oldpath newpath)).issue W (.link oldpath newpath)).1
      = W.run b.cmds (.link oldpath newpath) := by
    simp only [Build.issue, say_cmds]
  have hrec : ((b.say cfg (.link oldpath newpath)).issue W (.link oldpath newpath)).2
      = (b.say cfg (.link oldpath newpath)).record (.link oldpath newpath) := rfl
  unfold x_link
  cases hd : cfg.dryrun with
  | true => simp
  | false =>
    simp only [Bool.false_eq_true, if_false, Bool.false_or]
    rw [hr2, hr1, hrec]
    cases hr : W.run b.cmds (.link oldpath newpath) with
    | none => simp
    | some e =>
      simp only []
      by_cases he : e = EEXIST
      · subst he
        cases x_link_eexist_ok b newpath <;> simp
      · have : (e != EEXIST) = true := by simpa using he
        simp [this, he]

theorem cmds_xdev_superdirs (cfg : Config) (W : World) (lnk : Str) :
    ∀ (fuel start : Nat) (b : Build),
      ∃ dirs, (xdev_superdirs cfg W lnk fuel start b).2.cmds = b.cmds ++ dirs
        ∧ ∀ c ∈ dirs, ∃ k, c = Cmd.mkdir (lnk.take k) 0o770 := by
  intro fuel
  induction fuel with
  | zero => intro start b; exact ⟨[], by simp [xdev_superdirs], by simp⟩
  | succ fuel ih =>
    intro start b
    rw [xdev_superdirs]
    cases hf : strFind lnk '/' start with
    | none => exact ⟨[], by simp, by simp⟩
    | some p =>
      simp only [substr, List.drop_zero]
      by_cases hk : b.linkdir_dirtable.elem (lnk.take p) = true
      · rw [if_pos hk]
        exact ih _ _
      · rw [if_neg hk]
        cases hl : W.lstat (b.ask (.lstat (lnk.take p))).cmds (lnk.take p) with
        | error e =>
          simp only []
          by_cases he : (e != ENOENT) = true
          · rw [if_pos he]
            exact ⟨[], by simp [perror_fail, Build.ask], by simp⟩
          · rw [if_neg he]
            have hm : (x_mkdir cfg W (lnk.take p) 0o770 (b.ask (.lstat (lnk.take p)))).2.cmds
                  = b.cmds
                ∨ (x_mkdir cfg W (lnk.take p) 0o770 (b.ask (.lstat (lnk.take p)))).2.cmds
                  = b.cmds ++ [Cmd.mkdir (lnk.take p) 0o770] := by
              unfold x_mkdir
              simp only [say_cmds, Build.issue]
              split
              · left; simp [say_cmds, Build.ask]
              · right; simp [say_cmds, Build.ask]
            have key : ∀ b2 : Build,
                (b2.cmds = b.cmds ∨ b2.cmds = b.cmds ++ [Cmd.mkdir (lnk.take p) 0o770]) →
                ∃ dirs, (xdev_superdirs cfg W lnk fuel (p + 1) (b2.note_dir (lnk.take p))).2.cmds
                    = b.cmds ++ dirs
                  ∧ ∀ c ∈ dirs, ∃ k, c = Cmd.mkdir (lnk.take k) 0o770 := by
              intro b2 h2
              obtain ⟨dirs, e1, e2⟩ := ih (p + 1) (b2.note_dir (lnk.take p))
              have e3 : (b2.note_dir (lnk.take p)).cmds = b2.cmds := rfl
              rw [e3] at e1
              rcases h2 with h2 | h2
              · exact ⟨dirs, by rw [e1, h2], e2⟩
              · refine ⟨Cmd.mkdir (lnk.take p) 0o770 :: dirs, by rw [e1, h2]; simp, ?_⟩
                intro c hc
                rcases List.mem_cons.mp hc with h | h
                · exact ⟨p, h⟩
                · exact e2 c h
            cases hmk : (x_mkdir cfg W (lnk.take p) 0o770 (b.ask (.lstat (lnk.take p)))).1 with
            | none =>
              simp only []
              exact key _ hm
            | some e1 =>
              simp only []
              by_cases he1 : (e1 != EEXIST) = true
              · rw [if_pos he1]
                rcases hm with h | h
                · exact ⟨[], by simp [perror_fail, h], by simp⟩
                · refine ⟨[Cmd.mkdir (lnk.take p) 0o770], by simp [perror_fail, h], ?_⟩
                  intro c hc
                  exact ⟨p, List.mem_singleton.mp hc⟩
              · rw [if_neg he1]
                exact key _ hm
        | ok st =>
          simp only []
          by_cases hdir : (!S_ISDIR st.st_mode) = true
          · rw [if_pos hdir]
            exact ⟨[], by simp [perror_fail, Build.ask], by simp⟩
          · rw [if_neg hdir]
            obtain ⟨dirs, e1, e2⟩ := ih (p + 1) ((b.ask (.lstat (lnk.take p))).note_dir (lnk.take p))
            exact ⟨dirs, e1, e2⟩

/-- C16 (as amended): let `lstat` show the source of `handle_copy` to be a regular file (the
setting `copy_samedev` being clear, as it is in every run).  If the file is on the device of
the jail and `FLAG_CP` is clear, `link(src, dst)` is issued (in a dry run only written to
`verbosefile`) and the call returns 0 when the link is made or its failure is tolerated, and
1 with the message `link ...` otherwise.  Otherwise, if a link cache is set,
`handle_xdev_link` decides: when the cache holds an entry `linkdir + src` with the mode,
owner, group, size and mtime of the source, `link(linkdir + src, dst)` is issued; when the
entry is missing or differs (and is no directory), the cache directories are made,
`/bin/cp -p src linkdir+src` is run and then `link(linkdir + src, dst)` is issued.
Otherwise, with no link cache, nothing is copied: the call fails with the message
`link DST: ...`, `exit_value` becomes 1 and no filesystem-changing call is issued.  Without
parent fill-in, `handle_copy` on a new destination is this dispatch after the destination is
recorded. -/
theorem regular_file_dispatch (recurse : Str → Str → Bool → Nat → Build → Ret × Build)
    (cfg : Config) (W : World) (jaildev : Nat) (src dst : Str) (flags : Nat) (b : Build)
    (ss : Stat)
    (hstat : W.lstat (b.ask (.lstat src)).cmds src = .ok ss)
    (hreg : S_ISREG ss.st_mode = true) (hsame : cfg.copy_samedev = false) :
    (((flags &&& FLAG_CP) = 0 ∧ ss.st_dev = jaildev) →
        copy_body recurse cfg W jaildev src dst flags b
          = (if (x_link cfg W src dst (b.ask (.lstat src))).1 = true
             then (.done 0 (some ss.st_mode), (x_link cfg W src dst (b.ask (.lstat src))).2)
             else (.done 1 (some ss.st_mode),
                   perror_fail "link %s: %s\n" (dst ++ src)
                     (x_link cfg W src dst (b.ask (.lstat src))).2)))
    ∧ (¬ ((flags &&& FLAG_CP) = 0 ∧ ss.st_dev = jaildev) → cfg.linkdir ≠ [] →
        copy_body recurse cfg W jaildev src dst flags b
          = (if (handle_xdev_link cfg W src dst ss (b.ask (.lstat src))).1 = 0
             then (.done 0 (some ss.st_mode),
                   (handle_xdev_link cfg W src dst ss (b.ask (.lstat src))).2)
             else (.done 1 (some ss.st_mode),
                   perror_fail "link %s: %s\n" dst
                     (handle_xdev_link cfg W src dst ss (b.ask (.lstat src))).2)))
    ∧ (¬ ((flags &&& FLAG_CP) = 0 ∧ ss.st_dev = jaildev) → cfg.linkdir = [] →
        copy_body recurse cfg W jaildev src dst flags b
          = (.done 1 (some ss.st_mode), perror_fail "link %s: %s\n" dst (b.ask (.lstat src)))
        ∧ (copy_body recurse cfg W jaildev src dst flags b).2.cmds = b.cmds
        ∧ (copy_body recurse cfg W jaildev src dst flags b).2.exit_value = 1)
    ∧ (∀ fuel b0, dst ∉ b0.dst_table →
        handle_copy cfg W jaildev (fuel + 1) src dst false flags b0
          = copy_body (handle_copy cfg W jaildev fuel) cfg W jaildev src dst flags
              (b0.add_dst dst))
    ∧ (((flags &&& FLAG_CP) = 0 ∧ ss.st_dev = jaildev) →
        copy_body recurse cfg W jaildev src dst flags b
          = (if (cfg.dryrun || W.run b.cmds (.link src dst) == none
                  || (W.run b.cmds (.link src dst) == some EEXIST
                      && x_link_eexist_ok b dst)) = true
             then (.done 0 (some ss.st_mode),
                   if cfg.dryrun then (b.ask (.lstat src)).say cfg (.link src dst)
                   else ((b.ask (.lstat src)).say cfg (.link src dst)).record (.link src dst))
             else (.done 1 (some ss.st_mode),
                   perror_fail "link %s: %s\n" (dst ++ src)
                     (if cfg.dryrun then (b.ask (.lstat src)).say cfg (.link src dst)
                      else ((b.ask (.lstat src)).say cfg (.link src dst)).record
                        (.link src dst)))))
    ∧ (¬ ((flags &&& FLAG_CP) = 0 ∧ ss.st_dev = jaildev) → cfg.linkdir ≠ [] →
        ∀ lst, W.lstat b.cmds (cfg.linkdir ++ src) = .ok lst →
          lst.st_mode = ss.st_mode → lst.st_uid = ss.st_uid → lst.st_gid = ss.st_gid →
          lst.st_size = ss.st_size → lst.st_mtime = ss.st_mtime →
          copy_body recurse cfg W jaildev src dst flags b
            = (if (cfg.dryrun || W.run b.cmds (.link (cfg.linkdir ++ src) dst) == none
                    || (W.run b.cmds (.link (cfg.linkdir ++ src) dst) == some EEXIST
                        && x_link_eexist_ok b dst)) = true
               then (.done 0 (some ss.st_mode),
                     if cfg.dryrun
                     then ((b.ask (.lstat src)).ask (.lstat (cfg.linkdir ++ src))).say cfg
                       (.link (cfg.linkdir ++ src) dst)
                     else (((b.ask (.lstat src)).ask (.lstat (cfg.linkdir ++ src))).say cfg
                       (.link (cfg.linkdir ++ src) dst)).record
                         (.link (cfg.linkdir ++ src) dst))
               else (.done 1 (some ss.st_mode),
                     perror_fail "link %s: %s\n" dst
                       (perror_fail "link %s: %s\n" (dst ++ (cfg.linkdir ++ src))
                         (if cfg.dryrun
                          then ((b.ask (.lstat src)).ask (.lstat (cfg.linkdir ++ src))).say cfg
                            (.link (cfg.linkdir ++ src) dst)
                          else (((b.ask (.lstat src)).ask (.lstat (cfg.linkdir ++ src))).say
                            cfg (.link (cfg.linkdir ++ src) dst)).record
                              (.link (cfg.linkdir ++ src) dst))))))
    ∧ (¬ ((flags &&& FLAG_CP) = 0 ∧ ss.st_dev = jaildev) → cfg.linkdir ≠ [] →
        cfg.dryrun = false →
        (∀ lst, W.lstat b.cmds (cfg.linkdir ++ src) = .ok lst →
          S_ISDIR lst.st_mode = false
          ∧ ¬ (lst.st_mode = ss.st_mode ∧ lst.st_uid = ss.st_uid ∧ lst.st_gid = ss.st_gid
                ∧ lst.st_size = ss.st_size ∧ lst.st_mtime = ss.st_mtime)) →
        ∀ r, xdev_superdirs cfg W (cfg.linkdir ++ src) ((cfg.linkdir ++ src).length + 1)
              (xdev_start cfg.linkdir)
              ((b.ask (.lstat src)).ask (.lstat (cfg.linkdir ++ src))) = r →
          r.1 = true → W.cp_result r.2.cmds src (cfg.linkdir ++ src) = .exited_zero →
          (∃ dirs, r.2.cmds = b.cmds ++ dirs
              ∧ ∀ c ∈ dirs, ∃ k, c = Cmd.mkdir ((cfg.linkdir ++ src).take k) 0o770)
          ∧ copy_body recurse cfg W jaildev src dst flags b
            = (if (W.run (r.2.cmds ++ [.cp src (cfg.linkdir ++ src)])
                      (.link (cfg.linkdir ++ src) dst) == none
                    || (W.run (r.2.cmds ++ [.cp src (cfg.linkdir ++ src)])
                          (.link (cfg.linkdir ++ src) dst) == some EEXIST
                        && x_link_eexist_ok r.2 dst)) = true
               then (.done 0 (some ss.st_mode),
                     ((((r.2.say cfg (.cp src (cfg.linkdir ++ src))).record
                        (.cp src (cfg.linkdir ++ src))).say cfg
                          (.link (cfg.linkdir ++ src) dst)).record
                            (.link (cfg.linkdir ++ src) dst)))
               else (.done 1 (some ss.st_mode),
                     perror_fail "link %s: %s\n" dst
                       (perror_fail "link %s: %s\n" (dst ++ (cfg.linkdir ++ src))
                         ((((r.2.say cfg (.cp src (cfg.linkdir ++ src))).record
                            (.cp src (cfg.linkdir ++ src))).say cfg
                              (.link (cfg.linkdir ++ src) dst)).record
                                (.link (cfg.linkdir ++ src) dst)))))) := by
  have hdir := S_ISDIR_of_S_ISREG ss.st_mode hreg
  have hcond : ¬ ((flags &&& FLAG_CP) = 0 ∧ ss.st_dev = jaildev) →
      (S_ISREG ss.st_mode && !cfg.copy_samedev && (flags &&& FLAG_CP) == 0
        && ss.st_dev == jaildev) = false := by
    intro hn
    rw [Bool.and_eq_false_iff]
    by_cases hf : (flags &&& FLAG_CP) = 0
    · right
      simpa using fun hd => hn ⟨hf, hd⟩
    · left
      simp [hf]
  have hdirect : ((flags &&& FLAG_CP) = 0 ∧ ss.st_dev = jaildev) →
      copy_body recurse cfg W jaildev src dst flags b
        = (if (x_link cfg W src dst (b.ask (.lstat src))).1 = true
           then (.done 0 (some ss.st_mode), (x_link cfg W src dst (b.ask (.lstat src))).2)
           else (.done 1 (some ss.st_mode),
                 perror_fail "link %s: %s\n" (dst ++ src)
                   (x_link cfg W src dst (b.ask (.lstat src))).2)) := by
    rintro ⟨hf, hd⟩
    unfold copy_body
    simp only [hstat, hreg, hsame, hf, hd, copy_finish_same cfg W src dst ss _ hdir]
    cases (x_link cfg W src dst (b.ask (.lstat src))).1 <;> simp
  have hcache : ¬ ((flags &&& FLAG_CP) = 0 ∧ ss.st_dev = jaildev) → cfg.linkdir ≠ [] →
      copy_body recurse cfg W jaildev src dst flags b
        = (if (handle_xdev_link cfg W src dst ss (b.ask (.lstat src))).1 = 0
           then (.done 0 (some ss.st_mode),
                 (handle_xdev_link cfg W src dst ss (b.ask (.lstat src))).2)
           else (.done 1 (some ss.st_mode),
                 perror_fail "link %s: %s\n" dst
                   (handle_xdev_link cfg W src dst ss (b.ask (.lstat src))).2)) := by
    intro hn hl
    have hl2 : cfg.linkdir.isEmpty = false := by
      cases h : cfg.linkdir with
      | nil => exact absurd h hl
      | cons a t => rfl
    unfold copy_body
    simp only [hstat, hcond hn, Bool.false_eq_true, if_false]
    simp only [hreg, hl2, copy_finish_same cfg W src dst ss _ hdir]
    by_cases hx : (handle_xdev_link cfg W src dst ss (b.ask (.lstat src))).1 = 0
    · simp [hx]
    · simp [hx]
  refine ⟨hdirect, hcache, ?_,
    fun fuel b0 h => handle_copy_no_parents cfg W jaildev fuel src dst flags b0 h, ?_, ?_, ?_⟩
  · intro hn hl
    have hl2 : cfg.linkdir.isEmpty = true := by rw [hl]; rfl
    have heq : copy_body recurse cfg W jaildev src dst flags b
        = (.done 1 (some ss.st_mode), perror_fail "link %s: %s\n" dst (b.ask (.lstat src))) := by
      unfold copy_body
      simp only [hstat, hcond hn, Bool.false_eq_true, if_false]
      simp only [hreg, hl2]
      simp
    rw [heq]
    exact ⟨rfl, rfl, rfl⟩
  · intro hs
    rw [hdirect hs, x_link_eq]
    have hc : (b.ask (.lstat src)).cmds = b.cmds := rfl
    have ht : x_link_eexist_ok (b.ask (.lstat src)) dst = x_link_eexist_ok b dst :=
      x_link_eexist_ok_tables b _ dst rfl rfl
    rw [hc, ht]
  · intro hn hl lst hlst h1 h2 h3 h4 h5
    rw [hcache hn hl]
    have hx : handle_xdev_link cfg W src dst ss (b.ask (.lstat src))
        = (if (x_link cfg W (cfg.linkdir ++ src) dst
                ((b.ask (.lstat src)).ask (.lstat (cfg.linkdir ++ src)))).1 = true
           then (0, (x_link cfg W (cfg.linkdir ++ src) dst
                ((b.ask (.lstat src)).ask (.lstat (cfg.linkdir ++ src)))).2)
           else (1, perror_fail "link %s: %s\n" (dst ++ (cfg.linkdir ++ src))
                (x_link cfg W (cfg.linkdir ++ src) dst
                  ((b.ask (.lstat src)).ask (.lstat (cfg.linkdir ++ src)))).2)) := by
      have hlst2 : W.lstat ((b.ask (.lstat src)).ask (.lstat (cfg.linkdir ++ src))).cmds
          (cfg.linkdir ++ src) = .ok lst := hlst
      unfold handle_xdev_link
      simp only [hlst2, h1, h2, h3, h4, h5, bne_self_eq_false, Bool.or_self, Bool.false_and,
        Bool.false_eq_true, if_false]
      cases (x_link cfg W (cfg.linkdir ++ src) dst
        ((b.ask (.lstat src)).ask (.lstat (cfg.linkdir ++ src)))).1 <;> simp
    rw [hx, x_link_eq]
    have hc : ((b.ask (.lstat src)).ask (.lstat (cfg.linkdir ++ src))).cmds = b.cmds := rfl
    have ht : x_link_eexist_ok ((b.ask (.lstat src)).ask (.lstat (cfg.linkdir ++ src))) dst
        = x_link_eexist_ok b dst := x_link_eexist_ok_tables b _ dst rfl rfl
    rw [hc, ht]
    simp only []
    split <;> simp
  · intro hn hl hdry hstale r hr hr1 hcp
    refine ⟨?_, ?_⟩
    · obtain ⟨dirs, e1, e2⟩ := cmds_xdev_superdirs cfg W (cfg.linkdir ++ src)
        ((cfg.linkdir ++ src).length + 1) (xdev_start cfg.linkdir)
        ((b.ask (.lstat src)).ask (.lstat (cfg.linkdir ++ src)))
      rw [hr] at e1
      exact ⟨dirs, e1, e2⟩
    · rw [hcache hn hl]
      have hcopy : copy_for_xdev_link cfg W src (cfg.linkdir ++ src)
            ((b.ask (.lstat src)).ask (.lstat (cfg.linkdir ++ src)))
          = (0, (r.2.say cfg (.cp src (cfg.linkdir ++ src))).record
                  (.cp src (cfg.linkdir ++ src))) := by
        unfold copy_for_xdev_link
        simp only [hr, hr1, hdry, say_cmds, hcp, Bool.not_true, Bool.false_eq_true, if_false]
      have hx : handle_xdev_link cfg W src dst ss (b.ask (.lstat src))
          = (if (x_link cfg W (cfg.linkdir ++ src) dst
                  ((r.2.say cfg (.cp src (cfg.linkdir ++ src))).record
                    (.cp src (cfg.linkdir ++ src)))).1 = true
             then (0, (x_link cfg W (cfg.linkdir ++ src) dst
                  ((r.2.say cfg (.cp src (cfg.linkdir ++ src))).record
                    (.cp src (cfg.linkdir ++ src)))).2)
             else (1, perror_fail "link %s: %s\n" (dst ++ (cfg.linkdir ++ src))
                  (x_link cfg W (cfg.linkdir ++ src) dst
                    ((r.2.say cfg (.cp src (cfg.linkdir ++ src))).record
                      (.cp src (cfg.linkdir ++ src)))).2)) := by
        unfold handle_xdev_link
        simp only []
        cases hlst : W.lstat ((b.ask (.lstat src)).ask (.lstat (cfg.linkdir ++ src))).cmds
            (cfg.linkdir ++ src) with
        | error e =>
          simp only [Bool.true_and, Bool.false_eq_true, if_false, if_true, hcopy,
            bne_self_eq_false]
          cases (x_link cfg W (cfg.linkdir ++ src) dst
            ((r.2.say cfg (.cp src (cfg.linkdir ++ src))).record
              (.cp src (cfg.linkdir ++ src)))).1 <;> simp
        | ok lst =>
          obtain ⟨hnd, hdiff⟩ := hstale lst hlst
          have hst : (lst.st_mode != ss.st_mode || lst.st_uid != ss.st_uid
              || lst.st_gid != ss.st_gid || lst.st_size != ss.st_size
              || lst.st_mtime != ss.st_mtime) = true := by
            by_contra hc
            apply hdiff
            simp only [Bool.or_eq_true, bne_iff_ne, ne_eq, not_or, not_not] at hc
            exact ⟨hc.1.1.1.1, hc.1.1.1.2, hc.1.1.2, hc.1.2, hc.2⟩
          simp only [hst, hnd, Bool.and_false, Bool.false_eq_true, if_false, if_true, hcopy,
            bne_self_eq_false]
          cases (x_link cfg W (cfg.linkdir ++ src) dst
            ((r.2.say cfg (.cp src (cfg.linkdir ++ src))).record
              (.cp src (cfg.linkdir ++ src)))).1 <;> simp
      rw [hx, x_link_eq]
      have hc : ((r.2.say cfg (.cp src (cfg.linkdir ++ src))).record
          (.cp src (cfg.linkdir ++ src))).cmds = r.2.cmds ++ [.cp src (cfg.linkdir ++ src)] := by
        simp only [Build.record, say_cmds]
      have ht : x_link_eexist_ok ((r.2.say cfg (.cp src (cfg.linkdir ++ src))).record
          (.cp src (cfg.linkdir ++ src))) dst = x_link_eexist_ok r.2 dst :=
        x_link_eexist_ok_tables r.2 _ dst (say_tables cfg _ r.2).1 (say_tables cfg _ r.2).2
      rw [hc, ht, hdry]
      simp only [Bool.false_or, Bool.false_eq_true, if_false]
      split <;> simp

/-- C16 on the regular file `/usr/f` of device 1.  Into a jail on device 1 it is hard-linked
directly.  Into a jail on device 2 with the link cache `/cache`, the directories `/cache` and
`/cache/usr` are made, `/bin/cp -p` fills the cache and the cache entry is hard-linked.
Into a jail on device 2 with no link cache the call fails and issues nothing. -/
theorem regular_file_dispatch_witness :
    copy_body (handle_copy plain_config world_usr_f 1 3) plain_config world_usr_f 1 "/usr/f".data
        "/srv/jail/usr/f".data 0 (Build.init.add_dst "/srv/jail/usr/f".data)
      = (.done 0 (some (stat_of S_IFREG 1).st_mode),
         { Build.init with
             dst_table := ["/srv/jail/usr/f".data]
             queries := [.lstat "/usr/f".data]
             cmds := [.link "/usr/f".data "/srv/jail/usr/f".data] })
    ∧ copy_body (handle_copy cache_config world_usr_f 2 3) cache_config world_usr_f 2
        "/usr/f".data "/srv/jail/usr/f".data 0 (Build.init.add_dst "/srv/jail/usr/f".data)
      = (.done 0 (some (stat_of S_IFREG 1).st_mode),
         { Build.init with
             dst_table := ["/srv/jail/usr/f".data]
             linkdir_dirtable := ["/cache".data, "/cache/usr".data]
             queries := [.lstat "/usr/f".data, .lstat "/cache/usr/f".data,
               .lstat "/cache".data, .lstat "/cache/usr".data]
             cmds := [.mkdir "/cache".data 0o770, .mkdir "/cache/usr".data 0o770,
               .cp "/usr/f".data "/cache/usr/f".data,
               .link "/cache/usr/f".data "/srv/jail/usr/f".data] })
    ∧ copy_body (handle_copy plain_config world_usr_f 2 3) plain_config world_usr_f 2
        "/usr/f".data "/srv/jail/usr/f".data 0 (Build.init.add_dst "/srv/jail/usr/f".data)
      = (.done 1 (some (stat_of S_IFREG 1).st_mode),
         perror_fail "link %s: %s\n" "/srv/jail/usr/f".data
           ((Build.init.add_dst "/srv/jail/usr/f".data).ask (.lstat "/usr/f".data))) :=
  ⟨((regular_file_dispatch (handle_copy plain_config world_usr_f 1 3) plain_config world_usr_f
      1 "/usr/f".data "/srv/jail/usr/f".data 0 (Build.init.add_dst "/srv/jail/usr/f".data)
      (stat_of S_IFREG 1) (by decide) (by decide) (by decide)).2.2.2.2.1
      (by decide)).trans (by decide),
   (((regular_file_dispatch (handle_copy cache_config world_usr_f 2 3) cache_config world_usr_f
      2 "/usr/f".data "/srv/jail/usr/f".data 0 (Build.init.add_dst "/srv/jail/usr/f".data)
      (stat_of S_IFREG 1) (by decide) (by decide) (by decide)).2.2.2.2.2.2
      (by decide) (by decide) (by decide)
      (fun lst h => by
        have e : world_usr_f.lstat (Build.init.add_dst "/srv/jail/usr/f".data).cmds
            (cache_config.linkdir ++ "/usr/f".data) = .error ENOENT := by decide
        rw [e] at h
        cases h)
      _ rfl (by decide) (by decide)).2).trans (by decide),
   ((regular_file_dispatch (handle_copy plain_config world_usr_f 2 3) plain_config world_usr_f
      2 "/usr/f".data "/srv/jail/usr/f".data 0 (Build.init.add_dst "/srv/jail/usr/f".data)
      (stat_of S_IFREG 1) (by decide) (by decide) (by decide)).2.2.1 (by decide)
      (by decide)).1⟩

/-- C16 as stated fails for the regular file `/usr/f` of device 1 and a jail on device 2 with no
link cache: `handle_copy` returns 1 with the message `link /srv/jail/usr/f: ...`, sets
`exit_value`, and neither spawns `/bin/cp` nor issues any other call. -/
theorem xdev_without_cache_fails :
    handle_copy plain_config world_usr_f 2 4 "/usr/f".data "/srv/jail/usr/f".data false 0
        Build.init
      = (.done 1 (some (S_IFREG ||| 0o644)),
         { Build.init with
             dst_table := ["/srv/jail/usr/f".data]
             queries := [.lstat "/usr/f".data]
             errors := [("link %s: %s\n", "/srv/jail/usr/f".data)]
             exit_value := 1 })
    ∧ (handle_copy plain_config world_usr_f 2 4 "/usr/f".data "/srv/jail/usr/f".data false 0
        Build.init).2.cmds = [] := by
  refine ⟨by decide, by decide⟩

end Execjail

namespace Execjail

/-! ## Mount options -/

theorem token_string_tokens (s : Str) : token_string (option_tokens s) = s ++ [','] := by
  unfold option_tokens
  induction s with
  | nil => rfl
  | cons c cs ih =>
    by_cases hc : (c == ',') = true
    · have e : c = ',' := by simpa using hc
      subst e
      simp only [splitBy, beq_self_eq_true, if_true, token_string, List.nil_append, ih,
        List.cons_append]
    · cases h : splitBy (fun c => c == ',') cs with
      | nil => exact absurd h (splitBy_ne_nil _ cs)
      | cons w ws =>
        rw [h] at ih
        simp only [splitBy, hc, if_false, h]
        simp only [token_string, List.cons_append] at ih ⊢
        rw [ih]

theorem splitBy_piece_free (p : Char → Bool) : ∀ (s : Str), ∀ t ∈ splitBy p s, ∀ c ∈ t,
    p c = false := by
  intro s
  induction s with
  | nil =>
    intro t ht c hc
    simp only [splitBy, List.mem_singleton] at ht
    subst ht
    cases hc
  | cons a cs ih =>
    intro t ht c hc
    by_cases ha : p a = true
    · simp only [splitBy, ha, if_true, List.mem_cons] at ht
      rcases ht with h | h
      · subst h; cases hc
      · exact ih t h c hc
    · cases h : splitBy p cs with
      | nil => exact absurd h (splitBy_ne_nil _ cs)
      | cons w ws =>
        simp only [splitBy, ha, Bool.false_eq_true, if_false, h, List.mem_cons] at ht
        rcases ht with e | e
        · subst e
          rcases List.mem_cons.mp hc with e1 | e1
          · rw [e1]; simpa using ha
          · exact ih w (by rw [h]; exact List.mem_cons_self _ _) c e1
        · exact ih t (by rw [h]; exact List.mem_cons_of_mem _ e) c hc

theorem option_tokens_free (s : Str) : ∀ t ∈ option_tokens s, ∀ c ∈ t, c ≠ ',' := by
  intro t ht c hc
  have := splitBy_piece_free (fun c => c == ',') s t ht c hc
  simpa using this

theorem token_prefix_iff (Z : Str) : ∀ (name t : Str), (∀ c ∈ name, c ≠ ',') →
    (∀ c ∈ t, c ≠ ',') →
    ((name ++ [',']).isPrefixOf (t ++ ',' :: Z) = true ↔ t = name) := by
  intro name
  induction name with
  | nil =>
    intro t _ ht
    cases t with
    | nil => simp [List.isPrefixOf]
    | cons c t1 =>
      have hc : c ≠ ',' := ht c (List.mem_cons_self _ _)
      have hc1 : (',' == c) = false := by
        apply beq_eq_false_iff_ne.mpr
        exact fun e => hc e.symm
      simp [List.isPrefixOf, hc1]
  | cons a n ih =>
    intro t hn ht
    cases t with
    | nil =>
      have ha : a ≠ ',' := hn a (List.mem_cons_self _ _)
      have ha1 : (a == ',') = false := beq_eq_false_iff_ne.mpr ha
      simp [List.isPrefixOf, ha1]
    | cons c t1 =>
      have := ih t1 (fun x hx => hn x (List.mem_cons_of_mem _ hx))
        (fun x hx => ht x (List.mem_cons_of_mem _ hx))
      show ((a == c) && (n ++ [',']).isPrefixOf (t1 ++ ',' :: Z)) = true ↔ _
      rw [Bool.and_eq_true, beq_iff_eq, this]
      constructor
      · rintro ⟨rfl, rfl⟩; rfl
      · intro e
        injection e with e1 e2
        exact ⟨e1.symm, e2⟩

theorem strstr_skip_token (name Z : Str) : ∀ (t : Str), (∀ c ∈ t, c ≠ ',') →
    strstr (t ++ ',' :: Z) (',' :: name ++ [','])
      = (strstr (',' :: Z) (',' :: name ++ [','])).map (fun k => k + t.length) := by
  intro t
  induction t with
  | nil =>
    intro _
    show strstr (',' :: Z) (',' :: name ++ [',']) = _
    cases strstr (',' :: Z) (',' :: name ++ [',']) <;> rfl
  | cons c t1 ih =>
    intro ht
    have hc : c ≠ ',' := ht c (List.mem_cons_self _ _)
    have hc1 : (',' == c) = false := by
      apply beq_eq_false_iff_ne.mpr
      exact fun e => hc e.symm
    rw [List.cons_append, strstr]
    simp only [List.cons_append, List.isPrefixOf, hc1, Bool.false_and, Bool.false_eq_true,
      if_false]
    have := ih (fun x hx => ht x (List.mem_cons_of_mem _ hx))
    simp only [List.cons_append] at this
    rw [this]
    cases strstr (',' :: Z) (',' :: (name ++ [','])) <;> simp [Nat.add_assoc]

theorem strstr_token (name t Z : Str) (hn : ∀ c ∈ name, c ≠ ',') (ht : ∀ c ∈ t, c ≠ ',') :
    strstr (',' :: (t ++ ',' :: Z)) (',' :: name ++ [','])
      = if t = name then some 0
        else (strstr (',' :: Z) (',' :: name ++ [','])).map (fun k => k + (t.length + 1)) := by
  rw [strstr]
  have hp := token_prefix_iff Z name t hn ht
  by_cases e : t = name
  · rw [if_pos e]
    have : (',' :: name ++ [',']).isPrefixOf (',' :: (t ++ ',' :: Z)) = true := by
      simp only [List.cons_append, List.isPrefixOf, beq_self_eq_true, Bool.true_and]
      exact hp.mpr e
    rw [if_pos this]
  · rw [if_neg e]
    have : ¬ (',' :: name ++ [',']).isPrefixOf (',' :: (t ++ ',' :: Z)) = true := by
      simp only [List.cons_append, List.isPrefixOf, beq_self_eq_true, Bool.true_and]
      exact fun h => e (hp.mp h)
    rw [if_neg this, strstr_skip_token name Z t ht]
    cases strstr (',' :: Z) (',' :: name ++ [',']) <;> simp [Nat.add_assoc]

theorem strstr_tokens (name : Str) (hn : ∀ c ∈ name, c ≠ ',') : ∀ (ts : List Str),
    (∀ t ∈ ts, ∀ c ∈ t, c ≠ ',') →
    strstr (',' :: token_string ts) (',' :: name ++ [','])
      = if name ∈ ts then some (token_string (ts.takeWhile (fun t => t != name))).length
        else none := by
  intro ts
  induction ts with
  | nil =>
    intro _
    simp only [token_string, List.not_mem_nil, if_false]
    rw [strstr]
    have h1 : (',' :: name ++ [',']).isPrefixOf [','] = false := by
      cases name <;> simp [List.isPrefixOf]
    rw [h1]
    simp only [Bool.false_eq_true, if_false, strstr, List.cons_append, List.isPrefixOf,
      Option.map_none']
  | cons t rest ih =>
    intro hts
    have ht := hts t (List.mem_cons_self _ _)
    have ih1 := ih (fun x hx => hts x (List.mem_cons_of_mem _ hx))
    rw [token_string, strstr_token name t _ hn ht]
    by_cases e : t = name
    · subst e
      simp [token_string]
    · rw [if_neg e, ih1]
      have e1 : (t != name) = true := by simpa using e
      have e2 : (name ∈ t :: rest) ↔ name ∈ rest := by
        simp only [List.mem_cons]
        constructor
        · rintro (h | h)
          · exact absurd h.symm e
          · exact h
        · exact Or.inr
      by_cases hm : name ∈ rest
      · rw [if_pos hm, if_pos (e2.mpr hm)]
        simp only [Option.map_some', List.takeWhile_cons, e1, if_true, token_string,
          List.length_append, List.length_cons, Option.some.injEq]
        omega
      · rw [if_neg hm, if_neg (fun h => hm (e2.mp h))]
        rfl

theorem cut_token (name : Str) : ∀ (ts : List Str), name ∈ ts →
    (',' :: token_string ts).take (token_string (ts.takeWhile (fun t => t != name))).length
        ++ (',' :: token_string ts).drop
            ((token_string (ts.takeWhile (fun t => t != name))).length + name.length + 1)
      = ',' :: token_string (ts.erase name) := by
  intro ts
  induction ts with
  | nil => intro h; cases h
  | cons t rest ih =>
    intro hm
    by_cases e : t = name
    · subst e
      have e1 : (t != t) = false := by simp
      simp only [List.takeWhile_cons, e1, Bool.false_eq_true, if_false, token_string,
        List.length_nil, List.take_zero, List.nil_append, Nat.zero_add, List.erase_cons_head]
      rw [List.drop_succ_cons, List.drop_left]
    · have e1 : (t != name) = true := by simpa using e
      have hm1 : name ∈ rest := by
        rcases List.mem_cons.mp hm with h | h
        · exact absurd h.symm e
        · exact h
      have ih1 := ih hm1
      have e3 : (t :: rest).erase name = t :: rest.erase name := by
        rw [List.erase_cons_tail]
        simpa using e
      generalize hk : (token_string (rest.takeWhile (fun t => t != name))).length = k at ih1
      have e4 : (token_string ((t :: rest).takeWhile (fun t => t != name))).length
          = (',' :: t).length + k := by
        simp only [List.takeWhile_cons, e1, if_true, token_string, List.length_append,
          List.length_cons, hk]
        omega
      have e5 : ',' :: token_string (t :: rest) = (',' :: t) ++ (',' :: token_string rest) := by
        simp [token_string]
      rw [e3, e4, e5, List.take_append, Nat.add_assoc, Nat.add_assoc, List.drop_append,
        ← Nat.add_assoc, List.append_assoc, ih1]
      simp [token_string]

theorem mountarg_step_tokens (name : Str) (v : Nat) (hn : ∀ c ∈ name, c ≠ ',')
    (ts : List Str) (hts : ∀ t ∈ ts, ∀ c ∈ t, c ≠ ',') (acc : Nat) :
    mountarg_step (acc, ',' :: token_string ts) (',' :: name ++ [','], v)
      = (if ts.elem name then acc ||| v else acc, ',' :: token_string (ts.erase name)) := by
  unfold mountarg_step
  simp only []
  rw [strstr_tokens name hn ts hts, List.elem_eq_mem]
  by_cases hm : name ∈ ts
  · rw [if_pos hm]
    simp only [hm, decide_True, if_true]
    congr 1
    have hl : (',' :: name ++ [',']).length - 1 = name.length + 1 := by simp
    rw [Nat.add_sub_assoc (by simp), hl, ← Nat.add_assoc]
    exact cut_token name ts hm
  · rw [if_neg hm]
    simp only [hm, decide_False, Bool.false_eq_true, if_false]
    rw [List.erase_of_not_mem hm]

theorem foldl_flags_congr (ts ts1 : List Str) : ∀ (args : List (Str × Nat)) (acc : Nat),
    (∀ o ∈ args, ts1.elem o.1 = ts.elem o.1) →
    args.foldl (fun a o => if ts1.elem o.1 then a ||| o.2 else a) acc
      = args.foldl (fun a o => if ts.elem o.1 then a ||| o.2 else a) acc := by
  intro args
  induction args with
  | nil => intro acc _; rfl
  | cons o rest ih =>
    intro acc h
    simp only [List.foldl_cons]
    rw [h o (List.mem_cons_self _ _)]
    exact ih _ (fun x hx => h x (List.mem_cons_of_mem _ hx))

theorem mountargs_fold : ∀ (args : List (Str × Nat)), (∀ o ∈ args, ∀ c ∈ o.1, c ≠ ',') →
    (args.map Prod.fst).Nodup →
    ∀ (ts : List Str) (acc : Nat), (∀ t ∈ ts, ∀ c ∈ t, c ≠ ',') →
      (args.map (fun o => (',' :: o.1 ++ [','], o.2))).foldl mountarg_step
          (acc, ',' :: token_string ts)
        = (args.foldl (fun a o => if ts.elem o.1 then a ||| o.2 else a) acc,
           ',' :: token_string ((args.map Prod.fst).foldl List.erase ts)) := by
  intro args
  induction args with
  | nil => intro _ _ ts acc _; rfl
  | cons o rest ih =>
    intro hfree hnd ts acc hts
    simp only [List.map_cons, List.nodup_cons] at hnd
    simp only [List.map_cons, List.foldl_cons]
    rw [mountarg_step_tokens o.1 o.2 (hfree o (List.mem_cons_self _ _)) ts hts acc]
    rw [ih (fun x hx => hfree x (List.mem_cons_of_mem _ hx)) hnd.2 (ts.erase o.1) _
      (fun t ht => hts t (List.mem_of_mem_erase ht))]
    congr 1
    apply foldl_flags_congr
    intro x hx
    have hne : x.1 ≠ o.1 := by
      intro e
      exact hnd.1 (by rw [← e]; exact List.mem_map_of_mem _ hx)
    rw [List.elem_eq_mem, List.elem_eq_mem]
    congr 1
    exact propext (List.mem_erase_of_ne hne)

theorem token_string_eq_join : ∀ (ts : List Str), ts ≠ [] →
    token_string ts = join_commas ts ++ [','] := by
  intro ts
  induction ts with
  | nil => intro h; exact absurd rfl h
  | cons t rest ih =>
    intro _
    cases rest with
    | nil => simp [token_string, join_commas]
    | cons a r =>
      have e1 : join_commas (t :: a :: r) = t ++ ',' :: join_commas (a :: r) := rfl
      rw [e1, token_string, ih (by simp)]
      simp

theorem rdropWhile_token_string (ts : List Str) :
    (token_string ts).rdropWhile (fun x => x == ',')
      = (join_commas ts).rdropWhile (fun x => x == ',') := by
  cases ts with
  | nil => rfl
  | cons t rest =>
    rw [token_string_eq_join _ (by simp)]
    exact List.rdropWhile_concat_pos _ _ _ (by simp)

theorem join_commas_last : ∀ (ts : List Str), ts ≠ [] → (∀ t ∈ ts, t ≠ []) →
    (∀ t ∈ ts, ∀ c ∈ t, c ≠ ',') → ∃ l c, join_commas ts = l ++ [c] ∧ c ≠ ',' := by
  intro ts
  induction ts with
  | nil => intro h; exact absurd rfl h
  | cons t rest ih =>
    intro _ hne hfree
    cases rest with
    | nil =>
      rcases List.eq_nil_or_concat t with e | ⟨l, c, e⟩
      · exact absurd e (hne t (List.mem_cons_self _ _))
      · refine ⟨l, c, ?_, ?_⟩
        · rw [join_commas, e, List.concat_eq_append]
        · apply hfree t (List.mem_cons_self _ _) c
          rw [e]
          simp
    | cons a r =>
      obtain ⟨l, c, e, hc⟩ := ih (by simp) (fun x hx => hne x (List.mem_cons_of_mem _ hx))
        (fun x hx => hfree x (List.mem_cons_of_mem _ hx))
      refine ⟨t ++ ',' :: l, c, ?_, hc⟩
      have e1 : join_commas (t :: a :: r) = t ++ ',' :: join_commas (a :: r) := rfl
      rw [e1, e]
      simp

theorem rdropWhile_join_commas (ts : List Str) (hne : ∀ t ∈ ts, t ≠ [])
    (hfree : ∀ t ∈ ts, ∀ c ∈ t, c ≠ ',') :
    (join_commas ts).rdropWhile (fun x => x == ',') = join_commas ts := by
  cases ts with
  | nil => rfl
  | cons t rest =>
    obtain ⟨l, c, e, hc⟩ := join_commas_last (t :: rest) (by simp) hne hfree
    rw [e]
    exact List.rdropWhile_concat_neg _ _ _ (by simpa using hc)

theorem erase_eq_filter_of_count (n : Str) : ∀ (ts : List Str), ts.count n ≤ 1 →
    ts.erase n = ts.filter (fun t => t != n) := by
  intro ts
  induction ts with
  | nil => intro _; rfl
  | cons a r ih =>
    intro h
    by_cases e : a = n
    · subst e
      have h0 : r.count a = 0 := by
        rw [List.count_cons_self] at h
        omega
      have hnm : a ∉ r := List.count_eq_zero.mp h0
      have e1 : (a != a) = false := by simp
      rw [List.erase_cons_head, List.filter_cons, e1]
      simp only [Bool.false_eq_true, if_false]
      symm
      apply List.filter_eq_self.mpr
      intro x hx
      have : x ≠ a := fun e => hnm (e ▸ hx)
      simpa using this
    · have e1 : (a != n) = true := by simpa using e
      have hc : r.count n ≤ 1 := by
        rw [List.count_cons_of_ne (fun h => e h.symm)] at h
        exact h
      rw [List.erase_cons_tail (by simpa using e), List.filter_cons, e1, if_pos rfl, ih hc]

theorem residual_eq_filter : ∀ (names : List Str) (ts : List Str),
    (∀ n ∈ names, ts.count n ≤ 1) →
    names.foldl List.erase ts = ts.filter (fun t => !names.elem t) := by
  intro names
  induction names with
  | nil =>
    intro ts _
    simp
  | cons n ns ih =>
    intro ts h
    rw [List.foldl_cons, ih (ts.erase n) (fun x hx =>
      Nat.le_trans ((List.erase_sublist n ts).count_le x) (h x (List.mem_cons_of_mem _ hx))),
      erase_eq_filter_of_count n ts (h n (List.mem_cons_self _ _)), List.filter_filter]
    apply List.filter_congr
    intro x _
    simp only [List.elem_eq_mem, List.mem_cons, bne_iff_ne, ne_eq, Bool.decide_or]
    by_cases e : x = n
    · simp [e]
    · simp [e]

end Execjail

namespace Execjail

theorem parse_mount_options_eq (s : Str) (hfit : s.length + 2 < BUFSIZ) :
    parse_mount_options s
      = (option_flags (option_tokens s),
         (join_commas (residual_tokens (option_tokens s))).rdropWhile (fun x => x == ',')) := by
  unfold parse_mount_options
  have e1 : ((',' :: s) ++ [',']).take (BUFSIZ - 1) = ',' :: token_string (option_tokens s) := by
    rw [token_string_tokens, List.take_of_length_le]
    · rfl
    · simp only [List.cons_append, List.length_cons, List.length_append, List.length_nil]
      omega
  have e2 : mountargs = recognized_options.map (fun o => (',' :: o.1 ++ [','], o.2)) := by
    decide
  simp only []
  rw [e1, e2, mountargs_fold recognized_options (by decide) (by decide) _ 0
    (option_tokens_free s)]
  simp only [strip_commas, List.drop_succ_cons, List.drop_zero]
  rw [rdropWhile_token_string]
  rfl

theorem map_find_insert {α : Type} (k : Str) (v : α) : ∀ (t : List (Str × α)),
    map_find k (map_insert k v t) = some v := by
  intro t
  induction t with
  | nil => simp [map_insert, map_find]
  | cons x rest ih =>
    obtain ⟨k1, v1⟩ := x
    rw [map_insert]
    by_cases c1 : strLt k k1 = true
    · rw [if_pos c1]
      simp [map_find]
    · rw [if_neg c1]
      by_cases c2 : (k == k1) = true
      · rw [if_pos c2]
        simp [map_find]
      · rw [if_neg c2, map_find, if_neg c2]
        exact ih

/-- C22 (as amended): for an entry of `/proc/mounts` whose option string fits the parse
buffer, with the tokens being the pieces between the commas, `populate_mount_table` stores a
slot whose flag word is the bitwise OR of the flag values of the recognized options that
occur as tokens, and whose `data` is the tokens left after the first occurrence of each
recognized option is taken out, in their original order, joined by commas, with trailing
commas dropped.  When no recognized option occurs more than once and no token is empty,
`data` is exactly the tokens that are not recognized options, in their original order,
joined by commas. -/
theorem mount_options_spec (me : mntent) (hfit : me.mnt_opts.length + 2 < BUFSIZ) :
    (mountslot_of me).opts = option_flags (option_tokens me.mnt_opts)
    ∧ (mountslot_of me).data
        = (join_commas (residual_tokens (option_tokens me.mnt_opts))).rdropWhile
            (fun x => x == ',')
    ∧ ((∀ o ∈ recognized_options, (option_tokens me.mnt_opts).count o.1 ≤ 1) →
        (∀ t ∈ option_tokens me.mnt_opts, t ≠ []) →
        (mountslot_of me).data = option_data (option_tokens me.mnt_opts))
    ∧ (∀ (W : World) (b : Build) (earlier : List mntent),
        W.mounts b.cmds = some (earlier ++ [me]) →
        map_find me.mnt_dir (populate_mount_table W b).2.mount_table
          = some (mountslot_of me)) := by
  have h := parse_mount_options_eq me.mnt_opts hfit
  have h1 : (mountslot_of me).opts = (parse_mount_options me.mnt_opts).1 := by
    simp only [mountslot_of]
  have h2 : (mountslot_of me).data = (parse_mount_options me.mnt_opts).2 := by
    simp only [mountslot_of]
  rw [h1, h2, h]
  refine ⟨rfl, rfl, ?_, ?_⟩
  · intro hcount hne
    have hres : residual_tokens (option_tokens me.mnt_opts)
        = (option_tokens me.mnt_opts).filter (fun t => !is_recognized t) := by
      unfold residual_tokens
      rw [residual_eq_filter]
      · rfl
      · intro n hn
        obtain ⟨o, ho, rfl⟩ := List.mem_map.mp hn
        exact hcount o ho
    simp only []
    rw [hres]
    unfold option_data
    apply rdropWhile_join_commas
    · intro t ht
      exact hne t (List.mem_of_mem_filter ht)
    · intro t ht
      exact option_tokens_free me.mnt_opts t (List.mem_of_mem_filter ht)
  · intro W b earlier hm
    unfold populate_mount_table
    rw [hm]
    simp only [List.foldl_append, List.foldl_cons, List.foldl_nil]
    exact map_find_insert _ _ _

/-- C22 on a typical entry: `rw,nosuid,nodev,noexec,relatime,size=1024k,mode=755` gives the
flags of `nosuid`, `nodev`, `noexec` and `relatime` and the data `size=1024k,mode=755`. -/
theorem mount_options_spec_witness :
    (mountslot_of (tmpfs_entry "rw,nosuid,nodev,noexec,relatime,size=1024k,mode=755".data)).opts
      = MS_NOSUID ||| MS_NODEV ||| MS_NOEXEC ||| MS_RELATIME
    ∧ (mountslot_of
        (tmpfs_entry "rw,nosuid,nodev,noexec,relatime,size=1024k,mode=755".data)).data
      = "size=1024k,mode=755".data :=
  have h := mount_options_spec
    (tmpfs_entry "rw,nosuid,nodev,noexec,relatime,size=1024k,mode=755".data) (by decide)
  ⟨h.1.trans (by decide), (h.2.2.1 (by decide) (by decide)).trans (by decide)⟩

/-- C22 as stated fails: in `ro,ro` both tokens are the recognized option `ro`, so the data
of the claim is empty, but only the first `ro` is cut out of the buffer and the slot gets
the data `ro`.  In `mode=755,` the last token is empty and not recognized, so the data of
the claim is `mode=755,`, but the loop that strips the buffer drops every trailing comma
and the slot gets `mode=755`. -/
theorem repeated_option_stays_in_data :
    "ro,ro".data.length + 2 < BUFSIZ
    ∧ option_tokens "ro,ro".data = ["ro".data, "ro".data]
    ∧ option_data (option_tokens "ro,ro".data) = []
    ∧ (mountslot_of (tmpfs_entry "ro,ro".data)).opts = MS_RDONLY
    ∧ (mountslot_of (tmpfs_entry "ro,ro".data)).data = "ro".data
    ∧ option_tokens "mode=755,".data = ["mode=755".data, []]
    ∧ option_data (option_tokens "mode=755,".data) = "mode=755,".data
    ∧ (mountslot_of (tmpfs_entry "mode=755,".data)).data = "mode=755".data := by
  refine ⟨by decide, by decide, by decide, by decide, by decide, by decide, by decide,
    by decide⟩

end Execjail

namespace Execjail

/-! ## The `JAIL61` of the root directory -/

theorem jail61_consult_congr_at (A : Str → Bool) (W W' : World) (h : SameButJail61At A W W')
    (cmds : List Cmd) (p : Str) (hp : A p = false) :
    jail61_consult W' cmds p = jail61_consult W cmds p
      ∧ jail61_warns W' cmds p = jail61_warns W cmds p := by
  obtain ⟨_, _, _, e4⟩ := h
  obtain ⟨e5, e6, e7⟩ := e4 cmds p hp
  unfold jail61_consult jail61_warns
  rw [e5, e6, e7]
  exact ⟨rfl, rfl⟩

theorem walk_component_congr_at (A : Str → Bool) (W W' : World) (h : SameButJail61At A W W')
    (doexec : Bool) (jaildir : Str) (lp np : Nat) (st : WalkState)
    (hp : lp = 0 ∨ A (substr jaildir 0 np) = false) :
    walk_component W' doexec jaildir lp np st = walk_component W doexec jaildir lp np st := by
  have hc := jail61_consult_congr_at A W W' h
  obtain ⟨e1, e2, e3, _⟩ := h
  rcases hp with hp | hp
  · subst hp
    unfold walk_component walk_open
    simp only [e1, e2, e3, substr, List.drop_zero, List.take_zero, List.length_nil,
      bne_self_eq_false, Bool.and_false, Bool.false_eq_true, if_false]
  · unfold walk_component walk_open
    simp only [e1, e2, e3, (hc _ _ hp).1, (hc _ _ hp).2]

theorem walk_components_congr_at (A : Str → Bool) (W W' : World) (h : SameButJail61At A W W')
    (doexec : Bool) (jaildir : Str) : ∀ (ps : List (Nat × Nat)) (st : WalkState),
    (∀ p ∈ ps, p.1 = 0 ∨ A (substr jaildir 0 p.2) = false) →
    walk_components W' doexec jaildir ps st = walk_components W doexec jaildir ps st := by
  intro ps
  induction ps with
  | nil => intro st _; rfl
  | cons p rest ih =>
    intro st hall
    obtain ⟨lp, np⟩ := p
    simp only [walk_components,
      walk_component_congr_at A W W' h doexec jaildir lp np st (hall (lp, np) (by simp))]
    cases walk_component W doexec jaildir lp np st with
    | error e => rfl
    | ok st1 => exact ih st1 (fun p hp => hall p (List.mem_cons_of_mem _ hp))

theorem walk_advance_fst_le (jaildir : Str) (lp : Nat) :
    (walk_advance jaildir lp).1 ≤ (walk_advance jaildir lp).2 := by
  unfold walk_advance
  simp only []
  omega

theorem walk_advance_le_fst (jaildir : Str) (lp : Nat) (h : lp ≠ 0) :
    lp ≤ (walk_advance jaildir lp).1 := by
  unfold walk_advance
  have hb : (lp == 0) = false := by simpa using h
  simp only [hb, Bool.false_eq_true, if_false]
  omega

theorem walk_positions_snd (jaildir : Str) : ∀ (fuel lp : Nat), lp ≠ 0 → lp ≤ jaildir.length →
    ∀ p ∈ walk_positions jaildir fuel lp,
      lp < jaildir.length ∧ (walk_advance jaildir lp).1 ≤ p.2 ∧ p.2 ≤ jaildir.length := by
  intro fuel
  induction fuel with
  | zero => intro lp _ _ p hp; simp [walk_positions] at hp
  | succ fuel ih =>
    intro lp h0 hle p hp
    rw [walk_positions] at hp
    by_cases he : lp = jaildir.length
    · simp [he] at hp
    · have hb : (lp == jaildir.length) = false := by simpa using he
      simp only [hb, Bool.false_eq_true, if_false] at hp
      have hlt : lp < jaildir.length := by omega
      obtain ⟨b1, b2⟩ := walk_advance_bounds jaildir lp hlt
      have b3 := walk_advance_fst_le jaildir lp
      rcases List.mem_cons.mp hp with h | h
      · subst h
        exact ⟨hlt, Nat.le_refl _, by omega⟩
      · obtain ⟨_, c2, c3⟩ := ih _ (by omega) b2 p h
        have c4 := walk_advance_le_fst jaildir (walk_advance jaildir lp).2 (by omega)
        exact ⟨hlt, by omega, c3⟩

theorem drop_length_takeWhile (p : Char → Bool) (l : Str) :
    l.drop (l.takeWhile p).length = l.dropWhile p := by
  induction l with
  | nil => rfl
  | cons a t ih =>
    by_cases h : p a = true
    · simp [List.takeWhile_cons, List.dropWhile_cons, h, ih]
    · simp [List.takeWhile_cons, List.dropWhile_cons, h]

theorem head_dropWhile (p : Char → Bool) (l : Str) :
    l.dropWhile p = [] ∨ ∃ c rest, l.dropWhile p = c :: rest ∧ p c = false := by
  induction l with
  | nil => exact Or.inl rfl
  | cons a t ih =>
    by_cases h : p a = true
    · simpa [List.dropWhile_cons, h] using ih
    · right
      exact ⟨a, t, by simp [List.dropWhile_cons, h], by simpa using h⟩

/-- The second iteration of the walk, when there is one, ends behind the
first component below the root, which is not empty. -/
theorem walk_second_position (jaildir : Str) (h : (walk_advance jaildir 0).2 < jaildir.length) :
    (walk_advance jaildir (walk_advance jaildir 0).2).1
        = 1 + ((jaildir.drop 1).takeWhile (fun c => c == '/')).length
            + (first_component jaildir).length
      ∧ first_component jaildir ≠ [] := by
  have e0 : (walk_advance jaildir 0).2
      = 1 + ((jaildir.drop 1).takeWhile (fun c => c == '/')).length := by
    simp [walk_advance]
  rw [e0] at h ⊢
  have ed : jaildir.drop (1 + ((jaildir.drop 1).takeWhile (fun c => c == '/')).length)
      = (jaildir.drop 1).dropWhile (fun c => c == '/') := by
    have e : jaildir.drop (1 + ((jaildir.drop 1).takeWhile (fun c => c == '/')).length)
        = (jaildir.drop 1).drop ((jaildir.drop 1).takeWhile (fun c => c == '/')).length := by
      rw [List.drop_drop]
    rw [e]
    exact drop_length_takeWhile _ _
  constructor
  · unfold walk_advance first_component
    have hb : ((1 + ((jaildir.drop 1).takeWhile (fun c => c == '/')).length) == 0) = false := by
      simp
    simp only [hb, Bool.false_eq_true, if_false, ed]
  · unfold first_component
    rcases head_dropWhile (fun c => c == '/') (jaildir.drop 1) with hnil | ⟨c, rest, hc, hp⟩
    · rw [← ed] at hnil
      have := List.drop_eq_nil_iff.mp hnil
      omega
    · rw [hc]
      have : (c != '/') = true := by simpa using hp
      simp [List.takeWhile_cons, this]

theorem component_mem_of_decomp (pre w post : Str) (hw : ∀ c ∈ w, c ≠ '/')
    (hpre : pre = [] ∨ pre.getLast? = some '/') (hpost : post = [] ∨ post.head? = some '/') :
    w ∈ slashComponents (pre ++ w ++ post) := by
  have hw1 : slashComponents w = [w] :=
    splitBy_no_sep _ w (fun c hc => by simpa using hw c hc)
  have key : w ∈ slashComponents (w ++ post) := by
    rcases hpost with h | h
    · subst h
      rw [List.append_nil, hw1]
      exact List.mem_singleton_self _
    · cases post with
      | nil => simp at h
      | cons a t =>
        simp only [List.head?_cons, Option.some.injEq] at h
        subst h
        rw [slashComponents_append_slash, hw1]
        exact List.mem_append_left _ (List.mem_singleton_self _)
  rcases hpre with h | h
  · subst h; simpa using key
  · obtain ⟨pre1, e⟩ : ∃ pre1, pre = pre1 ++ ['/'] := by
      exact ⟨pre.dropLast, (List.dropLast_append_getLast? '/' (by simpa using h)).symm⟩
    subst e
    have e2 : pre1 ++ ['/'] ++ w ++ post = pre1 ++ '/' :: (w ++ post) := by simp
    rw [e2, slashComponents_append_slash]
    exact List.mem_append_right _ key

theorem getLast?_slashes (sl : Str) (h : ∀ c ∈ sl, c = '/') :
    ('/' :: sl).getLast? = some '/' := by
  induction sl with
  | nil => rfl
  | cons a t ih =>
    have ha : a = '/' := h a (List.mem_cons_self _ _)
    subst ha
    rw [List.getLast?_cons_cons]
    exact ih (fun c hc => h c (List.mem_cons_of_mem _ hc))

/-- No prefix of `jaildir` that reaches behind the first component below the root names
the root directory, unless that component is `.`. -/
theorem names_root_take (jaildir : Str) (h1 : first_component jaildir ≠ [])
    (h2 : first_component jaildir ≠ ['.']) (n : Nat)
    (hn : 1 + ((jaildir.drop 1).takeWhile (fun c => c == '/')).length
        + (first_component jaildir).length ≤ n) :
    names_root (jaildir.take n) = false := by
  cases jaildir with
  | nil => exact absurd rfl h1
  | cons c d1 =>
    by_cases hc : c = '/'
    · subst hc
      have es : d1 = d1.takeWhile (fun c => c == '/')
          ++ (first_component ('/' :: d1)
            ++ (d1.dropWhile (fun c => c == '/')).dropWhile (fun c => c != '/')) := by
        unfold first_component
        simp only [List.drop_succ_cons, List.drop_zero]
        rw [List.takeWhile_append_dropWhile, List.takeWhile_append_dropWhile]
      simp only [List.drop_succ_cons, List.drop_zero] at hn
      generalize hsl : d1.takeWhile (fun c => c == '/') = sl at es hn
      generalize hfc : first_component ('/' :: d1) = fc at es hn h1 h2
      generalize hrest : (d1.dropWhile (fun c => c == '/')).dropWhile (fun c => c != '/') = rest
        at es
      have hslall : ∀ x ∈ sl, x = '/' := by
        intro x hx
        rw [← hsl] at hx
        simpa using (List.mem_takeWhile_imp hx)
      have hfcall : ∀ x ∈ fc, x ≠ '/' := by
        intro x hx
        rw [← hfc] at hx
        unfold first_component at hx
        simpa using (List.mem_takeWhile_imp hx)
      have hresthead : rest = [] ∨ rest.head? = some '/' := by
        rcases head_dropWhile (fun c => c != '/') (d1.dropWhile (fun c => c == '/'))
          with hnil | ⟨x, r, hx, hp⟩
        · left; rw [← hrest]; exact hnil
        · right
          rw [← hrest, hx]
          have : x = '/' := by simpa using hp
          rw [this]; rfl
      have et : ('/' :: d1).take n = ('/' :: sl) ++ fc ++ rest.take (n - (1 + sl.length + fc.length)) := by
        have e1 : '/' :: d1 = (('/' :: sl) ++ fc) ++ rest := by
          rw [es]; simp
        rw [e1, List.take_append_eq_append_take]
        have hl : (('/' :: sl) ++ fc).length = 1 + sl.length + fc.length := by
          simp; omega
        rw [hl, List.take_of_length_le (by rw [hl]; exact hn)]
      have hpost : rest.take (n - (1 + sl.length + fc.length)) = []
          ∨ (rest.take (n - (1 + sl.length + fc.length))).head? = some '/' := by
        rcases hresthead with h | h
        · left; rw [h]; simp
        · cases rest with
          | nil => left; simp
          | cons a t =>
            cases hm : n - (1 + sl.length + fc.length) with
            | zero => left; rfl
            | succ m =>
              right
              simpa using h
      have hmem := component_mem_of_decomp ('/' :: sl) fc _ hfcall
        (Or.inr (getLast?_slashes sl hslall)) hpost
      rw [← et] at hmem
      unfold names_root
      rw [Bool.and_eq_false_iff]
      right
      apply Bool.eq_false_iff.mpr
      intro hall
      have := List.all_eq_true.mp hall fc hmem
      rw [Bool.or_eq_true, beq_iff_eq, beq_iff_eq] at this
      rcases this with h | h
      · exact h1 h
      · exact h2 h
    · unfold names_root
      rw [Bool.and_eq_false_iff]
      left
      have hn1 : 1 ≤ n := by omega
      obtain ⟨m, rfl⟩ : ∃ m, n = m + 1 := ⟨n - 1, by omega⟩
      simp only [List.take_succ_cons, List.head?_cons, beq_eq_false_iff_ne, ne_eq,
        Option.some.injEq]
      exact hc

/-- In every iteration of the walk but the first, the directory looked at is not the one
opened as `/`, and it does not name the root directory unless the first component below the
root is `.`. -/
theorem walk_positions_consulted (jaildir : Str) :
    ∀ p ∈ walk_positions jaildir jaildir.length 0, p.1 = 0
      ∨ ((substr jaildir 0 p.2 == ['/']) = false
          ∧ (first_component jaildir ≠ ['.'] → names_root (substr jaildir 0 p.2) = false)) := by
  intro p hp
  cases hl : jaildir.length with
  | zero => rw [hl] at hp; simp [walk_positions] at hp
  | succ m =>
    rw [hl, walk_positions] at hp
    have hb : ((0 : Nat) == jaildir.length) = false := by
      rw [hl]; rfl
    simp only [hb, Bool.false_eq_true, if_false] at hp
    have hfst : (walk_advance jaildir 0).1 = 1 := by simp [walk_advance]
    rcases List.mem_cons.mp hp with h | h
    · left; rw [h]
    · right
      obtain ⟨b1, b2⟩ := walk_advance_bounds jaildir 0 (by omega)
      obtain ⟨c1, c2, c3⟩ := walk_positions_snd jaildir m _ (by omega) b2 p h
      obtain ⟨d1, d2⟩ := walk_second_position jaildir c1
      have hlen : 0 < (first_component jaildir).length := List.length_pos.mpr d2
      rw [d1] at c2
      constructor
      · apply beq_eq_false_iff_ne.mpr
        intro he
        have := congrArg List.length he
        simp only [substr, List.drop_zero, List.length_take, List.length_singleton] at this
        omega
      · intro hdot
        simp only [substr, List.drop_zero]
        exact names_root_take jaildir d2 hdot p.2 c2

/-- C23 (as amended): the walk consults no `JAIL61` in the iteration for the first path
component, so its outcome does not depend on the answers about the `JAIL61` of the
directory opened as `/`; and when the first component of JAILDIR below the root is not `.`,
the outcome does not depend on the `JAIL61` of any path that names the root directory, so
the records of `/JAIL61` have no effect on whether the jail is authorized. -/
theorem walk_skips_root_jail61 (W W' : World) (doexec : Bool) (jaildir : Str) :
    (SameButJail61At (fun p => p == ['/']) W W' →
      policy_walk W' doexec jaildir = policy_walk W doexec jaildir)
    ∧ (first_component jaildir ≠ ['.'] → SameButJail61At names_root W W' →
      policy_walk W' doexec jaildir = policy_walk W doexec jaildir) := by
  constructor
  · intro h
    unfold policy_walk
    rw [walk_components_congr_at _ W W' h doexec jaildir _ _ (fun p hp => by
      rcases walk_positions_consulted jaildir p hp with h0 | ⟨h1, _⟩
      · exact Or.inl h0
      · exact Or.inr h1)]
  · intro hdot h
    unfold policy_walk
    rw [walk_components_congr_at _ W W' h doexec jaildir _ _ (fun p hp => by
      rcases walk_positions_consulted jaildir p hp with h0 | ⟨_, h2⟩
      · exact Or.inl h0
      · exact Or.inr (h2 hdot))]

/-- C23 on `/srv/jail`: with `nojail` in the `JAIL61` of the root directory, the walk is
authorized by `/srv/JAIL61` exactly as without it. -/
theorem walk_skips_root_jail61_witness :
    first_component "/srv/jail".data ≠ ['.']
    ∧ policy_walk (world_root_jail61 "nojail\n".data [("/srv".data, "allowjail /srv/\n".data)])
        true "/srv/jail".data
      = policy_walk (example_world [("/srv".data, "allowjail /srv/\n".data)] []) true
        "/srv/jail".data :=
  ⟨by decide,
   (walk_skips_root_jail61 (example_world [("/srv".data, "allowjail /srv/\n".data)] [])
      (world_root_jail61 "nojail\n".data [("/srv".data, "allowjail /srv/\n".data)])
      true "/srv/jail".data).2 (by decide)
    ⟨rfl, rfl, rfl, fun cmds p hp => by
      have h1 : p ≠ "/".data := by
        rintro rfl
        exact absurd hp (by decide)
      have h2 : p ≠ "/.".data := by
        rintro rfl
        exact absurd hp (by decide)
      have e1 : (p == "/".data) = false := beq_eq_false_iff_ne.mpr h1
      have e2 : (p == "/.".data) = false := beq_eq_false_iff_ne.mpr h2
      simp only [world_root_jail61, example_world, List.lookup, e1, e2]
      exact ⟨trivial, trivial, trivial⟩⟩⟩

/-- C23 as stated fails: `/./srv/jail` passes `check_filename`, its second component `.`
names the root directory again, and in that iteration the walk reads the `JAIL61` of the
root directory.  With `allowjail /./srv/` there the jail is authorized, with `nojail` there
it is refused, and with no `JAIL61` anywhere the walk ends in the exit of
"No JAIL61 above here". -/
theorem root_jail61_read_through_dot :
    check_filename "/./srv/jail".data true true = true
    ∧ walk_positions "/./srv/jail".data "/./srv/jail".data.length 0
        = [(0, 1), (1, 2), (3, 6), (7, 11)]
    ∧ substr "/./srv/jail".data 0 2 = "/.".data
    ∧ policy_walk (world_root_jail61 "allowjail /./srv/\n".data []) true "/./srv/jail".data
        = .ok { found_superdir := true, jailsuperdir := "/./srv/".data,
                jailparent := "/./srv/".data, jailcomponent := "jail".data,
                cmds := [], ignored := [] }
    ∧ policy_walk (world_root_jail61 "nojail\n".data []) true "/./srv/jail".data
        = .error (.nojail_here "/.".data)
    ∧ policy_walk world_no_policy true "/./srv/jail".data = .error .no_allowjail := by
  refine ⟨by decide, by decide, by decide, by decide, by decide, by decide⟩

end Execjail

namespace Execjail

/-! ## The order of the unmounts -/

theorem char_toNat_inj (a b : Char) (h : a.toNat = b.toNat) : a = b := by
  rw [char_eq_ofNat_toNat a, char_eq_ofNat_toNat b, h]

theorem strLt_irrefl : ∀ (a : Str), strLt a a = false := by
  intro a
  induction a with
  | nil => rfl
  | cons c cs ih => simp [strLt, ih]

theorem strLt_trans : ∀ (a b c : Str), strLt a b = true → strLt b c = true → strLt a c = true := by
  intro a
  induction a with
  | nil =>
    intro b c h1 h2
    cases b with
    | nil => simp [strLt] at h1
    | cons y ys =>
      cases c with
      | nil => simp [strLt] at h2
      | cons z zs => rfl
  | cons x xs ih =>
    intro b c h1 h2
    cases b with
    | nil => simp [strLt] at h1
    | cons y ys =>
      cases c with
      | nil => simp [strLt] at h2
      | cons z zs =>
        simp only [strLt, Bool.or_eq_true, decide_eq_true_eq, Bool.and_eq_true, beq_iff_eq]
          at h1 h2 ⊢
        rcases h1 with h1 | ⟨e1, h1⟩
        · rcases h2 with h2 | ⟨e2, h2⟩
          · exact Or.inl (by omega)
          · subst e2; exact Or.inl h1
        · subst e1
          rcases h2 with h2 | ⟨e2, h2⟩
          · exact Or.inl h2
          · exact Or.inr ⟨e2, ih ys zs h1 h2⟩

theorem strLt_total : ∀ (a b : Str), strLt a b = false → a ≠ b → strLt b a = true := by
  intro a
  induction a with
  | nil =>
    intro b h1 h2
    cases b with
    | nil => exact absurd rfl h2
    | cons y ys => simp [strLt] at h1
  | cons x xs ih =>
    intro b h1 h2
    cases b with
    | nil => rfl
    | cons y ys =>
      simp only [strLt, Bool.or_eq_false_iff, decide_eq_false_iff_not, Bool.and_eq_false_iff,
        beq_eq_false_iff_ne, ne_eq] at h1
      simp only [strLt, Bool.or_eq_true, decide_eq_true_eq, Bool.and_eq_true, beq_iff_eq]
      by_cases hxy : x.toNat = y.toNat
      · have e := char_toNat_inj x y hxy
        subst e
        right
        refine ⟨rfl, ih ys ?_ ?_⟩
        · rcases h1.2 with h | h
          · exact absurd rfl h
          · exact h
        · intro e
          exact h2 (by rw [e])
      · left
        omega

theorem strLt_append_cons (p : Str) (c : Char) (r : Str) : strLt p (p ++ c :: r) = true := by
  induction p with
  | nil => rfl
  | cons a t ih => simp [strLt, ih]

theorem keys_map_insert {α : Type} (k : Str) (v : α) (t : List (Str × α)) :
    ∀ x ∈ (map_insert k v t).map Prod.fst, x = k ∨ x ∈ t.map Prod.fst := by
  intro x hx
  obtain ⟨e, he, rfl⟩ := List.mem_map.mp hx
  rcases mem_map_insert k v t e he with h | h
  · left; rw [h]
  · right; exact List.mem_map.mpr ⟨e, h, rfl⟩

theorem keysAscending_insert {α : Type} (k : Str) (v : α) :
    ∀ (t : List (Str × α)), KeysAscending t → KeysAscending (map_insert k v t) := by
  intro t
  induction t with
  | nil =>
    intro _
    simp [KeysAscending, map_insert]
  | cons x rest ih =>
    intro h
    obtain ⟨k1, v1⟩ := x
    unfold KeysAscending at h ih ⊢
    simp only [List.map_cons, List.pairwise_cons] at h
    obtain ⟨h1, h2⟩ := h
    rw [map_insert]
    by_cases c1 : strLt k k1 = true
    · rw [if_pos c1]
      simp only [List.map_cons, List.pairwise_cons, List.mem_cons]
      refine ⟨?_, h1, h2⟩
      rintro a (rfl | ha)
      · exact c1
      · exact strLt_trans _ _ _ c1 (h1 a ha)
    · rw [if_neg c1]
      by_cases c2 : (k == k1) = true
      · rw [if_pos c2]
        have e : k = k1 := by simpa using c2
        subst e
        simp only [List.map_cons, List.pairwise_cons]
        exact ⟨h1, h2⟩
      · rw [if_neg c2]
        simp only [List.map_cons, List.pairwise_cons]
        refine ⟨?_, ih h2⟩
        intro a ha
        rcases keys_map_insert k v rest a ha with e | e
        · rw [e]
          exact strLt_total k k1 (by simpa using c1) (by simpa using c2)
        · exact h1 a e

theorem keysAscending_populate (W : World) (b : Build) (h : KeysAscending b.mount_table) :
    KeysAscending (populate_mount_table W b).2.mount_table := by
  unfold populate_mount_table
  cases W.mounts b.cmds with
  | none => exact h
  | some entries =>
    simp only []
    generalize b.mount_table = t at h
    induction entries generalizing t with
    | nil => exact h
    | cons me rest ih => exact ih _ (keysAscending_insert _ _ t h)

theorem mounts_under_append (jaildir : Str) (t1 t2 : List (Str × mountslot)) :
    mounts_under jaildir (t1 ++ t2) = mounts_under jaildir t1 ++ mounts_under jaildir t2 := by
  simp [mounts_under]

theorem handle_umount_trace (cfg : Config) (W : World) (dir : Str) (b b1 : Build)
    (h : handle_umount cfg W dir b = some b1) :
    b1.trace = b.trace ++ (if cfg.verbose then [Cmd.umount dir] else []) := by
  unfold handle_umount at h
  simp only [] at h
  have hs : (b.say cfg (.umount dir)).trace
      = b.trace ++ (if cfg.verbose then [Cmd.umount dir] else []) := by
    unfold Build.say
    split <;> simp
  split at h
  · simp only [Option.some.injEq] at h
    rw [← h, ← hs]
    rfl
  · split at h
    · simp only [Option.some.injEq] at h
      rw [← h, ← hs]
      rfl
    · cases h

theorem umount_all_trace (cfg : Config) (W : World) (jaildir : Str) :
    ∀ (t : List (Str × mountslot)) (b b1 : Build), umount_all cfg W jaildir t b = some b1 →
      b1.trace = b.trace
        ++ (if cfg.verbose then (mounts_under jaildir t).map Cmd.umount else []) := by
  intro t
  induction t with
  | nil =>
    intro b b1 h
    simp only [umount_all, Option.some.injEq] at h
    subst h
    simp [mounts_under]
  | cons e rest ih =>
    intro b b1 h
    rw [umount_all] at h
    by_cases hu : under_jail jaildir e.1 = true
    · rw [if_pos hu] at h
      have hm : mounts_under jaildir (e :: rest) = e.1 :: mounts_under jaildir rest := by
        simp [mounts_under, List.filter_cons, hu]
      cases hh : handle_umount cfg W e.1 b with
      | none => rw [hh] at h; cases h
      | some b0 =>
        rw [hh] at h
        rw [ih _ _ h, handle_umount_trace cfg W e.1 b b0 hh, hm]
        cases cfg.verbose <;> simp
    · rw [if_neg hu] at h
      have hm : mounts_under jaildir (e :: rest) = mounts_under jaildir rest := by
        simp [mounts_under, List.filter_cons, hu]
      rw [hm]
      exact ih _ _ h

theorem pairwise_before (L : List Str) (hL : L.Pairwise (fun a b => strLt a b = true))
    (p q : Str) (hp : p ∈ L) (hq : q ∈ L) (hpq : strLt p q = true) :
    ∃ l1 l2 l3, L = l1 ++ p :: l2 ++ q :: l3 := by
  obtain ⟨l1, r, e⟩ := List.append_of_mem hp
  subst e
  have hne : q ≠ p := by
    rintro rfl
    rw [strLt_irrefl] at hpq
    cases hpq
  rw [List.pairwise_append] at hL
  obtain ⟨_, hr, hcross⟩ := hL
  rcases List.mem_append.mp hq with h | h
  · exfalso
    have h1 := hcross q h p (List.mem_cons_self _ _)
    have h2 := strLt_trans _ _ _ h1 hpq
    rw [strLt_irrefl] at h2
    cases h2
  · rcases List.mem_cons.mp h with h | h
    · exact absurd h hne
    · obtain ⟨l2, l3, e⟩ := List.append_of_mem h
      subst e
      exact ⟨l1, l2, l3, by simp⟩

theorem umount_all_some_iff (cfg : Config) (W : World) (jaildir : Str)
    (hd : cfg.dryrun = false) : ∀ (t : List (Str × mountslot)) (b : Build),
    (∃ b1, umount_all cfg W jaildir t b = some b1)
      ↔ ∀ l1 d l2, mounts_under jaildir t = l1 ++ d :: l2 →
          W.run (b.cmds ++ l1.map Cmd.umount) (.umount d) = none := by
  intro t
  induction t with
  | nil =>
    intro b
    constructor
    · intro _ l1 d l2 h
      simp [mounts_under] at h
    · intro _
      exact ⟨b, rfl⟩
  | cons e rest ih =>
    intro b
    rw [umount_all]
    by_cases hu : under_jail jaildir e.1 = true
    · rw [if_pos hu]
      have hm : mounts_under jaildir (e :: rest) = e.1 :: mounts_under jaildir rest := by
        simp [mounts_under, List.filter_cons, hu]
      rw [hm]
      have hsay : (b.say cfg (.umount e.1)).cmds = b.cmds := by
        unfold Build.say
        split <;> rfl
      cases hr : W.run b.cmds (.umount e.1) with
      | some err =>
        have hh : handle_umount cfg W e.1 b = none := by
          simp [handle_umount, hd, Build.issue, hsay, hr]
        rw [hh]
        constructor
        · rintro ⟨b1, h⟩
          cases h
        · intro h
          have := h [] e.1 (mounts_under jaildir rest) rfl
          simp only [List.map_nil, List.append_nil] at this
          rw [hr] at this
          cases this
      | none =>
        have hh : handle_umount cfg W e.1 b
            = some ((b.say cfg (.umount e.1)).issue W (.umount e.1)).2 := by
          simp [handle_umount, hd, Build.issue, hsay, hr]
        have hc : ((b.say cfg (.umount e.1)).issue W (.umount e.1)).2.cmds
            = b.cmds ++ [.umount e.1] := by
          simp only [Build.issue, hsay]
        rw [hh]
        simp only []
        rw [ih, hc]
        constructor
        · intro h l1 d l2 hsplit
          cases l1 with
          | nil =>
            simp only [List.nil_append, List.cons.injEq] at hsplit
            rw [← hsplit.1]
            simpa using hr
          | cons x l1t =>
            simp only [List.cons_append, List.cons.injEq] at hsplit
            have := h l1t d l2 hsplit.2
            rw [← hsplit.1]
            simpa using this
        · intro h l1 d l2 hsplit
          have := h (e.1 :: l1) d l2 (by rw [hsplit]; rfl)
          simpa using this
    · rw [if_neg hu]
      have hm : mounts_under jaildir (e :: rest) = mounts_under jaildir rest := by
        simp [mounts_under, List.filter_cons, hu]
      rw [hm]
      exact ih b

/-- C24: the teardown goes through the mount table in ascending byte-wise lexicographic order
of the mountpoint path, and calls `umount` for each mountpoint under `JAILDIR/` in that
order.  A real run gets through exactly when each of these calls, issued after the ones
for the mountpoints before it, succeeds (the first failure ends the program); a dry run
always gets through and issues none.  When the teardown gets through, the `umount` calls
issued (real run) and the lines written to `verbosefile` (when verbose) are those of the
whole list, in order, and at every point of the loop they are those of the entries met so
far.  A mountpoint `p` under `JAILDIR/` comes before every mountpoint `q` that begins with
`p` followed by `/`. -/
theorem teardown_umount_order (cfg : Config) (W : World) (jaildir : Str) (b : Build)
    (hb : KeysAscending b.mount_table) :
    (mounts_under (teardown_jaildir jaildir) (populate_mount_table W b).2.mount_table).Pairwise
        (fun p q => strLt p q = true)
    ∧ ((∃ b1, teardown_umounts cfg W jaildir b = some b1
          ∧ b1.cmds = b.cmds ++ (if cfg.dryrun then []
              else (mounts_under (teardown_jaildir jaildir)
                (populate_mount_table W b).2.mount_table).map Cmd.umount)
          ∧ b1.trace = b.trace ++ (if cfg.verbose
              then (mounts_under (teardown_jaildir jaildir)
                (populate_mount_table W b).2.mount_table).map Cmd.umount
              else []))
        ↔ (cfg.dryrun = true
            ∨ ∀ l1 d l2,
                mounts_under (teardown_jaildir jaildir) (populate_mount_table W b).2.mount_table
                  = l1 ++ d :: l2 →
                W.run (b.cmds ++ l1.map Cmd.umount) (.umount d) = none))
    ∧ (∀ t1 t2 b2, (populate_mount_table W b).2.mount_table = t1 ++ t2 →
        umount_all cfg W (teardown_jaildir jaildir) t1 (populate_mount_table W b).2 = some b2 →
          b2.cmds = b.cmds ++ (if cfg.dryrun then []
              else (mounts_under (teardown_jaildir jaildir) t1).map Cmd.umount)
          ∧ b2.trace = b.trace ++ (if cfg.verbose
              then (mounts_under (teardown_jaildir jaildir) t1).map Cmd.umount else [])
          ∧ mounts_under (teardown_jaildir jaildir) (populate_mount_table W b).2.mount_table
              = mounts_under (teardown_jaildir jaildir) t1
                ++ mounts_under (teardown_jaildir jaildir) t2)
    ∧ (∀ b1, teardown_umounts cfg W jaildir b = some b1 →
        b1.cmds = b.cmds ++ (if cfg.dryrun then []
            else (mounts_under (teardown_jaildir jaildir)
              (populate_mount_table W b).2.mount_table).map Cmd.umount))
    ∧ (∀ p q,
        p ∈ mounts_under (teardown_jaildir jaildir) (populate_mount_table W b).2.mount_table →
        q ∈ mounts_under (teardown_jaildir jaildir) (populate_mount_table W b).2.mount_table →
        (p ++ ['/']) <+: q →
        ∃ l1 l2 l3,
          mounts_under (teardown_jaildir jaildir) (populate_mount_table W b).2.mount_table
            = l1 ++ p :: l2 ++ q :: l3) := by
  have hsorted : (mounts_under (teardown_jaildir jaildir)
      (populate_mount_table W b).2.mount_table).Pairwise (fun p q => strLt p q = true) := by
    unfold mounts_under
    exact List.Pairwise.filter _ (keysAscending_populate W b hb)
  have hq : (populate_mount_table W b).2.cmds = b.cmds := by
    unfold populate_mount_table
    split <;> rfl
  have htr : (populate_mount_table W b).2.trace = b.trace := by
    unfold populate_mount_table
    split <;> rfl
  have hres : ∀ b1, teardown_umounts cfg W jaildir b = some b1 →
      b1.cmds = b.cmds ++ (if cfg.dryrun then []
          else (mounts_under (teardown_jaildir jaildir)
            (populate_mount_table W b).2.mount_table).map Cmd.umount)
      ∧ b1.trace = b.trace ++ (if cfg.verbose
          then (mounts_under (teardown_jaildir jaildir)
            (populate_mount_table W b).2.mount_table).map Cmd.umount
          else []) := by
    intro b1 h
    unfold teardown_umounts at h
    obtain ⟨h1, _, _⟩ := umount_all_spec cfg W _ _ _ _ h
    exact ⟨by rw [h1, hq], by rw [umount_all_trace cfg W _ _ _ _ h, htr]⟩
  refine ⟨hsorted, ?_, ?_, fun b1 h => (hres b1 h).1, ?_⟩
  · constructor
    · rintro ⟨b1, h, _⟩
      cases hd : cfg.dryrun with
      | true => exact Or.inl rfl
      | false =>
        right
        have h2 := (umount_all_some_iff cfg W (teardown_jaildir jaildir) hd
          (populate_mount_table W b).2.mount_table (populate_mount_table W b).2).mp ⟨b1, h⟩
        rw [hq] at h2
        exact h2
    · intro h
      have hex : ∃ b1, teardown_umounts cfg W jaildir b = some b1 := by
        cases hd : cfg.dryrun with
        | true =>
          exact umount_all_some cfg W (teardown_jaildir jaildir) (Or.inl hd) _ _
        | false =>
          rcases h with h | h
          · rw [hd] at h
            cases h
          · apply (umount_all_some_iff cfg W (teardown_jaildir jaildir) hd
              (populate_mount_table W b).2.mount_table (populate_mount_table W b).2).mpr
            rw [hq]
            exact h
      obtain ⟨b1, hb1⟩ := hex
      exact ⟨b1, hb1, hres b1 hb1⟩
  · intro t1 t2 b2 ht h
    obtain ⟨h1, _, _⟩ := umount_all_spec cfg W _ _ _ _ h
    refine ⟨by rw [h1, hq], by rw [umount_all_trace cfg W _ _ _ _ h, htr], ?_⟩
    rw [ht, mounts_under_append]
  · intro p q hp hq1 hpre
    obtain ⟨r, e⟩ := hpre
    have hlt : strLt p q = true := by
      rw [← e, List.append_assoc]
      exact strLt_append_cons p '/' r
    exact pairwise_before _ hsorted p q hp hq1 hlt

/-- C24 on a host with `/srv/jail/proc`, `/srv/jail/dev` and `/srv/jail/dev/pts` mounted in
that order, every `umount` succeeding: the teardown of `/srv/jail` gets through and has
issued `umount` for `/srv/jail/dev`, then `/srv/jail/dev/pts`, then `/srv/jail/proc`. -/
theorem teardown_umount_order_witness :
    KeysAscending Build.init.mount_table
    ∧ (∃ b1, teardown_umounts plain_config world_jail_nested "/srv/jail".data Build.init
          = some b1
        ∧ b1.cmds = [.umount "/srv/jail/dev".data, .umount "/srv/jail/dev/pts".data,
            .umount "/srv/jail/proc".data])
    ∧ ∃ l1 l2 l3,
        mounts_under (teardown_jaildir "/srv/jail".data)
            (populate_mount_table world_jail_nested Build.init).2.mount_table
          = l1 ++ "/srv/jail/dev".data :: l2 ++ "/srv/jail/dev/pts".data :: l3 :=
  have hb : KeysAscending Build.init.mount_table := List.Pairwise.nil
  have h := teardown_umount_order plain_config world_jail_nested "/srv/jail".data Build.init hb
  ⟨hb,
   match h.2.1.mpr (Or.inr (fun _ _ _ _ => rfl)) with
   | ⟨b1, h1, h2, _⟩ => ⟨b1, h1, h2.trans (by decide)⟩,
   h.2.2.2.2 "/srv/jail/dev".data "/srv/jail/dev/pts".data (by decide) (by decide) (by decide)⟩

end Execjail

